import Mathlib

/-!
# tnp1vc: the chunked, in-order-commit Collatz search

A shallow embedding of `tnp1vc.cpp`.  The program is a pool of identical
worker threads (`workerThread`) over five shared variables and one shared
array; it is modelled as an interleaving transition system:

* `Shared` holds the globals of namespace `tnp1`,
* `Worker` holds the locals of one running `workerThread` together with a
  program counter `PC` that names the statement it executes next,
* `workerThread` executes exactly one statement of one worker,
* `step` lets worker `w` take that step, `run` follows a schedule.

Every statement that touches a shared variable is a step of its own; the
passes of the inner do-while loop, which touch locals only, are steps too, so
a trajectory that never drops below the read limit is a worker that never
leaves `PC.inner`.  The statements between the turnstile and the `store` of
the read limit (lines 78 to 94) are run by one worker at a time
(`one_worker_in_turn`), which is why `memcpy` and the update of the maximum
are single steps.  Memory is sequentially consistent.

The `uint64_t` / `size_t` variables are naturals reduced modulo `2 ^ 64` at
every arithmetic operation, the `uint16_t` cells modulo `65536` at every
store.  The build-time constants are the fields of `Config`; `sourceConfig`
carries the values of the source file.  Array indices are naturals: an index
at or beyond the end of an array names the memory behind it, so that a copy
or a read past the end shows in the model instead of being undefined.

Several results assume `NoWrap`, that the 64-bit chunk counter has not
wrapped.  With the source constants this holds in every reachable state
(`noWrap_source`): the search meets its threshold at 1412987847, in chunk
21560, and no run claims more than 21576 chunks.
-/

namespace tnp1

/-- The build-time constants of namespace `tnp1`. -/
structure Config where
  STOP_AFTER : Nat
  WORKER_COUNT : Nat
  WORK_CHUNK_SIZE : Nat
  CACHE_SIZE : Nat

/-- The constants as the source file fixes them (lines 8 to 13). -/
def sourceConfig : Config where
  STOP_AFTER := 1000
  WORKER_COUNT := 16
  WORK_CHUNK_SIZE := 64 * 1024
  CACHE_SIZE := 4 * (1024 * 1024 * 1024) / 2 - 1

/-- The small configuration the specification proposes for end-to-end tests. -/
def testConfig : Config where
  STOP_AFTER := 20
  WORKER_COUNT := 4
  WORK_CHUNK_SIZE := 16
  CACHE_SIZE := 1024

/-- Number of values of `uint64_t` and of `size_t`. -/
def WORD : Nat := 2 ^ 64

/-- Number of values of `uint16_t`; `USHRT_MAX` is `SHORT - 1`. -/
def SHORT : Nat := 65536

/-- The constant `WORK_CHUNK_BYTES = WORK_CHUNK_SIZE * sizeof(uint16_t)` (line 12). -/
def WORK_CHUNK_BYTES (cfg : Config) : Nat := cfg.WORK_CHUNK_SIZE * 2 % WORD

/-- The statement a worker executes next.  Source lines:
`loopTest` 39, `claim` 40, `snapshot` 41 to 48, `inner` 50 to 61 (one pass of
the do-while body and its test), `finish` 63 to 70 and the `for` header 46,
`await` 74, `reload` 78, `updateMax` 80 to 84, `copy` 86 to 92, `store` 94,
`stopCheck` 96 to 98, `done` after the `while` loop. -/
inductive PC where
  | loopTest | claim | snapshot | inner | finish | await
  | reload | updateMax | copy | store | stopCheck | done
  deriving DecidableEq

/-- The locals of one `workerThread`.  `localCache i` for `i` at or beyond
`WORK_CHUNK_SIZE` stands for the stack memory that follows the array.
`chunkIdx` and `localTotals` are history variables: no statement reads them. -/
structure Worker where
  pc : PC
  localCache : Nat → Nat
  localReadLimit : Nat
  localWriteBase : Nat
  localMaxNOffset : Nat
  localMaxIterations : Nat
  offset : Nat
  iteration_count : Nat
  n : Nat
  chunkIdx : Nat
  localTotals : Nat → Nat

/-- The globals of namespace `tnp1`.  `globalCache i` for `i` at or beyond
`CACHE_SIZE` stands for the heap memory that follows the array.  `claimLog`,
`commitLog` and `totalLog` are history variables: the chunk starts returned by
the successive `fetch_add`s and the chunk starts whose commit has completed,
both oldest first, and for every value of a committed chunk the 64-bit total
`localIterations` its worker computed; no statement reads them. -/
structure Shared where
  programRunning : Bool
  globalCache : Nat → Nat
  globalReadLimit : Nat
  globalWriteBase : Nat
  globalMaxN : Nat
  globalMaxIterations : Nat
  claimLog : List Nat
  commitLog : List Nat
  totalLog : Nat → Nat

/-- A state of the whole process: the globals and the locals of every worker. -/
structure State where
  sh : Shared
  workers : Nat → Worker

/-- What the memory holds before the program writes it: the fresh heap block
behind `globalCache` and, per worker, the stack behind `localCache`. -/
structure Boot where
  heap : Nat → Nat
  stack : Nat → Nat → Nat

/-- The model of `std::memcpy(&dst[start], &src[0], count * sizeof(uint16_t))`. -/
def memcpy (dst src : Nat → Nat) (start count : Nat) : Nat → Nat :=
  fun i => if start ≤ i ∧ i < start + count then src (i - start) else dst i

/-- The byte count handed to `memcpy` by lines 86 to 92 for chunk start `lwb`:
the whole chunk when it ends below `CACHE_SIZE`, else
`std::max((size_t)0, CACHE_SIZE - localWriteBase) * sizeof(uint16_t)` in
unsigned 64-bit arithmetic. -/
def copyBytes (cfg : Config) (lwb : Nat) : Nat :=
  if (lwb + cfg.WORK_CHUNK_SIZE) % WORD < cfg.CACHE_SIZE then WORK_CHUNK_BYTES cfg
  else max 0 ((cfg.CACHE_SIZE + WORD - lwb) % WORD) * 2 % WORD

/-- The number of `uint16_t` entries the commit of chunk `lwb` copies. -/
def copyCount (cfg : Config) (lwb : Nat) : Nat := copyBytes cfg lwb / 2

/-- One pass through the body of the do-while loop (lines 51 to 60) on the
pair `(n, iteration_count)`. -/
def collatzPass (n count : Nat) : Nat × Nat :=
  if n % 2 = 1 then ((3 * n + 1) % WORD / 2, (count + 2) % WORD)
  else (n / 2, (count + 1) % WORD)

/-- Function update on the cells of `localCache` and `localTotals`. -/
def setCell (f : Nat → Nat) (i v : Nat) : Nat → Nat :=
  fun j => if j = i then v else f j

/-- Entering the body of the `for` loop at `offset` (lines 46 to 48), or
leaving the loop for the turnstile when `offset` has reached the chunk size. -/
def enterOffset (cfg : Config) (wk : Worker) (offset : Nat) : Worker :=
  if offset < cfg.WORK_CHUNK_SIZE then
    { wk with pc := PC.inner, offset := offset, iteration_count := 0,
              n := (wk.localWriteBase + offset) % WORD }
  else { wk with pc := PC.await, offset := offset }

/-- One statement of `workerThread`, executed by a worker with locals `wk`
on the globals `sh`. -/
def workerThread (cfg : Config) (sh : Shared) (wk : Worker) : Shared × Worker :=
  match wk.pc with
  | PC.loopTest =>
      if sh.programRunning then (sh, { wk with pc := PC.claim })
      else (sh, { wk with pc := PC.done })
  | PC.claim =>
      ({ sh with globalWriteBase := (sh.globalWriteBase + cfg.WORK_CHUNK_SIZE) % WORD,
                 claimLog := sh.claimLog ++ [sh.globalWriteBase] },
       { wk with pc := PC.snapshot, localWriteBase := sh.globalWriteBase,
                 chunkIdx := sh.claimLog.length })
  | PC.snapshot =>
      (sh, enterOffset cfg
             { wk with localReadLimit := sh.globalReadLimit, localMaxNOffset := 0,
                       localMaxIterations := 0 } 0)
  | PC.inner =>
      let p := collatzPass wk.n wk.iteration_count
      if p.1 ≥ wk.localReadLimit then (sh, { wk with n := p.1, iteration_count := p.2 })
      else (sh, { wk with pc := PC.finish, n := p.1, iteration_count := p.2 })
  | PC.finish =>
      let localIterations := (sh.globalCache wk.n + wk.iteration_count) % WORD
      let wk1 := { wk with localCache := setCell wk.localCache wk.offset (localIterations % SHORT),
                           localTotals := setCell wk.localTotals wk.offset localIterations }
      let wk2 := if localIterations > wk.localMaxIterations then
                   { wk1 with localMaxIterations := localIterations, localMaxNOffset := wk.offset }
                 else wk1
      (sh, enterOffset cfg wk2 ((wk.offset + 1) % WORD))
  | PC.await =>
      if sh.globalReadLimit ≠ wk.localWriteBase then (sh, wk)
      else (sh, { wk with pc := PC.reload })
  | PC.reload =>
      (sh, { wk with pc := PC.updateMax, localReadLimit := sh.globalReadLimit })
  | PC.updateMax =>
      if wk.localMaxIterations > sh.globalMaxIterations then
        ({ sh with globalMaxIterations := wk.localMaxIterations,
                   globalMaxN := (wk.localWriteBase + wk.localMaxNOffset) % WORD },
         { wk with pc := PC.copy })
      else (sh, { wk with pc := PC.copy })
  | PC.copy =>
      ({ sh with globalCache :=
                   memcpy sh.globalCache wk.localCache wk.localWriteBase
                     (copyCount cfg wk.localWriteBase) },
       { wk with pc := PC.store })
  | PC.store =>
      ({ sh with globalReadLimit := (wk.localReadLimit + cfg.WORK_CHUNK_SIZE) % WORD,
                 commitLog := sh.commitLog ++ [wk.localWriteBase],
                 totalLog := memcpy sh.totalLog wk.localTotals wk.localWriteBase
                               cfg.WORK_CHUNK_SIZE },
       { wk with pc := PC.stopCheck })
  | PC.stopCheck =>
      if sh.globalMaxIterations ≥ cfg.STOP_AFTER then
        ({ sh with programRunning := false }, { wk with pc := PC.loopTest })
      else (sh, { wk with pc := PC.loopTest })
  | PC.done => (sh, wk)

/-- Replace the locals of worker `w`. -/
def setWorker (ws : Nat → Worker) (w : Nat) (wk : Worker) : Nat → Worker :=
  fun v => if v = w then wk else ws v

/-- Worker `w` executes its next statement; identifiers outside the pool
name no thread and leave the state alone. -/
def step (cfg : Config) (s : State) (w : Nat) : State :=
  if w < cfg.WORKER_COUNT then
    let r := workerThread cfg s.sh (s.workers w)
    { sh := r.1, workers := setWorker s.workers w r.2 }
  else s

/-- A worker at the head of `workerThread`, after the fill loop of lines 35
to 37; the other locals are not yet initialised. -/
def freshWorker (cfg : Config) (stack : Nat → Nat) : Worker where
  pc := PC.loopTest
  localCache := fun idx => if idx < cfg.WORK_CHUNK_SIZE then 1000 else stack idx % SHORT
  localReadLimit := 0
  localWriteBase := 0
  localMaxNOffset := 0
  localMaxIterations := 0
  offset := 0
  iteration_count := 0
  n := 0
  chunkIdx := 0
  localTotals := fun _ => 0

/-- The state `main` hands to the pool (lines 107 to 117): the two seeded
cells, both counters at 2, the flag set, the maximum at zero. -/
def main (cfg : Config) (boot : Boot) : State where
  sh :=
    { programRunning := true
      globalCache := fun i => if i = 0 then SHORT - 1 else if i = 1 then 0 else boot.heap i % SHORT
      globalReadLimit := 2
      globalWriteBase := 2
      globalMaxN := 0
      globalMaxIterations := 0
      claimLog := []
      commitLog := []
      totalLog := fun _ => 0 }
  workers := fun w => freshWorker cfg (boot.stack w)

/-- The state after the workers named by the schedule have each taken one
step, in that order. -/
def run (cfg : Config) (s : State) (sched : List Nat) : State :=
  sched.foldl (step cfg) s

/-- The states the pool can be in: those some schedule leads to. -/
inductive Reachable (cfg : Config) (boot : Boot) : State → Prop where
  | start : Reachable cfg boot (main cfg boot)
  | next (s : State) (w : Nat) : Reachable cfg boot s → Reachable cfg boot (step cfg s w)


/-- The worker holds a chunk it has claimed and not yet committed. -/
def PC.holds : PC → Bool
  | PC.snapshot | PC.inner | PC.finish | PC.await
  | PC.reload | PC.updateMax | PC.copy | PC.store => true
  | _ => false

/-- The worker has passed the turnstile and not yet stored the new limit. -/
def PC.inTurn : PC → Bool
  | PC.reload | PC.updateMax | PC.copy | PC.store => true
  | _ => false

/-- The start of chunk number `k` as a 64-bit value. -/
def chunkStart (cfg : Config) (k : Nat) : Nat := (2 + k * cfg.WORK_CHUNK_SIZE) % WORD

/-- The workers of the pool that hold a chunk. -/
def holders (cfg : Config) (s : State) : Finset Nat :=
  (Finset.range cfg.WORKER_COUNT).filter (fun w => (s.workers w).pc.holds = true)

/-- The constants fit the machine: chunks are not empty, a chunk's byte count
and the chunks of a full pool fit 64 bits, and so does one chunk past the cache. -/
def Fits (cfg : Config) : Prop :=
  0 < cfg.WORK_CHUNK_SIZE ∧ 2 * cfg.WORK_CHUNK_SIZE < WORD ∧
  cfg.WORKER_COUNT * cfg.WORK_CHUNK_SIZE ≤ WORD ∧ cfg.CACHE_SIZE + cfg.WORK_CHUNK_SIZE < WORD

instance (cfg : Config) : Decidable (Fits cfg) := by unfold Fits; infer_instance

/-- The chunk counter has not wrapped: every chunk claimed so far ends below `2 ^ 64`. -/
def NoWrap (cfg : Config) (s : State) : Prop :=
  2 + s.sh.claimLog.length * cfg.WORK_CHUNK_SIZE < WORD

instance (cfg : Config) (s : State) : Decidable (NoWrap cfg s) := by unfold NoWrap; infer_instance

/-- The worker has executed line 78 since it passed the turnstile. -/
def PC.reloaded : PC → Bool
  | PC.updateMax | PC.copy | PC.store => true
  | _ => false

/-- The bookkeeping invariant of the two counters and the chunks in flight. -/
structure Inv (cfg : Config) (s : State) : Prop where
  writeBase : s.sh.globalWriteBase = chunkStart cfg s.sh.claimLog.length
  readLimit : s.sh.globalReadLimit = chunkStart cfg s.sh.commitLog.length
  claimLog : s.sh.claimLog = (List.range s.sh.claimLog.length).map (chunkStart cfg)
  commitLog : s.sh.commitLog = (List.range s.sh.commitLog.length).map (chunkStart cfg)
  count : s.sh.claimLog.length = s.sh.commitLog.length + (holders cfg s).card
  held : ∀ w, w < cfg.WORKER_COUNT → (s.workers w).pc.holds = true →
    s.sh.commitLog.length ≤ (s.workers w).chunkIdx ∧
    (s.workers w).chunkIdx < s.sh.claimLog.length ∧
    (s.workers w).localWriteBase = chunkStart cfg (s.workers w).chunkIdx
  distinct : ∀ w v, w < cfg.WORKER_COUNT → v < cfg.WORKER_COUNT →
    (s.workers w).pc.holds = true → (s.workers v).pc.holds = true →
    (s.workers w).chunkIdx = (s.workers v).chunkIdx → w = v
  turn : ∀ w, w < cfg.WORKER_COUNT → (s.workers w).pc.inTurn = true →
    (s.workers w).chunkIdx = s.sh.commitLog.length
  limit : ∀ w, w < cfg.WORKER_COUNT → (s.workers w).pc.reloaded = true →
    (s.workers w).localReadLimit = s.sh.globalReadLimit

/-- A memory that holds zero everywhere before the program writes it. -/
def zeroBoot : Boot := ⟨fun _ => 0, fun _ _ => 0⟩

/-- A schedule in the test configuration: workers 0, 1 and 2 claim the first
three chunks, then worker 0 computes the first chunk up to its `store`. -/
def beforeStore : State :=
  run testConfig (main testConfig zeroBoot) ([0, 0, 1, 1, 2, 2] ++ List.replicate 132 0)

/-- The state one step after `beforeStore`: worker 0 has committed the first chunk. -/
def committedOnce : State := step testConfig beforeStore 0

/-- The standard Collatz map: halve an even number, send an odd `n` to `3 n + 1`. -/
def collatz (n : Nat) : Nat := if n % 2 = 0 then n / 2 else 3 * n + 1

/-- The number `n` takes exactly `k` standard Collatz steps to reach 1. -/
def TakesSteps (n k : Nat) : Prop :=
  Nat.iterate collatz k n = 1 ∧ ∀ j, j < k → Nat.iterate collatz j n ≠ 1

/-- The Collatz trajectory of `n`, as far as it runs before it reaches 1 and
including that 1, stays below `bound`. -/
def StaysBelow (bound n : Nat) : Prop :=
  ∀ j, (∀ i, i < j → Nat.iterate collatz i n ≠ 1) → Nat.iterate collatz j n < bound

/-- The cell value `v` is right for `n`: when the trajectory of `n` fits 64
bits, `n` reaches 1 and `v` is its number of Collatz steps modulo `65536`. -/
def Settled (n v : Nat) : Prop :=
  StaysBelow WORD n → ∃ k, TakesSteps n k ∧ v = k % SHORT

/-- The worker is inside the `for` loop over the offsets of its chunk. -/
def PC.computing : PC → Bool
  | PC.inner | PC.finish => true
  | _ => false

/-- The worker has left the `for` loop and not yet released its chunk. -/
def PC.computed : PC → Bool
  | PC.await | PC.reload | PC.updateMax | PC.copy | PC.store => true
  | _ => false

/-- The number of offsets of the held chunk whose total is in `localCache`. -/
def progress (cfg : Config) (wk : Worker) : Nat :=
  if wk.pc.computing = true then wk.offset
  else if wk.pc.computed = true then cfg.WORK_CHUNK_SIZE else 0

/-- The cache is right below the read limit. -/
def CacheOK (cfg : Config) (sh : Shared) : Prop :=
  ∀ n, 1 ≤ n → n < sh.globalReadLimit → n < cfg.CACHE_SIZE → Settled n (sh.globalCache n)

/-- What the compute phase of one worker maintains. -/
structure WorkerOK (cfg : Config) (sh : Shared) (wk : Worker) : Prop where
  snap : wk.pc.computing = true →
    ∃ m, m ≤ sh.commitLog.length ∧ wk.localReadLimit = chunkStart cfg m
  off : wk.pc.computing = true → wk.offset < cfg.WORK_CHUNK_SIZE
  traj : wk.pc.computing = true → StaysBelow WORD (wk.localWriteBase + wk.offset) →
    ∃ c, wk.n = Nat.iterate collatz c (wk.localWriteBase + wk.offset) ∧
      wk.iteration_count = c % WORD ∧
      ∀ j, j < c → Nat.iterate collatz j (wk.localWriteBase + wk.offset) ≠ 1
  high : wk.pc = PC.inner → wk.localReadLimit ≤ wk.n
  low : wk.pc = PC.finish → wk.n < wk.localReadLimit
  scratch : ∀ i, i < progress cfg wk → wk.localWriteBase + i < cfg.CACHE_SIZE →
    Settled (wk.localWriteBase + i) (wk.localCache i)
  copied : wk.pc = PC.store → ∀ i, i < cfg.WORK_CHUNK_SIZE →
    wk.localWriteBase + i < cfg.CACHE_SIZE →
    Settled (wk.localWriteBase + i) (sh.globalCache (wk.localWriteBase + i))

/-- The caching invariant: the cache is right below the read limit and every
worker of the pool is on its way to extend it rightly. -/
def Compute (cfg : Config) (s : State) : Prop :=
  CacheOK cfg s.sh ∧ ∀ w, w < cfg.WORKER_COUNT → WorkerOK cfg s.sh (s.workers w)

/-- A configuration whose cache ends inside the first chunk: capacity 10,
chunk size 16, one worker, and a stop threshold the run does not meet early. -/
def clipConfig : Config where
  STOP_AFTER := 1000
  WORKER_COUNT := 1
  WORK_CHUNK_SIZE := 16
  CACHE_SIZE := 10

/-- A memory whose fresh heap holds 4242 everywhere. -/
def markedBoot : Boot := ⟨fun _ => 4242, fun _ _ => 0⟩

/-- The single worker of `clipConfig` after `k` steps. -/
def clipRun (k : Nat) : State :=
  run clipConfig (main clipConfig markedBoot) (List.replicate k 0)

/-- The pair `(n, v)` is what a scan of `f lo, ..., f (hi - 1)` that starts from
`(0, 0)` and replaces the pair at every strictly greater value leaves: `v`
bounds the values, and when positive it is attained first at `n`. -/
def TracksMax (f : Nat → Nat) (lo hi n v : Nat) : Prop :=
  (∀ m, lo ≤ m → m < hi → f m ≤ v) ∧
  (v = 0 → n = 0) ∧
  (0 < v → lo ≤ n ∧ n < hi ∧ f n = v ∧ ∀ m, lo ≤ m → m < n → f m < v)

/-- The worker has merged its chunk maximum into the global maximum and not
yet released the chunk. -/
def PC.published : PC → Bool
  | PC.copy | PC.store => true
  | _ => false

/-- The maximum tracking invariant: every worker's local pair is the scan
of the totals it has computed, and the global pair is the scan of the totals
of all committed chunks, with the chunk of the worker in turn included once
that worker has passed lines 80 to 84. -/
structure Track (cfg : Config) (s : State) : Prop where
  loc : ∀ w, w < cfg.WORKER_COUNT →
    (s.workers w).pc.computing = true ∨ (s.workers w).pc.computed = true →
    TracksMax (s.workers w).localTotals 0 (progress cfg (s.workers w))
      (s.workers w).localMaxNOffset (s.workers w).localMaxIterations
  quiet : (∀ w, w < cfg.WORKER_COUNT → (s.workers w).pc.published = false) →
    TracksMax s.sh.totalLog 2 s.sh.globalReadLimit s.sh.globalMaxN s.sh.globalMaxIterations
  pub : ∀ w, w < cfg.WORKER_COUNT → (s.workers w).pc.published = true →
    TracksMax (memcpy s.sh.totalLog (s.workers w).localTotals (s.workers w).localWriteBase
        cfg.WORK_CHUNK_SIZE) 2 (s.sh.globalReadLimit + cfg.WORK_CHUNK_SIZE)
      s.sh.globalMaxN s.sh.globalMaxIterations

/-- Every value picked by `good` is a cell of the cache and reaches 1 in
fewer than 65536 steps along a trajectory that fits 64 bits. -/
def Tame (cfg : Config) (good : Nat → Prop) : Prop :=
  ∀ n, good n → n < cfg.CACHE_SIZE ∧ StaysBelow WORD n ∧ ∃ k, TakesSteps n k ∧ k < SHORT

/-- The totals computed for the values picked by `good` are their Collatz
step counts: in the scratch record of every worker and in the log of the
committed chunks. -/
structure Exact (cfg : Config) (good : Nat → Prop) (s : State) : Prop where
  loc : ∀ w, w < cfg.WORKER_COUNT → ∀ i, i < progress cfg (s.workers w) →
    good ((s.workers w).localWriteBase + i) →
    TakesSteps ((s.workers w).localWriteBase + i) ((s.workers w).localTotals i)
  log : ∀ n, 2 ≤ n → n < s.sh.globalReadLimit → good n → TakesSteps n (s.sh.totalLog n)

/-- The worker is about to claim a chunk: it stands at the `fetch_add`, or at
the loop test with the run flag still set. -/
def willClaim (s : State) (w : Nat) : Bool :=
  decide ((s.workers w).pc = PC.claim) ||
    (decide ((s.workers w).pc = PC.loopTest) && s.sh.programRunning)

/-- The workers of the pool that are about to claim a chunk. -/
def claimers (cfg : Config) (s : State) : Finset Nat :=
  (Finset.range cfg.WORKER_COUNT).filter (fun w => willClaim s w = true)

/-- All workers of the pool have left their loop. -/
def Quiescent (cfg : Config) (s : State) : Prop :=
  ∀ w, w < cfg.WORKER_COUNT → (s.workers w).pc = PC.done

instance (cfg : Config) (s : State) : Decidable (Quiescent cfg s) := by
  unfold Quiescent; infer_instance

/-- The flag invariant: a cleared run flag means the stop threshold has been
met, and a worker has left its loop only after the flag was cleared. -/
structure Flag (cfg : Config) (s : State) : Prop where
  cleared : s.sh.programRunning = false → cfg.STOP_AFTER ≤ s.sh.globalMaxIterations
  left : ∀ w, w < cfg.WORKER_COUNT → (s.workers w).pc = PC.done → s.sh.programRunning = false

/-- Once the stop threshold is met, the chunks claimed so far and the claims
still to come number at most `K + WORKER_COUNT`. -/
def Budget (cfg : Config) (K : Nat) (s : State) : Prop :=
  cfg.STOP_AFTER ≤ s.sh.globalMaxIterations →
    s.sh.claimLog.length + (claimers cfg s).card ≤ K + cfg.WORKER_COUNT

/-- A reference computation of the Collatz step count: follow the trajectory
of `n` for at most `fuel` values; `none` when a value reaches `bound` or the
fuel runs out before 1 is reached. -/
def walk (bound : Nat) : Nat → Nat → Option Nat
  | 0, _ => none
  | fuel + 1, n =>
    if bound ≤ n then none
    else if n = 1 then some 0
    else (walk bound fuel (collatz n)).map (fun k => k + 1)

/-- What a single-threaded reference reports over `[lo, hi)`: the largest
Collatz step count `v` of a value in the range and the smallest value `n`
that attains it. -/
def RefMax (lo hi n v : Nat) : Prop :=
  lo ≤ n ∧ n < hi ∧ TakesSteps n v ∧
  (∀ m k, lo ≤ m → m < hi → TakesSteps m k → k ≤ v) ∧
  (∀ m k, lo ≤ m → m < n → TakesSteps m k → k < v)

/-- The test configuration with a pool of `wc` workers. -/
def poolConfig (wc : Nat) : Config := { testConfig with WORKER_COUNT := wc }

/-- The run of a single worker in the test configuration, to completion. -/
def soloRun : State :=
  run (poolConfig 1) (main (poolConfig 1) zeroBoot) (List.replicate 326 0)

/-- An interleaving of the pool of four: worker 0 commits the first two
chunks; before it tests the threshold, workers 1 and 2 pass the loop test and
claim the chunks at 34 and 50; everybody then runs to completion. -/
def poolSchedule : List Nat :=
  List.replicate 324 0 ++ [1, 1, 2, 2] ++ List.replicate 118 1 ++ List.replicate 112 2 ++
    [0, 0, 3]

/-- The state the pool of four reaches along `poolSchedule`. -/
def poolRun : State := run testConfig (main testConfig zeroBoot) poolSchedule

/-- A stretch of `c` Collatz steps from `a` to `b` that meets no 1 before its
end and stays within 64 bits. -/
def Stretch (a b c : Nat) : Prop :=
  Nat.iterate collatz c a = b ∧
  (∀ j, j < c → Nat.iterate collatz j a ≠ 1) ∧ (∀ j, j < c → Nat.iterate collatz j a < WORD)

instance (a b c : Nat) : Decidable (Stretch a b c) := by unfold Stretch; infer_instance

/-- Two steps after `committedOnce`: worker 1, which holds the chunk at 18,
has snapshotted the read limit 18, left the do-while loop with 9 and is about
to read `globalCache[9]`. -/
def readingNine : State := step testConfig (step testConfig committedOnce 1) 1

/-- What the compute phase of one worker maintains on its own locals, whatever
the shared cache holds: the offset stays inside the chunk, every scratch cell
written so far is the total of its offset narrowed to 16 bits, and the local
pair is the scan of the 64-bit totals. -/
structure Narrow (cfg : Config) (wk : Worker) : Prop where
  off : wk.pc.computing = true → wk.offset < cfg.WORK_CHUNK_SIZE
  cells : ∀ i, i < progress cfg wk → wk.localCache i = wk.localTotals i % SHORT
  scan : wk.pc.computing = true ∨ wk.pc.computed = true →
    TracksMax wk.localTotals 0 (progress cfg wk) wk.localMaxNOffset wk.localMaxIterations

/-- A configuration with chunks of a single value. -/
def unitConfig : Config where
  STOP_AFTER := 1000
  WORKER_COUNT := 1
  WORK_CHUNK_SIZE := 1
  CACHE_SIZE := 1024

/-- The cache as `main` seeds it, with both counters at `0x5555555555555555`:
the next chunk of `unitConfig` is that single value. -/
def sentinelChunk : State where
  sh := { (main unitConfig zeroBoot).sh with
            globalReadLimit := 6148914691236517205
            globalWriteBase := 6148914691236517205 }
  workers := (main unitConfig zeroBoot).workers

/-- The number of commits (executions of line 94) worker `v` performs along
the schedule `sched` from the state `s`. -/
def commitsBy (cfg : Config) (v : Nat) : State → List Nat → Nat
  | _, [] => 0
  | s, u :: rest =>
    (if u = v ∧ u < cfg.WORKER_COUNT ∧ (s.workers u).pc = PC.store then 1 else 0) +
      commitsBy cfg v (step cfg s u) rest

/-- The worker can still reach line 94: it holds a chunk, stands at the
`fetch_add`, or stands at the loop test with the run flag set. -/
def mayCommit (s : State) (v : Nat) : Bool :=
  (s.workers v).pc.holds || willClaim s v

/-- The state of the pool of four right before worker 0 commits the second
chunk, the commit that lifts the maximum to the stop threshold. -/
def beforeCrossing : State :=
  run testConfig (main testConfig zeroBoot) (List.replicate 323 0)

/-- The do-while loop of lines 50 to 61 on the pair `(n, iteration_count)`
with the snapshot `localReadLimit`: the body runs once before the first test;
`none` when the loop has not left after `fuel` passes. -/
def doWhile (localReadLimit : Nat) : Nat → Nat → Nat → Option (Nat × Nat)
  | 0, _, _ => none
  | fuel + 1, n, count =>
    if (collatzPass n count).1 ≥ localReadLimit then
      doWhile localReadLimit fuel (collatzPass n count).1 (collatzPass n count).2
    else some (collatzPass n count)

/-- The value a pass of the loop body leaves in `n`. -/
def passValue (n : Nat) : Nat := (collatzPass n 0).1

/-- The 16-bit entry lines 47 to 65 store for the start value `n`: the loop
from a count of zero, then the cell at the exit value plus the count, narrowed. -/
def entryFor (cache : Nat → Nat) (localReadLimit fuel n : Nat) : Option Nat :=
  (doWhile localReadLimit fuel n 0).map (fun r => (cache r.1 + r.2) % WORD % SHORT)

/-- A cache whose first cells hold the step counts of 1, 2 and 3. -/
def smallCache : Nat → Nat := fun m => if m = 2 then 1 else if m = 3 then 7 else 0

/-- The test configuration with the stop threshold at 0 and a pool of two. -/
def raceConfig : Config where
  STOP_AFTER := 0
  WORKER_COUNT := 2
  WORK_CHUNK_SIZE := 16
  CACHE_SIZE := 1024

/-- Workers 0 and 1 claim the chunks at 2 and 18, then worker 0 computes its
chunk and commits it: it has executed line 94 and stands at line 96. -/
def firstCommitted : State :=
  run raceConfig (main raceConfig zeroBoot) ([0, 0, 1, 1] ++ List.replicate 133 0)

/-- Worker 1 goes on from `firstCommitted` for `k` steps while worker 0 rests
at line 96. -/
def overtaken (k : Nat) : State := run raceConfig firstCommitted (List.replicate k 1)

/-- What ties the totals a worker has recorded for its chunk to the loop of
lines 50 to 61 run with its snapshot `L`: the loop in progress is a suffix of
the loop from the start value, every recorded total is the cell at the exit
value of that loop plus its count, and at line 94 the cache holds the copied
scratch entries. -/
structure Looped (cfg : Config) (sh : Shared) (wk : Worker) (L : Nat) : Prop where
  two : 2 ≤ L
  below : L ≤ sh.globalReadLimit
  snap : wk.pc.computing = true ∨ wk.pc = PC.await → wk.localReadLimit = L
  head : wk.pc = PC.inner → ∀ fuel r, doWhile L fuel wk.n wk.iteration_count = some r →
    ∃ fuel2, doWhile L fuel2 ((wk.localWriteBase + wk.offset) % WORD) 0 = some r
  exit : wk.pc = PC.finish → ∃ fuel,
    doWhile L fuel ((wk.localWriteBase + wk.offset) % WORD) 0 = some (wk.n, wk.iteration_count)
  totals : ∀ i, i < progress cfg wk → ∃ fuel r,
    doWhile L fuel ((wk.localWriteBase + i) % WORD) 0 = some r ∧
    wk.localTotals i = (sh.globalCache r.1 + r.2) % WORD
  copied : wk.pc = PC.store → ∀ i, i < copyCount cfg wk.localWriteBase →
    sh.globalCache (wk.localWriteBase + i) = wk.localCache i

/-- Every cell from 2 to below the read limit that lies inside the cache holds
the entry lines 47 to 65 compute for its index from the cells below a
snapshot `L` with `2 ≤ L ≤ index`. -/
def Written (cfg : Config) (sh : Shared) : Prop :=
  ∀ n, 2 ≤ n → n < sh.globalReadLimit → n < cfg.CACHE_SIZE →
    ∃ L fuel r, 2 ≤ L ∧ L ≤ n ∧ doWhile L fuel n 0 = some r ∧
      sh.globalCache n = (sh.globalCache r.1 + r.2) % WORD % SHORT

/-- The loop invariant of the pool: the two seeded cells are as `main` left
them, the committed cells are written, and every worker that holds totals
has them from its loop. -/
structure Loops (cfg : Config) (s : State) : Prop where
  seed : s.sh.globalCache 0 = SHORT - 1 ∧ s.sh.globalCache 1 = 0
  cells : Written cfg s.sh
  workers : ∀ w, w < cfg.WORKER_COUNT →
    (s.workers w).pc.computing = true ∨ (s.workers w).pc.computed = true →
    ∃ L, Looped cfg s.sh (s.workers w) L

/-! ## Theorems -/

theorem step_of_lt {cfg : Config} {s : State} {w : Nat} (h : w < cfg.WORKER_COUNT) :
    step cfg s w = ⟨(workerThread cfg s.sh (s.workers w)).1,
      setWorker s.workers w (workerThread cfg s.sh (s.workers w)).2⟩ := by
  simp [step, h]

theorem step_of_ge {cfg : Config} {s : State} {w : Nat} (h : ¬ w < cfg.WORKER_COUNT) :
    step cfg s w = s := by
  simp [step, h]

theorem reachable_run (cfg : Config) (boot : Boot) (sched : List Nat) :
    Reachable cfg boot (run cfg (main cfg boot) sched) := by
  have key : ∀ (l : List Nat) (s : State), Reachable cfg boot s → Reachable cfg boot (run cfg s l) := by
    intro l
    induction l with
    | nil => intro s hs; exact hs
    | cons w l ih => intro s hs; exact ih _ (Reachable.next s w hs)
  exact key sched _ Reachable.start

theorem setWorker_same (ws : Nat → Worker) (w : Nat) (wk : Worker) :
    setWorker ws w wk w = wk := by simp [setWorker]

theorem setWorker_other (ws : Nat → Worker) {w v : Nat} (wk : Worker) (h : v ≠ w) :
    setWorker ws w wk v = ws v := by simp [setWorker, h]

theorem holders_keep {cfg : Config} {s : State} {w : Nat} {sh : Shared} {wk : Worker}
    (h : wk.pc.holds = (s.workers w).pc.holds) :
    holders cfg ⟨sh, setWorker s.workers w wk⟩ = holders cfg s := by
  ext v
  simp only [holders, Finset.mem_filter, Finset.mem_range]
  by_cases hv : v = w
  · subst hv; simp [setWorker_same, h]
  · simp [setWorker_other _ _ hv]

theorem holders_gain {cfg : Config} {s : State} {w : Nat} {sh : Shared} {wk : Worker}
    (hw : w < cfg.WORKER_COUNT) (h0 : (s.workers w).pc.holds = false) (h1 : wk.pc.holds = true) :
    (holders cfg ⟨sh, setWorker s.workers w wk⟩).card = (holders cfg s).card + 1 := by
  have hnot : w ∉ holders cfg s := by simp [holders, h0]
  have : holders cfg ⟨sh, setWorker s.workers w wk⟩ = insert w (holders cfg s) := by
    ext v
    simp only [holders, Finset.mem_filter, Finset.mem_range, Finset.mem_insert]
    by_cases hv : v = w
    · subst hv; simp [setWorker_same, h1, hw]
    · simp [setWorker_other _ _ hv, hv]
  rw [this, Finset.card_insert_of_not_mem hnot]

theorem holders_lose {cfg : Config} {s : State} {w : Nat} {sh : Shared} {wk : Worker}
    (hw : w < cfg.WORKER_COUNT) (h0 : (s.workers w).pc.holds = true) (h1 : wk.pc.holds = false) :
    (holders cfg ⟨sh, setWorker s.workers w wk⟩).card = (holders cfg s).card - 1 := by
  have hmem : w ∈ holders cfg s := by simp [holders, h0, hw]
  have : holders cfg ⟨sh, setWorker s.workers w wk⟩ = (holders cfg s).erase w := by
    ext v
    simp only [holders, Finset.mem_filter, Finset.mem_range, Finset.mem_erase]
    by_cases hv : v = w
    · subst hv; simp [setWorker_same, h1]
    · simp [setWorker_other _ _ hv, hv]
  rw [this, Finset.card_erase_of_mem hmem]

theorem holders_pos {cfg : Config} {s : State} {w : Nat}
    (hw : w < cfg.WORKER_COUNT) (h0 : (s.workers w).pc.holds = true) :
    0 < (holders cfg s).card :=
  Finset.card_pos.mpr ⟨w, by simp [holders, h0, hw]⟩

theorem holders_card_le (cfg : Config) (s : State) : (holders cfg s).card ≤ cfg.WORKER_COUNT := by
  have := Finset.card_filter_le (Finset.range cfg.WORKER_COUNT) (fun w => (s.workers w).pc.holds = true)
  simpa [holders] using this

/-- A step that leaves the counters, the logs and the chunk of the stepping
worker alone preserves the bookkeeping invariant. -/
theorem inv_frame {cfg : Config} {s : State} (h : Inv cfg s) (w : Nat) (sh : Shared) (wk : Worker)
    (h1 : sh.claimLog = s.sh.claimLog) (h2 : sh.commitLog = s.sh.commitLog)
    (h3 : sh.globalReadLimit = s.sh.globalReadLimit)
    (h4 : sh.globalWriteBase = s.sh.globalWriteBase)
    (h5 : wk.pc.holds = (s.workers w).pc.holds) (h6 : wk.pc.inTurn = (s.workers w).pc.inTurn)
    (h7 : wk.chunkIdx = (s.workers w).chunkIdx)
    (h8 : wk.localWriteBase = (s.workers w).localWriteBase)
    (h9 : wk.pc.reloaded = true → (s.workers w).pc.reloaded = true ∧
      wk.localReadLimit = (s.workers w).localReadLimit) :
    Inv cfg ⟨sh, setWorker s.workers w wk⟩ := by
  have key : ∀ v, (setWorker s.workers w wk v).pc.holds = (s.workers v).pc.holds ∧
      (setWorker s.workers w wk v).pc.inTurn = (s.workers v).pc.inTurn ∧
      (setWorker s.workers w wk v).chunkIdx = (s.workers v).chunkIdx ∧
      (setWorker s.workers w wk v).localWriteBase = (s.workers v).localWriteBase := by
    intro v
    by_cases hv : v = w
    · subst hv; simp [setWorker_same, h5, h6, h7, h8]
    · simp [setWorker_other _ _ hv]
  constructor
  · simpa [h1, h4] using h.writeBase
  · simpa [h2, h3] using h.readLimit
  · simpa [h1] using h.claimLog
  · simpa [h2] using h.commitLog
  · rw [holders_keep h5]; simpa [h1, h2] using h.count
  · intro v hv hh
    simp only [(key v).1, (key v).2.2.1, (key v).2.2.2, h1, h2] at hh ⊢
    exact h.held v hv hh
  · intro u v hu hv hhu hhv he
    simp only [(key u).1, (key v).1, (key u).2.2.1, (key v).2.2.1] at hhu hhv he
    exact h.distinct u v hu hv hhu hhv he
  · intro v hv hh
    simp only [(key v).2.1, (key v).2.2.1, h2] at hh ⊢
    exact h.turn v hv hh
  · intro v hv hh
    by_cases hvw : v = w
    · subst hvw
      simp only [setWorker_same] at hh ⊢
      obtain ⟨a, b⟩ := h9 hh
      simp only [h3, b]
      exact h.limit v hv a
    · simp only [setWorker_other _ _ hvw, h3] at hh ⊢
      exact h.limit v hv hh

theorem chunkStart_zero (cfg : Config) : chunkStart cfg 0 = 2 := by
  simp [chunkStart, WORD]

theorem chunkStart_succ (cfg : Config) (k : Nat) :
    chunkStart cfg (k + 1) = (chunkStart cfg k + cfg.WORK_CHUNK_SIZE) % WORD := by
  simp only [chunkStart, Nat.add_mul, one_mul, ← Nat.add_assoc, Nat.mod_add_mod]

theorem range_map_succ (f : Nat → Nat) (k : Nat) :
    (List.range (k + 1)).map f = (List.range k).map f ++ [f k] := by
  simp [List.range_succ]

/-- Two chunks in flight with the same 64-bit start are the same chunk. -/
theorem chunkStart_inj {cfg : Config} (hf : Fits cfg) {i j : Nat} (hij : i ≤ j)
    (hj : j < i + cfg.WORKER_COUNT) (h : chunkStart cfg i = chunkStart cfg j) : i = j := by
  obtain ⟨hpos, -, hpool, -⟩ := hf
  unfold chunkStart at h
  have hm : (2 + i * cfg.WORK_CHUNK_SIZE) ≡ (2 + j * cfg.WORK_CHUNK_SIZE) [MOD WORD] := h
  obtain ⟨d, rfl⟩ := Nat.exists_eq_add_of_le hij
  have hd : d < cfg.WORKER_COUNT := by omega
  have h2 : (2 + i * cfg.WORK_CHUNK_SIZE) + 0 ≡
      (2 + i * cfg.WORK_CHUNK_SIZE) + d * cfg.WORK_CHUNK_SIZE [MOD WORD] := by
    simpa [Nat.add_mul, Nat.add_assoc] using hm
  have h3 : 0 ≡ d * cfg.WORK_CHUNK_SIZE [MOD WORD] := Nat.ModEq.add_left_cancel' _ h2
  have h4 : d * cfg.WORK_CHUNK_SIZE < WORD :=
    lt_of_lt_of_le (Nat.mul_lt_mul_of_pos_right hd hpos) hpool
  have h5 : d * cfg.WORK_CHUNK_SIZE = 0 := by
    have := h3.symm
    unfold Nat.ModEq at this
    rw [Nat.mod_eq_of_lt h4, Nat.zero_mod] at this
    exact this
  rcases Nat.mul_eq_zero.mp h5 with h6 | h6
  · omega
  · omega

theorem inv_main (cfg : Config) (boot : Boot) : Inv cfg (main cfg boot) := by
  have hh : holders cfg (main cfg boot) = ∅ := by
    ext v; simp [holders, main, freshWorker, PC.holds]
  constructor
  case count => rw [hh]; simp [main]
  all_goals simp [main, freshWorker, chunkStart_zero, PC.holds, PC.inTurn, PC.reloaded]

theorem inv_thread {cfg : Config} (hf : Fits cfg) {s : State} (h : Inv cfg s) (w : Nat)
    (hw : w < cfg.WORKER_COUNT) :
    Inv cfg ⟨(workerThread cfg s.sh (s.workers w)).1,
      setWorker s.workers w (workerThread cfg s.sh (s.workers w)).2⟩ := by
  cases hpc : (s.workers w).pc
  case loopTest =>
    simp only [workerThread, hpc]
    split_ifs <;> apply inv_frame h <;> simp [hpc, PC.holds, PC.inTurn, PC.reloaded]
  case snapshot =>
    simp only [workerThread, hpc, enterOffset]
    split_ifs <;> apply inv_frame h <;> simp [hpc, PC.holds, PC.inTurn, PC.reloaded]
  case inner =>
    simp only [workerThread, hpc]
    split_ifs <;> apply inv_frame h <;> simp [hpc, PC.holds, PC.inTurn, PC.reloaded]
  case finish =>
    simp only [workerThread, hpc, enterOffset]
    split_ifs <;> apply inv_frame h <;> simp [hpc, PC.holds, PC.inTurn, PC.reloaded]
  case updateMax =>
    simp only [workerThread, hpc]
    split_ifs <;> apply inv_frame h <;> simp [hpc, PC.holds, PC.inTurn, PC.reloaded]
  case copy =>
    simp only [workerThread, hpc]
    apply inv_frame h <;> simp [hpc, PC.holds, PC.inTurn, PC.reloaded]
  case stopCheck =>
    simp only [workerThread, hpc]
    split_ifs <;> apply inv_frame h <;> simp [hpc, PC.holds, PC.inTurn, PC.reloaded]
  case done =>
    simp only [workerThread, hpc]
    apply inv_frame h <;> simp [hpc, PC.holds, PC.inTurn, PC.reloaded]
  case claim =>
    simp only [workerThread, hpc]
    have hnh : (s.workers w).pc.holds = false := by simp [hpc, PC.holds]
    have hcount := h.count
    constructor
    · simp [h.writeBase, chunkStart_succ]
    · simpa using h.readLimit
    · simp only [List.length_append, List.length_singleton, range_map_succ]
      rw [← h.claimLog, h.writeBase]
    · simpa using h.commitLog
    · rw [holders_gain hw hnh (by simp [PC.holds])]
      simp only [List.length_append, List.length_singleton]
      omega
    · intro v hv hh
      by_cases hvw : v = w
      · subst hvw
        simp only [setWorker_same, List.length_append, List.length_singleton]
        exact ⟨by omega, by omega, h.writeBase⟩
      · simp only [setWorker_other _ _ hvw, List.length_append, List.length_singleton] at hh ⊢
        obtain ⟨a, b, c⟩ := h.held v hv hh
        exact ⟨a, by omega, c⟩
    · intro u v hu hv hhu hhv he
      by_cases huw : u = w <;> by_cases hvw : v = w
      · rw [huw, hvw]
      · exfalso
        subst huw
        simp only [setWorker_same, setWorker_other _ _ hvw] at hhv he
        have := (h.held v hv hhv).2.1
        omega
      · exfalso
        subst hvw
        simp only [setWorker_same, setWorker_other _ _ huw] at hhu he
        have := (h.held u hu hhu).2.1
        omega
      · simp only [setWorker_other _ _ huw, setWorker_other _ _ hvw] at hhu hhv he
        exact h.distinct u v hu hv hhu hhv he
    · intro v hv hh
      by_cases hvw : v = w
      · subst hvw; simp [setWorker_same, PC.inTurn] at hh
      · simp only [setWorker_other _ _ hvw] at hh ⊢
        exact h.turn v hv hh
    · intro v hv hh
      by_cases hvw : v = w
      · subst hvw; simp [setWorker_same, PC.reloaded] at hh
      · simp only [setWorker_other _ _ hvw] at hh ⊢
        exact h.limit v hv hh
  case await =>
    simp only [workerThread, hpc]
    have hh : (s.workers w).pc.holds = true := by simp [hpc, PC.holds]
    split_ifs with hne
    · apply inv_frame h <;> simp [hpc, PC.holds, PC.inTurn, PC.reloaded]
    · have heq : s.sh.globalReadLimit = (s.workers w).localWriteBase := by
        by_contra hc; exact hne hc
      obtain ⟨a, b, c⟩ := h.held w hw hh
      have hidx : s.sh.commitLog.length = (s.workers w).chunkIdx := by
        apply chunkStart_inj hf a
        · have := h.count; have := holders_card_le cfg s; omega
        · rw [← h.readLimit, ← c, heq]
      have key : ∀ v, (setWorker s.workers w { s.workers w with pc := PC.reload } v).pc.holds
            = (s.workers v).pc.holds ∧
          (setWorker s.workers w { s.workers w with pc := PC.reload } v).chunkIdx
            = (s.workers v).chunkIdx ∧
          (setWorker s.workers w { s.workers w with pc := PC.reload } v).localWriteBase
            = (s.workers v).localWriteBase := by
        intro v
        by_cases hv : v = w
        · subst hv; simp [setWorker_same, hpc, PC.holds]
        · simp [setWorker_other _ _ hv]
      constructor
      · exact h.writeBase
      · exact h.readLimit
      · exact h.claimLog
      · exact h.commitLog
      · rw [holders_keep (by simp [hpc, PC.holds])]; exact h.count
      · intro v hv hhv
        simp only [(key v).1, (key v).2.1, (key v).2.2] at hhv ⊢
        exact h.held v hv hhv
      · intro u v hu hv hhu hhv he
        simp only [(key u).1, (key v).1, (key u).2.1, (key v).2.1] at hhu hhv he
        exact h.distinct u v hu hv hhu hhv he
      · intro v hv hhv
        by_cases hvw : v = w
        · subst hvw; simp only [setWorker_same]; exact hidx.symm
        · simp only [setWorker_other _ _ hvw] at hhv ⊢
          exact h.turn v hv hhv
      · intro v hv hhv
        by_cases hvw : v = w
        · subst hvw; simp [setWorker_same, PC.reloaded] at hhv
        · simp only [setWorker_other _ _ hvw] at hhv ⊢
          exact h.limit v hv hhv
  case reload =>
    simp only [workerThread, hpc]
    have key : ∀ v, (setWorker s.workers w
          { s.workers w with pc := PC.updateMax, localReadLimit := s.sh.globalReadLimit } v).pc.holds
            = (s.workers v).pc.holds ∧
        (setWorker s.workers w
          { s.workers w with pc := PC.updateMax, localReadLimit := s.sh.globalReadLimit } v).pc.inTurn
            = (s.workers v).pc.inTurn ∧
        (setWorker s.workers w
          { s.workers w with pc := PC.updateMax, localReadLimit := s.sh.globalReadLimit } v).chunkIdx
            = (s.workers v).chunkIdx ∧
        (setWorker s.workers w
          { s.workers w with pc := PC.updateMax, localReadLimit := s.sh.globalReadLimit } v).localWriteBase
            = (s.workers v).localWriteBase := by
      intro v
      by_cases hv : v = w
      · subst hv; simp [setWorker_same, hpc, PC.holds, PC.inTurn]
      · simp [setWorker_other _ _ hv]
    constructor
    · exact h.writeBase
    · exact h.readLimit
    · exact h.claimLog
    · exact h.commitLog
    · rw [holders_keep (by simp [hpc, PC.holds])]; exact h.count
    · intro v hv hhv
      simp only [(key v).1, (key v).2.2.1, (key v).2.2.2] at hhv ⊢
      exact h.held v hv hhv
    · intro u v hu hv hhu hhv he
      simp only [(key u).1, (key v).1, (key u).2.2.1, (key v).2.2.1] at hhu hhv he
      exact h.distinct u v hu hv hhu hhv he
    · intro v hv hhv
      simp only [(key v).2.1, (key v).2.2.1] at hhv ⊢
      exact h.turn v hv hhv
    · intro v hv hhv
      by_cases hvw : v = w
      · subst hvw; simp [setWorker_same]
      · simp only [setWorker_other _ _ hvw] at hhv ⊢
        exact h.limit v hv hhv
  case store =>
    simp only [workerThread, hpc]
    have hh : (s.workers w).pc.holds = true := by simp [hpc, PC.holds]
    have ht : (s.workers w).chunkIdx = s.sh.commitLog.length :=
      h.turn w hw (by simp [hpc, PC.inTurn])
    have hl : (s.workers w).localReadLimit = s.sh.globalReadLimit :=
      h.limit w hw (by simp [hpc, PC.reloaded])
    have hb := (h.held w hw hh).2.2
    have hcount := h.count
    have hturn : ∀ v, v < cfg.WORKER_COUNT → v ≠ w → (s.workers v).pc.inTurn = true → False := by
      intro v hv hvw hiv
      have hhv : (s.workers v).pc.holds = true := by
        revert hiv; cases (s.workers v).pc <;> simp [PC.inTurn, PC.holds]
      exact hvw (h.distinct v w hv hw hhv hh (by rw [h.turn v hv hiv, ht]))
    constructor
    · exact h.writeBase
    · simp only [List.length_append, List.length_singleton, chunkStart_succ, hl, h.readLimit]
    · exact h.claimLog
    · simp only [List.length_append, List.length_singleton, range_map_succ]
      rw [← h.commitLog, hb, ht]
    · rw [holders_lose hw hh (by simp [PC.holds])]
      have := holders_pos hw hh
      simp only [List.length_append, List.length_singleton]
      omega
    · intro v hv hhv
      by_cases hvw : v = w
      · subst hvw; simp [setWorker_same, PC.holds] at hhv
      · simp only [setWorker_other _ _ hvw, List.length_append, List.length_singleton] at hhv ⊢
        obtain ⟨a, b, c⟩ := h.held v hv hhv
        have hne : (s.workers v).chunkIdx ≠ (s.workers w).chunkIdx :=
          fun he => hvw (h.distinct v w hv hw hhv hh he)
        exact ⟨by omega, b, c⟩
    · intro u v hu hv hhu hhv he
      by_cases huw : u = w
      · subst huw; simp [setWorker_same, PC.holds] at hhu
      · by_cases hvw : v = w
        · subst hvw; simp [setWorker_same, PC.holds] at hhv
        · simp only [setWorker_other _ _ huw, setWorker_other _ _ hvw] at hhu hhv he
          exact h.distinct u v hu hv hhu hhv he
    · intro v hv hhv
      by_cases hvw : v = w
      · subst hvw; simp [setWorker_same, PC.inTurn] at hhv
      · simp only [setWorker_other _ _ hvw] at hhv
        exact (hturn v hv hvw hhv).elim
    · intro v hv hhv
      by_cases hvw : v = w
      · subst hvw; simp [setWorker_same, PC.reloaded] at hhv
      · simp only [setWorker_other _ _ hvw] at hhv
        have : (s.workers v).pc.inTurn = true := by
          revert hhv; cases (s.workers v).pc <;> simp [PC.inTurn, PC.reloaded]
        exact (hturn v hv hvw this).elim

theorem inv_step {cfg : Config} (hf : Fits cfg) {s : State} (h : Inv cfg s) (w : Nat) :
    Inv cfg (step cfg s w) := by
  by_cases hw : w < cfg.WORKER_COUNT
  · rw [step_of_lt hw]; exact inv_thread hf h w hw
  · rw [step_of_ge hw]; exact h

theorem reachable_inv {cfg : Config} (hf : Fits cfg) {boot : Boot} {s : State}
    (h : Reachable cfg boot s) : Inv cfg s := by
  induction h with
  | start => exact inv_main cfg boot
  | next s w _ ih => exact inv_step hf ih w

theorem beforeStore_reachable : Reachable testConfig zeroBoot beforeStore :=
  reachable_run _ _ _

theorem committedOnce_reachable : Reachable testConfig zeroBoot committedOnce :=
  Reachable.next _ _ beforeStore_reachable

theorem chunkStart_of_lt {cfg : Config} {k : Nat} (h : 2 + k * cfg.WORK_CHUNK_SIZE < WORD) :
    chunkStart cfg k = 2 + k * cfg.WORK_CHUNK_SIZE := Nat.mod_eq_of_lt h

theorem chunkStart_of_le {cfg : Config} {s : State} (hn : NoWrap cfg s) {k : Nat}
    (hk : k ≤ s.sh.claimLog.length) : chunkStart cfg k = 2 + k * cfg.WORK_CHUNK_SIZE := by
  apply chunkStart_of_lt
  have : k * cfg.WORK_CHUNK_SIZE ≤ s.sh.claimLog.length * cfg.WORK_CHUNK_SIZE :=
    Nat.mul_le_mul_right _ hk
  unfold NoWrap at hn
  omega

theorem commits_le_claims {cfg : Config} {s : State} (h : Inv cfg s) :
    s.sh.commitLog.length ≤ s.sh.claimLog.length := by
  have := h.count; omega

theorem log_getElem? {cfg : Config} {l : List Nat}
    (h : l = (List.range l.length).map (chunkStart cfg)) {k : Nat} (hk : k < l.length) :
    l[k]? = some (chunkStart cfg k) := by
  rw [h]
  simp [List.getElem?_map, List.getElem?_range, hk]

/-- C8: in every reachable state whose chunk counter has not wrapped,
`ReadLimit ≤ WriteBase` and both counters have the form `2 + k * WORK_CHUNK_SIZE`. -/
theorem counters_ordered_and_aligned (cfg : Config) (boot : Boot) (s : State)
    (hf : Fits cfg) (hr : Reachable cfg boot s) (hn : NoWrap cfg s) :
    s.sh.globalReadLimit ≤ s.sh.globalWriteBase ∧
    (∃ k, s.sh.globalReadLimit = 2 + k * cfg.WORK_CHUNK_SIZE) ∧
    (∃ k, s.sh.globalWriteBase = 2 + k * cfg.WORK_CHUNK_SIZE) := by
  have h := reachable_inv hf hr
  have hle := commits_le_claims h
  have e1 := h.readLimit
  have e2 := h.writeBase
  rw [chunkStart_of_le hn hle] at e1
  rw [chunkStart_of_le hn le_rfl] at e2
  refine ⟨?_, ⟨_, e1⟩, ⟨_, e2⟩⟩
  rw [e1, e2]
  have := Nat.mul_le_mul_right cfg.WORK_CHUNK_SIZE hle
  omega

set_option maxRecDepth 100000 in
theorem counters_ordered_and_aligned_witness :
    committedOnce.sh.globalReadLimit ≤
      committedOnce.sh.globalWriteBase ∧
    (∃ k, committedOnce.sh.globalReadLimit = 2 + k * testConfig.WORK_CHUNK_SIZE) ∧
    (∃ k, committedOnce.sh.globalWriteBase = 2 + k * testConfig.WORK_CHUNK_SIZE) :=
  counters_ordered_and_aligned testConfig zeroBoot committedOnce (by decide)
    committedOnce_reachable (by decide)

/-- C3: while the chunk counter has not wrapped, the `k`-th `fetch_add`
returned `2 + k * WORK_CHUNK_SIZE`; the chunks claimed so far are pairwise
disjoint (and ascending), no two workers hold the same chunk, and the chunks
cover `[2, WriteBase)` without a gap. -/
theorem claims_disjoint_gapless (cfg : Config) (boot : Boot) (s : State)
    (hf : Fits cfg) (hr : Reachable cfg boot s) (hn : NoWrap cfg s) :
    (∀ k, k < s.sh.claimLog.length → s.sh.claimLog[k]? = some (2 + k * cfg.WORK_CHUNK_SIZE)) ∧
    (∀ i j a b : Nat, i < j → s.sh.claimLog[i]? = some a → s.sh.claimLog[j]? = some b →
      a + cfg.WORK_CHUNK_SIZE ≤ b) ∧
    (∀ w v, w < cfg.WORKER_COUNT → v < cfg.WORKER_COUNT →
      (s.workers w).pc.holds = true → (s.workers v).pc.holds = true →
      (s.workers w).localWriteBase = (s.workers v).localWriteBase → w = v) ∧
    (∀ n, (2 ≤ n ∧ n < s.sh.globalWriteBase) ↔
      ∃ k a : Nat, s.sh.claimLog[k]? = some a ∧ a ≤ n ∧ n < a + cfg.WORK_CHUNK_SIZE) := by
  have h := reachable_inv hf hr
  have hget : ∀ k, k < s.sh.claimLog.length →
      s.sh.claimLog[k]? = some (2 + k * cfg.WORK_CHUNK_SIZE) := by
    intro k hk
    rw [log_getElem? h.claimLog hk, chunkStart_of_le hn hk.le]
  have hlt : ∀ k a, s.sh.claimLog[k]? = some a →
      k < s.sh.claimLog.length ∧ a = 2 + k * cfg.WORK_CHUNK_SIZE := by
    intro k a hka
    have hk : k < s.sh.claimLog.length := by
      by_contra hc
      rw [List.getElem?_eq_none (Nat.le_of_not_lt hc)] at hka
      exact Option.noConfusion hka
    rw [hget k hk] at hka
    exact ⟨hk, (Option.some.inj hka).symm⟩
  have hwb : s.sh.globalWriteBase = 2 + s.sh.claimLog.length * cfg.WORK_CHUNK_SIZE := by
    rw [h.writeBase, chunkStart_of_le hn le_rfl]
  refine ⟨hget, ?_, ?_, ?_⟩
  · intro i j a b hij ha hb
    obtain ⟨-, rfl⟩ := hlt i a ha
    obtain ⟨-, rfl⟩ := hlt j b hb
    have : (i + 1) * cfg.WORK_CHUNK_SIZE ≤ j * cfg.WORK_CHUNK_SIZE :=
      Nat.mul_le_mul_right _ hij
    rw [Nat.add_mul, Nat.one_mul] at this
    omega
  · intro w v hw hv hhw hhv he
    obtain ⟨a1, b1, c1⟩ := h.held w hw hhw
    obtain ⟨a2, b2, c2⟩ := h.held v hv hhv
    apply h.distinct w v hw hv hhw hhv
    rw [c1, c2, chunkStart_of_le hn b1.le, chunkStart_of_le hn b2.le] at he
    have hpos := hf.1
    have : (s.workers w).chunkIdx * cfg.WORK_CHUNK_SIZE
        = (s.workers v).chunkIdx * cfg.WORK_CHUNK_SIZE := by omega
    exact Nat.eq_of_mul_eq_mul_right hpos this
  · intro n
    have hpos := hf.1
    constructor
    · rintro ⟨h2, hlt2⟩
      rw [hwb] at hlt2
      refine ⟨(n - 2) / cfg.WORK_CHUNK_SIZE, 2 + (n - 2) / cfg.WORK_CHUNK_SIZE * cfg.WORK_CHUNK_SIZE,
        ?_, ?_, ?_⟩
      · apply hget
        rw [Nat.div_lt_iff_lt_mul hpos]
        omega
      · have := Nat.div_mul_le_self (n - 2) cfg.WORK_CHUNK_SIZE
        omega
      · have := Nat.lt_div_mul_add hpos (a := n - 2)
        omega
    · rintro ⟨k, a, hka, h1, h2⟩
      obtain ⟨hk, rfl⟩ := hlt k a hka
      rw [hwb]
      have : (k + 1) * cfg.WORK_CHUNK_SIZE ≤ s.sh.claimLog.length * cfg.WORK_CHUNK_SIZE :=
        Nat.mul_le_mul_right _ hk
      rw [Nat.add_mul, Nat.one_mul] at this
      omega

set_option maxRecDepth 100000 in
theorem claims_disjoint_gapless_witness :
    (∀ k, k < committedOnce.sh.claimLog.length →
      committedOnce.sh.claimLog[k]? = some (2 + k * testConfig.WORK_CHUNK_SIZE)) ∧
    (∀ i j a b : Nat, i < j → committedOnce.sh.claimLog[i]? = some a →
      committedOnce.sh.claimLog[j]? = some b → a + testConfig.WORK_CHUNK_SIZE ≤ b) ∧
    (∀ w v, w < testConfig.WORKER_COUNT → v < testConfig.WORKER_COUNT →
      (committedOnce.workers w).pc.holds = true → (committedOnce.workers v).pc.holds = true →
      (committedOnce.workers w).localWriteBase = (committedOnce.workers v).localWriteBase →
      w = v) ∧
    (∀ n, (2 ≤ n ∧ n < committedOnce.sh.globalWriteBase) ↔
      ∃ k a : Nat, committedOnce.sh.claimLog[k]? = some a ∧ a ≤ n ∧
        n < a + testConfig.WORK_CHUNK_SIZE) :=
  claims_disjoint_gapless testConfig zeroBoot committedOnce (by decide)
    committedOnce_reachable (by decide)

theorem inTurn_holds {pc : PC} (h : pc.inTurn = true) : pc.holds = true := by
  revert h; cases pc <;> simp [PC.inTurn, PC.holds]

/-- Only the `store` statement changes `globalReadLimit`. -/
theorem readLimit_changes_at_store {cfg : Config} {sh : Shared} {wk : Worker}
    (h : (workerThread cfg sh wk).1.globalReadLimit ≠ sh.globalReadLimit) : wk.pc = PC.store := by
  revert h
  cases hpc : wk.pc <;> simp only [workerThread, hpc, enterOffset] <;> (try split_ifs) <;> simp

/-- C4: every change of `ReadLimit` is the `store` of the worker whose chunk
start equals the current `ReadLimit`, and (the chunk counter not having
wrapped) raises it by exactly `WORK_CHUNK_SIZE`, logging that chunk as
committed; the chunks are therefore committed in strictly ascending order of
their starts, the `k`-th commit being that of the chunk at
`2 + k * WORK_CHUNK_SIZE`, after all chunks with a smaller start. -/
theorem commits_in_turn_ascending (cfg : Config) (boot : Boot) (s : State) (w : Nat)
    (hf : Fits cfg) (hr : Reachable cfg boot s) (hn : NoWrap cfg (step cfg s w)) :
    ((step cfg s w).sh.globalReadLimit ≠ s.sh.globalReadLimit →
      w < cfg.WORKER_COUNT ∧ (s.workers w).pc = PC.store ∧
      (s.workers w).localWriteBase = s.sh.globalReadLimit ∧
      (step cfg s w).sh.globalReadLimit = s.sh.globalReadLimit + cfg.WORK_CHUNK_SIZE ∧
      (step cfg s w).sh.commitLog = s.sh.commitLog ++ [s.sh.globalReadLimit]) ∧
    (step cfg s w).sh.commitLog.Pairwise (fun a b => a < b) ∧
    (∀ k, k < (step cfg s w).sh.commitLog.length →
      (step cfg s w).sh.commitLog[k]? = some (2 + k * cfg.WORK_CHUNK_SIZE)) := by
  have h := reachable_inv hf hr
  have h1 := inv_step hf h w
  refine ⟨?_, ?_, ?_⟩
  rotate_left
  · have hlog := h1.commitLog
    have hle := commits_le_claims h1
    rw [hlog, List.pairwise_map]
    refine List.Pairwise.imp_of_mem ?_ (List.pairwise_lt_range _)
    intro a b ha hb hab
    rw [List.mem_range] at ha hb
    rw [chunkStart_of_le hn (by omega), chunkStart_of_le hn (by omega)]
    have : (a + 1) * cfg.WORK_CHUNK_SIZE ≤ b * cfg.WORK_CHUNK_SIZE :=
      Nat.mul_le_mul_right _ hab
    rw [Nat.add_mul, Nat.one_mul] at this
    have := hf.1
    omega
  · intro k hk
    rw [log_getElem? h1.commitLog hk,
      chunkStart_of_le hn (le_trans hk.le (commits_le_claims h1))]
  · intro hne
    by_cases hw : w < cfg.WORKER_COUNT
    swap
    · rw [step_of_ge hw] at hne; exact (hne rfl).elim
    have hpc : (s.workers w).pc = PC.store := by
      rw [step_of_lt hw] at hne
      exact readLimit_changes_at_store hne
    have hh : (s.workers w).pc.holds = true := by simp [hpc, PC.holds]
    have ht := h.turn w hw (by simp [hpc, PC.inTurn])
    have hl := h.limit w hw (by simp [hpc, PC.reloaded])
    have hb := (h.held w hw hh).2.2
    have hbase : (s.workers w).localWriteBase = s.sh.globalReadLimit := by
      rw [hb, ht, h.readLimit]
    have hlen : (step cfg s w).sh.commitLog.length = s.sh.commitLog.length + 1 := by
      simp [step_of_lt hw, workerThread, hpc]
    refine ⟨hw, hpc, hbase, ?_, ?_⟩
    · have e1 := h1.readLimit
      have hle := commits_le_claims h1
      rw [chunkStart_of_le hn hle, hlen] at e1
      have e0 := h.readLimit
      rw [chunkStart_of_le hn (by omega)] at e0
      rw [e1, e0, Nat.add_mul]
      omega
    · simp [step_of_lt hw, workerThread, hpc, hbase]

/-- C5: at most one worker is between passing the turnstile and storing the
advanced `ReadLimit`, so two workers never overlap in the update of the global
maximum or in the copy into the cache. -/
theorem one_worker_in_turn (cfg : Config) (boot : Boot) (s : State) (w v : Nat)
    (hf : Fits cfg) (hr : Reachable cfg boot s)
    (hw : w < cfg.WORKER_COUNT) (hv : v < cfg.WORKER_COUNT)
    (h1 : (s.workers w).pc.inTurn = true) (h2 : (s.workers v).pc.inTurn = true) : w = v := by
  have h := reachable_inv hf hr
  apply h.distinct w v hw hv (inTurn_holds h1) (inTurn_holds h2)
  rw [h.turn w hw h1, h.turn v hv h2]

set_option maxRecDepth 100000 in
theorem one_worker_in_turn_witness :
    (beforeStore.workers 0).pc.inTurn = true ∧ (0 : Nat) = 0 :=
  ⟨by decide,
   one_worker_in_turn testConfig zeroBoot beforeStore 0 0 (by decide) beforeStore_reachable
     (by decide) (by decide) (by decide) (by decide)⟩

theorem thread_max_mono (cfg : Config) (sh : Shared) (wk : Worker) :
    (workerThread cfg sh wk).1.globalMaxIterations = sh.globalMaxIterations ∨
    sh.globalMaxIterations < (workerThread cfg sh wk).1.globalMaxIterations := by
  cases hpc : wk.pc <;> simp only [workerThread, hpc, enterOffset] <;> (try split_ifs)
  all_goals first
    | (right; assumption)
    | simp

theorem step_max_mono (cfg : Config) (s : State) (w : Nat) :
    (step cfg s w).sh.globalMaxIterations = s.sh.globalMaxIterations ∨
    s.sh.globalMaxIterations < (step cfg s w).sh.globalMaxIterations := by
  by_cases hw : w < cfg.WORKER_COUNT
  · rw [step_of_lt hw]; exact thread_max_mono cfg s.sh (s.workers w)
  · rw [step_of_ge hw]; exact Or.inl rfl

theorem run_max_mono (cfg : Config) (sched : List Nat) (s : State) :
    s.sh.globalMaxIterations ≤ (run cfg s sched).sh.globalMaxIterations := by
  induction sched generalizing s with
  | nil => exact le_rfl
  | cons w l ih =>
    have h1 := step_max_mono cfg s w
    have h2 := ih (step cfg s w)
    have : run cfg s (w :: l) = run cfg (step cfg s w) l := rfl
    rw [this]
    omega

/-- C10: `GlobalMaxIterations` never decreases along a run: every step of
every worker leaves it unchanged or replaces it by a strictly larger value. -/
theorem globalMax_never_decreases (cfg : Config) (s : State) (sched : List Nat) (w : Nat) :
    s.sh.globalMaxIterations ≤ (run cfg s sched).sh.globalMaxIterations ∧
    ((step cfg s w).sh.globalMaxIterations = s.sh.globalMaxIterations ∨
      s.sh.globalMaxIterations < (step cfg s w).sh.globalMaxIterations) :=
  ⟨run_max_mono cfg sched s, step_max_mono cfg s w⟩

theorem iterate_collatz_zero (j : Nat) : Nat.iterate collatz j 0 = 0 := by
  induction j with
  | zero => rfl
  | succ j ih => rw [Function.iterate_succ_apply]; exact ih

theorem collatz_pos {n : Nat} (h : 1 ≤ n) : 1 ≤ collatz n := by
  unfold collatz
  split_ifs <;> omega

theorem iterate_collatz_pos {n : Nat} (h : 1 ≤ n) (j : Nat) : 1 ≤ Nat.iterate collatz j n := by
  induction j with
  | zero => exact h
  | succ j ih => rw [Function.iterate_succ_apply']; exact collatz_pos ih

theorem staysBelow_shift {b v c : Nat} (h : StaysBelow b v)
    (hfirst : ∀ j, j < c → Nat.iterate collatz j v ≠ 1) :
    StaysBelow b (Nat.iterate collatz c v) := by
  intro j hj
  rw [← Function.iterate_add_apply]
  apply h
  intro i hi
  by_cases hic : i < c
  · exact hfirst i hic
  · have := hj (i - c) (by omega)
    rw [← Function.iterate_add_apply, Nat.sub_add_cancel (by omega)] at this
    exact this

/-- Step counts add up along a trajectory. -/
theorem takesSteps_add {v c k : Nat} (hfirst : ∀ j, j < c → Nat.iterate collatz j v ≠ 1)
    (h : TakesSteps (Nat.iterate collatz c v) k) : TakesSteps v (c + k) := by
  constructor
  · rw [Nat.add_comm, Function.iterate_add_apply]; exact h.1
  · intro j hj
    by_cases hjc : j < c
    · exact hfirst j hjc
    · have := h.2 (j - c) (by omega)
      rw [← Function.iterate_add_apply, Nat.sub_add_cancel (by omega)] at this
      exact this

theorem takesSteps_unique {n k l : Nat} (h1 : TakesSteps n k) (h2 : TakesSteps n l) : k = l := by
  rcases Nat.lt_trichotomy k l with h | h | h
  · exact absurd h1.1 (h2.2 k h)
  · exact h
  · exact absurd h2.1 (h1.2 l h)

/-- One pass of the do-while body advances the trajectory by one step on an
even value and by two steps on an odd one. -/
theorem collatzPass_traj {v c n cnt : Nat} (hb : StaysBelow WORD v)
    (hn : n = Nat.iterate collatz c v) (hcnt : cnt = c % WORD)
    (hfirst : ∀ j, j < c → Nat.iterate collatz j v ≠ 1) (h2 : 2 ≤ n) :
    ∃ d, (collatzPass n cnt).1 = Nat.iterate collatz d v ∧
      (collatzPass n cnt).2 = d % WORD ∧ ∀ j, j < d → Nat.iterate collatz j v ≠ 1 := by
  have hstep : Nat.iterate collatz (c + 1) v = collatz n := by
    rw [Function.iterate_succ_apply', ← hn]
  have hfirst1 : ∀ j, j < c + 1 → Nat.iterate collatz j v ≠ 1 := by
    intro j hj
    by_cases hjc : j < c
    · exact hfirst j hjc
    · have : j = c := by omega
      rw [this, ← hn]; omega
  unfold collatzPass
  split_ifs with hodd
  · have h1 : collatz n = 3 * n + 1 := by
      unfold collatz; rw [if_neg (by omega)]
    have hlt : 3 * n + 1 < WORD := by
      have := hb (c + 1) hfirst1; rw [hstep, h1] at this; exact this
    refine ⟨c + 2, ?_, ?_, ?_⟩
    · show (3 * n + 1) % WORD / 2 = _
      rw [Nat.mod_eq_of_lt hlt, Function.iterate_succ_apply', hstep, h1]
      unfold collatz; rw [if_pos (by omega)]
    · show (cnt + 2) % WORD = _
      rw [hcnt, Nat.mod_add_mod]
    · intro j hj
      by_cases hjc : j < c + 1
      · exact hfirst1 j hjc
      · have : j = c + 1 := by omega
        rw [this, hstep, h1]; omega
  · have h1 : collatz n = n / 2 := by
      unfold collatz; rw [if_pos (by omega)]
    refine ⟨c + 1, ?_, ?_, hfirst1⟩
    · show n / 2 = _
      rw [hstep, h1]
    · show (cnt + 1) % WORD = _
      rw [hcnt, Nat.mod_add_mod]

/-- The narrowing store of line 65 yields the step count modulo `65536`. -/
theorem total_mod_short (k c : Nat) :
    (k % SHORT + c % WORD) % WORD % SHORT = (c + k) % SHORT := by
  have hdvd : SHORT ∣ WORD := by decide
  rw [Nat.mod_mod_of_dvd _ hdvd, Nat.add_mod, Nat.mod_mod, Nat.mod_mod_of_dvd _ hdvd,
    ← Nat.add_mod, Nat.add_comm]

theorem workerOK_shared {cfg : Config} {sh sh2 : Shared} {wk : Worker} (h : WorkerOK cfg sh wk)
    (h1 : sh.commitLog.length ≤ sh2.commitLog.length)
    (h2 : wk.pc = PC.store → sh2.globalCache = sh.globalCache) : WorkerOK cfg sh2 wk := by
  constructor
  · intro hc
    obtain ⟨m, hm, e⟩ := h.snap hc
    exact ⟨m, by omega, e⟩
  · exact h.off
  · exact h.traj
  · exact h.high
  · exact h.low
  · exact h.scratch
  · intro hpc
    rw [h2 hpc]
    exact h.copied hpc

/-- A worker outside the compute phase that keeps its finished offsets. -/
theorem workerOK_idle {cfg : Config} {sh sh2 : Shared} {wk wk2 : Worker} (h : WorkerOK cfg sh wk)
    (h4 : wk2.pc.computing = false) (h5 : wk2.pc ≠ PC.store)
    (h6 : ∀ i, i < progress cfg wk2 → i < progress cfg wk ∧
      wk2.localWriteBase = wk.localWriteBase ∧ wk2.localCache i = wk.localCache i) :
    WorkerOK cfg sh2 wk2 := by
  constructor
  · intro hc; rw [h4] at hc; exact absurd hc (by decide)
  · intro hc; rw [h4] at hc; exact absurd hc (by decide)
  · intro hc; rw [h4] at hc; exact absurd hc (by decide)
  · intro hc; rw [hc] at h4; exact absurd h4 (by decide)
  · intro hc; rw [hc] at h4; exact absurd h4 (by decide)
  · intro i hi hlt
    obtain ⟨a, b, c⟩ := h6 i hi
    rw [b, c]
    rw [b] at hlt
    exact h.scratch i a hlt
  · intro hc; exact absurd hc h5

theorem compute_main (cfg : Config) (boot : Boot) : Compute cfg (main cfg boot) := by
  constructor
  · intro n h1 h2 h3 _
    have hn : n = 1 := by
      have : (main cfg boot).sh.globalReadLimit = 2 := rfl
      omega
    subst hn
    exact ⟨0, ⟨rfl, fun j hj => absurd hj (Nat.not_lt_zero j)⟩, by simp [main, SHORT]⟩
  · intro w _
    constructor <;> simp [main, freshWorker, PC.computing, progress, PC.computed]

theorem copyCount_of_le {cfg : Config} (hf : Fits cfg) {a : Nat} (ha : a ≤ cfg.CACHE_SIZE) :
    copyCount cfg a = min cfg.WORK_CHUNK_SIZE (cfg.CACHE_SIZE - a) := by
  obtain ⟨-, h2, -, h4⟩ := hf
  unfold copyCount copyBytes WORK_CHUNK_BYTES
  have e1 : (a + cfg.WORK_CHUNK_SIZE) % WORD = a + cfg.WORK_CHUNK_SIZE :=
    Nat.mod_eq_of_lt (by omega)
  rw [e1]
  split_ifs with hc
  · rw [Nat.mod_eq_of_lt (by omega)]
    omega
  · have e2 : (cfg.CACHE_SIZE + WORD - a) % WORD = cfg.CACHE_SIZE - a := by
      have : cfg.CACHE_SIZE + WORD - a = (cfg.CACHE_SIZE - a) + WORD := by omega
      rw [this, Nat.add_mod_right, Nat.mod_eq_of_lt (by omega)]
    rw [e2, Nat.zero_max, Nat.mod_eq_of_lt (by omega)]
    omega

theorem cacheOK_congr {cfg : Config} {sh sh2 : Shared} (h : CacheOK cfg sh)
    (h1 : sh2.globalReadLimit = sh.globalReadLimit) (h2 : sh2.globalCache = sh.globalCache) :
    CacheOK cfg sh2 := by
  intro n a b c
  rw [h2]
  rw [h1] at b
  exact h n a b c

theorem compute_assemble {cfg : Config} {s : State} {w : Nat} {sh2 : Shared} {wk2 : Worker}
    (h1 : CacheOK cfg sh2) (h2 : WorkerOK cfg sh2 wk2)
    (h3 : ∀ v, v < cfg.WORKER_COUNT → v ≠ w → WorkerOK cfg sh2 (s.workers v)) :
    Compute cfg ⟨sh2, setWorker s.workers w wk2⟩ := by
  refine ⟨h1, ?_⟩
  intro v hv
  by_cases hvw : v = w
  · subst hvw; simp only [setWorker_same]; exact h2
  · simp only [setWorker_other _ _ hvw]; exact h3 v hv hvw

/-- A step that leaves the cache, the read limit and the commit log alone and
ends outside the compute phase. -/
theorem compute_idle {cfg : Config} {s : State} (h : Compute cfg s) (w : Nat)
    (hw : w < cfg.WORKER_COUNT) (sh2 : Shared) (wk2 : Worker)
    (h1 : sh2.globalCache = s.sh.globalCache) (h2 : sh2.globalReadLimit = s.sh.globalReadLimit)
    (h3 : sh2.commitLog = s.sh.commitLog)
    (h4 : wk2.pc.computing = false) (h5 : wk2.pc ≠ PC.store)
    (h6 : ∀ i, i < progress cfg wk2 → i < progress cfg (s.workers w) ∧
      wk2.localWriteBase = (s.workers w).localWriteBase ∧
      wk2.localCache i = (s.workers w).localCache i) :
    Compute cfg ⟨sh2, setWorker s.workers w wk2⟩ := by
  apply compute_assemble (cacheOK_congr h.1 h2 h1) (workerOK_idle (h.2 w hw) h4 h5 h6)
  intro v hv _
  exact workerOK_shared (h.2 v hv) (by rw [h3]) (fun _ => h1)

theorem readLimit_eq {cfg : Config} {s : State} (hi : Inv cfg s) (hn : NoWrap cfg s) :
    s.sh.globalReadLimit = 2 + s.sh.commitLog.length * cfg.WORK_CHUNK_SIZE := by
  rw [hi.readLimit, chunkStart_of_le hn (commits_le_claims hi)]

theorem chunkStart_le_readLimit {cfg : Config} {s : State} (hi : Inv cfg s) (hn : NoWrap cfg s)
    {m : Nat} (hm : m ≤ s.sh.commitLog.length) :
    2 ≤ chunkStart cfg m ∧ chunkStart cfg m ≤ s.sh.globalReadLimit := by
  rw [readLimit_eq hi hn, chunkStart_of_le hn (le_trans hm (commits_le_claims hi))]
  have := Nat.mul_le_mul_right cfg.WORK_CHUNK_SIZE hm
  omega

/-- The chunk a worker holds, without wraparound. -/
theorem held_eq {cfg : Config} {s : State} (hi : Inv cfg s) (hn : NoWrap cfg s) {w : Nat}
    (hw : w < cfg.WORKER_COUNT) (hh : (s.workers w).pc.holds = true) :
    s.sh.globalReadLimit ≤ (s.workers w).localWriteBase ∧
    (s.workers w).localWriteBase + cfg.WORK_CHUNK_SIZE < WORD ∧
    (s.workers w).localWriteBase = 2 + (s.workers w).chunkIdx * cfg.WORK_CHUNK_SIZE := by
  obtain ⟨a, b, c⟩ := hi.held w hw hh
  rw [chunkStart_of_le hn b.le] at c
  rw [readLimit_eq hi hn, c]
  have h1 := Nat.mul_le_mul_right cfg.WORK_CHUNK_SIZE a
  have h2 : ((s.workers w).chunkIdx + 1) * cfg.WORK_CHUNK_SIZE
      ≤ s.sh.claimLog.length * cfg.WORK_CHUNK_SIZE := Nat.mul_le_mul_right _ b
  rw [Nat.add_mul, Nat.one_mul] at h2
  unfold NoWrap at hn
  omega

theorem computing_holds {pc : PC} (h : pc.computing = true) : pc.holds = true := by
  revert h; cases pc <;> simp [PC.computing, PC.holds]

/-- Entering the `for` body at offset `o`, or leaving the loop when `o` is
the chunk size, with the first `o` offsets already right in `localCache`. -/
theorem workerOK_enter {cfg : Config} (sh : Shared) (wk : Worker) (o m : Nat)
    (hm : m ≤ sh.commitLog.length) (hL : wk.localReadLimit = chunkStart cfg m)
    (hle : wk.localReadLimit ≤ wk.localWriteBase)
    (hlt : wk.localWriteBase + cfg.WORK_CHUNK_SIZE < WORD) (ho : o ≤ cfg.WORK_CHUNK_SIZE)
    (hscr : ∀ i, i < o → wk.localWriteBase + i < cfg.CACHE_SIZE →
      Settled (wk.localWriteBase + i) (wk.localCache i)) :
    WorkerOK cfg sh (enterOffset cfg wk o) := by
  unfold enterOffset
  split_ifs with hlo
  · have hmod : (wk.localWriteBase + o) % WORD = wk.localWriteBase + o :=
      Nat.mod_eq_of_lt (by omega)
    constructor
    · intro _; exact ⟨m, hm, hL⟩
    · intro _; exact hlo
    · intro _ _
      exact ⟨0, by simp [hmod], by simp, fun j hj => absurd hj (Nat.not_lt_zero j)⟩
    · intro _; dsimp only; rw [hmod]; omega
    · intro hc; simp at hc
    · intro i hi2 hlt2
      simp only [progress, PC.computing, if_true] at hi2
      exact hscr i hi2 hlt2
    · intro hc; simp at hc
  · constructor
    · intro hc; simp [PC.computing] at hc
    · intro hc; simp [PC.computing] at hc
    · intro hc; simp [PC.computing] at hc
    · intro hc; simp at hc
    · intro hc; simp at hc
    · intro i hi2 hlt2
      simp only [progress, PC.computing, PC.computed, if_true] at hi2
      exact hscr i (by simp at hi2; omega) hlt2
    · intro hc; simp at hc

theorem compute_thread {cfg : Config} (hf : Fits cfg) {s : State} (hi : Inv cfg s)
    (hn : NoWrap cfg s) (h : Compute cfg s) (w : Nat) (hw : w < cfg.WORKER_COUNT) :
    Compute cfg ⟨(workerThread cfg s.sh (s.workers w)).1,
      setWorker s.workers w (workerThread cfg s.sh (s.workers w)).2⟩ := by
  have hwk := h.2 w hw
  cases hpc : (s.workers w).pc
  case loopTest =>
    simp only [workerThread, hpc]
    split_ifs <;> apply compute_idle h w hw <;>
      simp [hpc, PC.computing, PC.computed, progress]
  case claim =>
    simp only [workerThread, hpc]
    apply compute_idle h w hw <;> simp [hpc, PC.computing, PC.computed, progress]
  case await =>
    simp only [workerThread, hpc]
    split_ifs <;> apply compute_idle h w hw <;>
      simp [hpc, PC.computing, PC.computed, progress]
  case reload =>
    simp only [workerThread, hpc]
    apply compute_idle h w hw <;> simp [hpc, PC.computing, PC.computed, progress]
  case updateMax =>
    simp only [workerThread, hpc]
    split_ifs <;> apply compute_idle h w hw <;>
      simp [hpc, PC.computing, PC.computed, progress]
  case stopCheck =>
    simp only [workerThread, hpc]
    split_ifs <;> apply compute_idle h w hw <;>
      simp [hpc, PC.computing, PC.computed, progress]
  case done =>
    simp only [workerThread, hpc]
    apply compute_idle h w hw <;> simp [hpc, PC.computing, PC.computed, progress]
  case snapshot =>
    have hh : (s.workers w).pc.holds = true := by simp [hpc, PC.holds]
    obtain ⟨hle, hlt, -⟩ := held_eq hi hn hw hh
    have hpos := hf.1
    simp only [workerThread, hpc, enterOffset, if_pos hpos, Nat.add_zero]
    have hmod : (s.workers w).localWriteBase % WORD = (s.workers w).localWriteBase :=
      Nat.mod_eq_of_lt (by omega)
    refine compute_assemble h.1 ?_ (fun v hv _ => h.2 v hv)
    constructor
    · intro _; exact ⟨s.sh.commitLog.length, le_rfl, hi.readLimit⟩
    · intro _; exact hpos
    · intro _ _
      exact ⟨0, by simp [hmod], by simp, fun j hj => absurd hj (Nat.not_lt_zero j)⟩
    · intro _; simp only [hmod]; exact hle
    · intro hc; simp at hc
    · intro i hi2; simp [progress, PC.computing] at hi2
    · intro hc; simp at hc
  case inner =>
    have hcmp : (s.workers w).pc.computing = true := by simp [hpc, PC.computing]
    obtain ⟨m, hm, hL⟩ := hwk.snap hcmp
    have h2 : 2 ≤ (s.workers w).n := by
      have := hwk.high hpc
      have := (chunkStart_le_readLimit hi hn hm).1
      omega
    have hscr := hwk.scratch
    simp only [progress, hcmp, if_true] at hscr
    simp only [workerThread, hpc]
    split_ifs with hge
    · refine compute_assemble h.1 ?_ (fun v hv _ => h.2 v hv)
      constructor
      · intro _; exact ⟨m, hm, hL⟩
      · intro _; exact hwk.off hcmp
      · intro _ hb
        obtain ⟨c, e1, e2, e3⟩ := hwk.traj hcmp hb
        exact collatzPass_traj hb e1 e2 e3 h2
      · intro _; exact hge
      · intro hc; simp at hc
      · intro i hi2; simp only [progress, hpc, PC.computing, if_true] at hi2; exact hscr i hi2
      · intro hc; simp at hc
    · refine compute_assemble h.1 ?_ (fun v hv _ => h.2 v hv)
      constructor
      · intro _; exact ⟨m, hm, hL⟩
      · intro _; exact hwk.off hcmp
      · intro _ hb
        obtain ⟨c, e1, e2, e3⟩ := hwk.traj hcmp hb
        exact collatzPass_traj hb e1 e2 e3 h2
      · intro hc; simp at hc
      · intro _; exact Nat.lt_of_not_ge hge
      · intro i hi2; simp only [progress, PC.computing, if_true] at hi2; exact hscr i hi2
      · intro hc; simp at hc
  case finish =>
    have hcmp : (s.workers w).pc.computing = true := by simp [hpc, PC.computing]
    have hh : (s.workers w).pc.holds = true := by simp [hpc, PC.holds]
    obtain ⟨hle, hlt, -⟩ := held_eq hi hn hw hh
    obtain ⟨m, hm, hL⟩ := hwk.snap hcmp
    obtain ⟨-, hLR⟩ := chunkStart_le_readLimit hi hn hm
    have hoff := hwk.off hcmp
    have hlow := hwk.low hpc
    have hscr := hwk.scratch
    simp only [progress, hcmp, if_true] at hscr
    have key : (s.workers w).localWriteBase + (s.workers w).offset < cfg.CACHE_SIZE →
        Settled ((s.workers w).localWriteBase + (s.workers w).offset)
          ((s.sh.globalCache (s.workers w).n + (s.workers w).iteration_count) % WORD % SHORT) := by
      intro hlt2 hb
      obtain ⟨c, e1, e2, e3⟩ := hwk.traj hcmp hb
      have hpos : 1 ≤ (s.workers w).n := by
        rw [e1]; exact iterate_collatz_pos (by omega) c
      obtain ⟨k, hk, hv⟩ := h.1 (s.workers w).n hpos (by omega) (by omega)
        (by rw [e1]; exact staysBelow_shift hb e3)
      refine ⟨c + k, takesSteps_add e3 (by rw [← e1]; exact hk), ?_⟩
      rw [hv, e2]
      exact total_mod_short k c
    have hmod : ((s.workers w).offset + 1) % WORD = (s.workers w).offset + 1 :=
      Nat.mod_eq_of_lt (by omega)
    simp only [workerThread, hpc, hmod]
    refine compute_assemble h.1 ?_ (fun v hv _ => h.2 v hv)
    apply workerOK_enter s.sh _ _ m hm
    · split_ifs <;> exact hL
    · split_ifs <;> (dsimp only; omega)
    · split_ifs <;> exact hlt
    · omega
    · intro i hi2 hlt2
      have e1 : ∀ (c : Prop) [Decidable c] (a b : Worker), (if c then a else b).localWriteBase
          = if c then a.localWriteBase else b.localWriteBase := by
        intro c _ a b; split_ifs <;> rfl
      have e2 : ∀ (c : Prop) [Decidable c] (a b : Worker), (if c then a else b).localCache
          = if c then a.localCache else b.localCache := by
        intro c _ a b; split_ifs <;> rfl
      simp only [e1, e2, ite_self] at hlt2 ⊢
      unfold setCell
      by_cases e : i = (s.workers w).offset
      · rw [if_pos e, e]; rw [e] at hlt2; exact key hlt2
      · rw [if_neg e]; exact hscr i (by omega) hlt2
  case copy =>
    have hh : (s.workers w).pc.holds = true := by simp [hpc, PC.holds]
    have ht := hi.turn w hw (by simp [hpc, PC.inTurn])
    have hb := (hi.held w hw hh).2.2
    have hbase : (s.workers w).localWriteBase = s.sh.globalReadLimit := by
      rw [hb, ht, hi.readLimit]
    have hscr := hwk.scratch
    simp only [progress, hpc, PC.computing, PC.computed, if_true] at hscr
    simp only [workerThread, hpc]
    apply compute_assemble
    · intro n a b c
      have : memcpy s.sh.globalCache (s.workers w).localCache (s.workers w).localWriteBase
          (copyCount cfg (s.workers w).localWriteBase) n = s.sh.globalCache n := by
        unfold memcpy
        rw [if_neg]
        intro hc
        have : n < (s.workers w).localWriteBase := by rw [hbase]; exact b
        omega
      show Settled n (memcpy _ _ _ _ n)
      rw [this]
      exact h.1 n a b c
    · constructor
      · intro hc; simp [PC.computing] at hc
      · intro hc; simp [PC.computing] at hc
      · intro hc; simp [PC.computing] at hc
      · intro hc; simp at hc
      · intro hc; simp at hc
      · intro i hi2 hlt
        simp only [progress, PC.computing, PC.computed, if_true] at hi2
        exact hscr i (by simpa using hi2) hlt
      · intro _ i hi2 hlt
        dsimp only at hi2 hlt ⊢
        have hcnt := copyCount_of_le hf (a := (s.workers w).localWriteBase) (by omega)
        have : memcpy s.sh.globalCache (s.workers w).localCache (s.workers w).localWriteBase
            (copyCount cfg (s.workers w).localWriteBase) ((s.workers w).localWriteBase + i)
            = (s.workers w).localCache i := by
          unfold memcpy
          rw [if_pos, Nat.add_sub_cancel_left]
          rw [hcnt]
          refine ⟨Nat.le_add_right _ _, ?_⟩
          have : i < min cfg.WORK_CHUNK_SIZE (cfg.CACHE_SIZE - (s.workers w).localWriteBase) := by
            rw [Nat.lt_min]; omega
          omega
        show Settled _ (memcpy _ _ _ _ _)
        rw [this]
        exact hscr i hi2 hlt
    · intro v hv hvw
      apply workerOK_shared (h.2 v hv)
      · exact le_rfl
      intro hs
      exfalso
      have hv2 : (s.workers v).pc.inTurn = true := by simp [hs, PC.inTurn]
      apply hvw
      apply hi.distinct v w hv hw (inTurn_holds hv2) hh
      rw [hi.turn v hv hv2, ht]
  case store =>
    have hh : (s.workers w).pc.holds = true := by simp [hpc, PC.holds]
    have ht := hi.turn w hw (by simp [hpc, PC.inTurn])
    have hl := hi.limit w hw (by simp [hpc, PC.reloaded])
    have hb := (hi.held w hw hh).2.2
    have hbase : (s.workers w).localWriteBase = s.sh.globalReadLimit := by
      rw [hb, ht, hi.readLimit]
    obtain ⟨-, hlt, -⟩ := held_eq hi hn hw hh
    simp only [workerThread, hpc]
    apply compute_assemble
    · intro n a b c
      have hb2 : n < s.sh.globalReadLimit + cfg.WORK_CHUNK_SIZE := by
        have : ((s.workers w).localReadLimit + cfg.WORK_CHUNK_SIZE) % WORD
            = s.sh.globalReadLimit + cfg.WORK_CHUNK_SIZE := by
          rw [hl]; apply Nat.mod_eq_of_lt; rw [← hbase]; exact hlt
        rw [← this]; exact b
      show Settled n (s.sh.globalCache n)
      by_cases hlow : n < s.sh.globalReadLimit
      · exact h.1 n a hlow c
      · have hcop := hwk.copied hpc (n - (s.workers w).localWriteBase)
          (by rw [hbase]; omega) (by rw [hbase]; omega)
        have e : (s.workers w).localWriteBase + (n - (s.workers w).localWriteBase) = n := by
          rw [hbase]; omega
        rw [e] at hcop
        exact hcop
    · apply workerOK_idle hwk <;> simp [PC.computing, progress, PC.computed]
    · intro v hv _
      exact workerOK_shared (h.2 v hv) (by simp) (fun _ => rfl)

theorem thread_claims_mono (cfg : Config) (sh : Shared) (wk : Worker) :
    sh.claimLog.length ≤ (workerThread cfg sh wk).1.claimLog.length := by
  cases hpc : wk.pc <;> simp only [workerThread, hpc, enterOffset] <;> (try split_ifs) <;> simp

theorem step_claims_mono (cfg : Config) (s : State) (w : Nat) :
    s.sh.claimLog.length ≤ (step cfg s w).sh.claimLog.length := by
  by_cases hw : w < cfg.WORKER_COUNT
  · rw [step_of_lt hw]; exact thread_claims_mono cfg s.sh (s.workers w)
  · rw [step_of_ge hw]

theorem noWrap_of_step {cfg : Config} {s : State} {w : Nat} (h : NoWrap cfg (step cfg s w)) :
    NoWrap cfg s := by
  unfold NoWrap at h ⊢
  have := Nat.mul_le_mul_right cfg.WORK_CHUNK_SIZE (step_claims_mono cfg s w)
  omega

theorem reachable_compute {cfg : Config} (hf : Fits cfg) {boot : Boot} {s : State}
    (h : Reachable cfg boot s) (hn : NoWrap cfg s) : Compute cfg s := by
  induction h with
  | start => exact compute_main cfg boot
  | next s w hr ih =>
    have hn0 := noWrap_of_step hn
    by_cases hw : w < cfg.WORKER_COUNT
    · rw [step_of_lt hw]
      exact compute_thread hf (reachable_inv hf hr) hn0 (ih hn0) w hw
    · rw [step_of_ge hw]; exact ih hn0

theorem staysBelow_mono {a b n : Nat} (hab : a ≤ b) (h : StaysBelow a n) : StaysBelow b n :=
  fun j hj => lt_of_lt_of_le (h j hj) hab

/-- C1: in every reachable state whose chunk counter has not wrapped, every
`n` with `1 ≤ n < CACHE_SIZE` below `ReadLimit` whose Collatz trajectory stays
below `CACHE_SIZE` reaches 1, and `cache[n]` is its number of standard Collatz
steps modulo 65536. -/
theorem cache_holds_step_counts (cfg : Config) (boot : Boot) (s : State) (n : Nat)
    (hf : Fits cfg) (hr : Reachable cfg boot s) (hn : NoWrap cfg s)
    (h1 : 1 ≤ n) (h2 : n < cfg.CACHE_SIZE) (h3 : n < s.sh.globalReadLimit)
    (hb : StaysBelow cfg.CACHE_SIZE n) :
    ∃ k, TakesSteps n k ∧ s.sh.globalCache n = k % 65536 := by
  have hc := (reachable_compute hf hr hn).1 n h1 h3 h2
  have hle : cfg.CACHE_SIZE ≤ WORD := by
    have := hf.2.2.2; omega
  exact hc (staysBelow_mono hle hb)

theorem staysBelow_seven : StaysBelow testConfig.CACHE_SIZE 7 := by
  intro j hj
  by_cases h : j ≤ 16
  · interval_cases j <;> decide
  · exact absurd (by decide) (hj 16 (by omega))

set_option maxRecDepth 100000 in
theorem cache_holds_step_counts_witness :
    ∃ k, TakesSteps 7 k ∧ committedOnce.sh.globalCache 7 = k % 65536 :=
  cache_holds_step_counts testConfig zeroBoot committedOnce 7 (by decide)
    committedOnce_reachable (by decide) (by decide) (by decide) (by decide) staysBelow_seven

set_option maxRecDepth 100000 in
/-- C7: at the chunk start `2 + 32768 * 65536`, which lies above `CACHE_SIZE`,
the commit of the source constants does not copy zero entries: the unsigned
difference `CACHE_SIZE - localWriteBase` wraps and `2 ^ 63 - 3` entries are
copied to indices beyond the cache.  In the run of `clipConfig` the commit of
the chunk starting at 18, above the capacity 10, overwrites index 18. -/
theorem commit_not_clipped_past_capacity :
    chunkStart sourceConfig 32768 = 2147483650 ∧
    sourceConfig.CACHE_SIZE < 2147483650 ∧
    copyCount sourceConfig 2147483650 = 2 ^ 63 - 3 ∧
    ((clipRun 322).workers 0).pc = PC.copy ∧
    ((clipRun 322).workers 0).localWriteBase = 18 ∧
    (clipRun 322).sh.globalCache 18 = 4242 ∧
    (step clipConfig (clipRun 322) 0).sh.globalCache 18 = 20 := by
  decide

set_option maxRecDepth 100000 in
/-- C6 fails as stated: in the run of `clipConfig` the read limit passes the
capacity 10, and the worker is about to read `globalCache[11]`, an index below
its snapshot and below `ReadLimit` that is no cell of the cache and that no
commit has written (it still holds the heap content 4242). -/
theorem read_past_capacity :
    ((clipRun 145).workers 0).pc = PC.finish ∧
    ((clipRun 145).workers 0).n = 11 ∧
    ((clipRun 145).workers 0).n < ((clipRun 145).workers 0).localReadLimit ∧
    ((clipRun 145).workers 0).n < (clipRun 145).sh.globalReadLimit ∧
    clipConfig.CACHE_SIZE ≤ ((clipRun 145).workers 0).n ∧
    (clipRun 145).sh.globalCache 11 = markedBoot.heap 11 % SHORT ∧
    ((step clipConfig (clipRun 145) 0).workers 0).localTotals 1 = 4242 + 6 := by
  decide

theorem run_cons (cfg : Config) (s : State) (w : Nat) (l : List Nat) :
    run cfg s (w :: l) = run cfg (step cfg s w) l := rfl

theorem noWrap_of_run {cfg : Config} (l : List Nat) {s : State} (h : NoWrap cfg (run cfg s l)) :
    NoWrap cfg s := by
  induction l generalizing s with
  | nil => exact h
  | cons w l ih => exact noWrap_of_step (ih (by rw [run_cons] at h; exact h))

/-- A step changes no cell below the read limit and does not lower the limit. -/
theorem step_below_limit {cfg : Config} {s : State} (hi : Inv cfg s)
    (hn : NoWrap cfg s) (w : Nat) :
    s.sh.globalReadLimit ≤ (step cfg s w).sh.globalReadLimit ∧
    ∀ n, n < s.sh.globalReadLimit → (step cfg s w).sh.globalCache n = s.sh.globalCache n := by
  by_cases hw : w < cfg.WORKER_COUNT
  swap
  · rw [step_of_ge hw]; exact ⟨le_rfl, fun _ _ => rfl⟩
  rw [step_of_lt hw]
  by_cases hcopy : (s.workers w).pc = PC.copy
  · have hh : (s.workers w).pc.holds = true := by simp [hcopy, PC.holds]
    have ht := hi.turn w hw (by simp [hcopy, PC.inTurn])
    have hb := (hi.held w hw hh).2.2
    have hbase : (s.workers w).localWriteBase = s.sh.globalReadLimit := by
      rw [hb, ht, hi.readLimit]
    simp only [workerThread, hcopy]
    refine ⟨le_rfl, ?_⟩
    intro n hlt
    unfold memcpy
    rw [if_neg]
    rw [hbase]
    omega
  by_cases hstore : (s.workers w).pc = PC.store
  · have hh : (s.workers w).pc.holds = true := by simp [hstore, PC.holds]
    have ht := hi.turn w hw (by simp [hstore, PC.inTurn])
    have hl := hi.limit w hw (by simp [hstore, PC.reloaded])
    have hb := (hi.held w hw hh).2.2
    have hbase : (s.workers w).localWriteBase = s.sh.globalReadLimit := by
      rw [hb, ht, hi.readLimit]
    obtain ⟨-, hlt, -⟩ := held_eq hi hn hw hh
    simp only [workerThread, hstore]
    refine ⟨?_, fun _ _ => trivial⟩
    rw [hl, Nat.mod_eq_of_lt (by rw [← hbase]; exact hlt)]
    omega
  · revert hcopy hstore
    cases hpc : (s.workers w).pc <;> intro hcopy hstore <;>
      simp only [workerThread, hpc, enterOffset] <;> (try split_ifs) <;>
      first
        | exact ⟨le_rfl, fun _ _ => rfl⟩
        | exact ⟨le_rfl, fun _ _ => trivial⟩
        | exact absurd rfl hcopy
        | exact absurd rfl hstore

theorem run_below_limit {cfg : Config} (hf : Fits cfg) {boot : Boot} (l : List Nat) {s : State}
    (hr : Reachable cfg boot s) (hn : NoWrap cfg (run cfg s l)) :
    ∀ n, n < s.sh.globalReadLimit → (run cfg s l).sh.globalCache n = s.sh.globalCache n := by
  induction l generalizing s with
  | nil => intro n _; rfl
  | cons w l ih =>
    intro n hlt
    rw [run_cons] at hn ⊢
    have hn1 := noWrap_of_run l hn
    obtain ⟨hmono, hsame⟩ := step_below_limit (reachable_inv hf hr) (noWrap_of_step hn1) w
    rw [ih (Reachable.next s w hr) hn n (lt_of_lt_of_le hlt hmono), hsame n hlt]

theorem tracksMax_empty (f : Nat → Nat) (lo : Nat) : TracksMax f lo lo 0 0 :=
  ⟨fun m h1 h2 => absurd h2 (by omega), fun _ => rfl, fun h => absurd h (by omega)⟩

/-- The scan of lines 67 to 70 extended by one more total. -/
theorem tracksMax_push {f : Nat → Nat} {o n v : Nat} (h : TracksMax f 0 o n v) (t : Nat) :
    TracksMax (setCell f o t) 0 (o + 1) (if t > v then o else n) (if t > v then t else v) := by
  obtain ⟨hb, hz, hp⟩ := h
  have hlow : ∀ m, m < o → setCell f o t m = f m := by
    intro m hm; unfold setCell; rw [if_neg (by omega)]
  have hat : setCell f o t o = t := by unfold setCell; rw [if_pos rfl]
  split_ifs with hgt
  · refine ⟨?_, fun h0 => absurd h0 (by omega), fun _ => ⟨Nat.zero_le _, by omega, hat, ?_⟩⟩
    · intro m _ hm
      by_cases hmo : m < o
      · rw [hlow m hmo]; have := hb m (Nat.zero_le _) hmo; omega
      · have : m = o := by omega
        rw [this, hat]
    · intro m _ hm
      rw [hlow m hm]; have := hb m (Nat.zero_le _) hm; omega
  · refine ⟨?_, hz, ?_⟩
    · intro m _ hm
      by_cases hmo : m < o
      · rw [hlow m hmo]; exact hb m (Nat.zero_le _) hmo
      · have : m = o := by omega
        rw [this, hat]; omega
    · intro hv
      obtain ⟨a, b, c, d⟩ := hp hv
      refine ⟨a, by omega, by rw [hlow n b]; exact c, ?_⟩
      intro m hm1 hm2
      rw [hlow m (by omega)]; exact d m hm1 hm2

/-- The comparison of lines 80 to 84 merges the scan of a chunk into the scan
of everything below it. -/
theorem tracksMax_merge {g lt : Nat → Nat} {r w gN gV lo lv : Nat} (h2 : 2 ≤ r)
    (hg : TracksMax g 2 r gN gV) (hl : TracksMax lt 0 w lo lv) :
    TracksMax (memcpy g lt r w) 2 (r + w)
      (if lv > gV then r + lo else gN) (if lv > gV then lv else gV) := by
  obtain ⟨gb, gz, gp⟩ := hg
  obtain ⟨lb, -, lp⟩ := hl
  have hlow : ∀ m, m < r → memcpy g lt r w m = g m := by
    intro m hm; unfold memcpy; rw [if_neg (by omega)]
  have hhigh : ∀ m, r ≤ m → m < r + w → memcpy g lt r w m = lt (m - r) := by
    intro m hm1 hm2; unfold memcpy; rw [if_pos ⟨hm1, hm2⟩]
  split_ifs with hgt
  · have hpos : 0 < lv := by omega
    obtain ⟨-, b, c, d⟩ := lp hpos
    refine ⟨?_, fun h0 => absurd h0 (by omega), fun _ => ⟨by omega, by omega, ?_, ?_⟩⟩
    · intro m hm1 hm2
      by_cases hmr : m < r
      · rw [hlow m hmr]; have := gb m hm1 hmr; omega
      · rw [hhigh m (by omega) hm2]; exact lb _ (Nat.zero_le _) (by omega)
    · rw [hhigh _ (by omega) (by omega), Nat.add_sub_cancel_left]; exact c
    · intro m hm1 hm2
      by_cases hmr : m < r
      · rw [hlow m hmr]; have := gb m hm1 hmr; omega
      · rw [hhigh m (by omega) (by omega)]; exact d _ (Nat.zero_le _) (by omega)
  · refine ⟨?_, gz, ?_⟩
    · intro m hm1 hm2
      by_cases hmr : m < r
      · rw [hlow m hmr]; exact gb m hm1 hmr
      · rw [hhigh m (by omega) hm2]; have := lb (m - r) (Nat.zero_le _) (by omega); omega
    · intro hv
      obtain ⟨a, b, c, d⟩ := gp hv
      refine ⟨a, by omega, by rw [hlow gN b]; exact c, ?_⟩
      intro m hm1 hm2
      rw [hlow m (by omega)]; exact d m hm1 hm2

theorem track_main (cfg : Config) (boot : Boot) : Track cfg (main cfg boot) := by
  constructor
  · intro w _ h
    simp [main, freshWorker, PC.computing, PC.computed] at h
  · intro _
    exact tracksMax_empty _ 2
  · intro w _ h
    simp [main, freshWorker, PC.published] at h

theorem published_inTurn {pc : PC} (h : pc.published = true) : pc.inTurn = true := by
  revert h; cases pc <;> simp [PC.published, PC.inTurn]

/-- Two workers of the pool that are both in turn are the same worker. -/
theorem inTurn_unique {cfg : Config} {s : State} (hi : Inv cfg s) {w v : Nat}
    (hw : w < cfg.WORKER_COUNT) (hv : v < cfg.WORKER_COUNT)
    (h1 : (s.workers w).pc.inTurn = true) (h2 : (s.workers v).pc.inTurn = true) : w = v := by
  apply hi.distinct w v hw hv (inTurn_holds h1) (inTurn_holds h2)
  rw [hi.turn w hw h1, hi.turn v hv h2]

/-- A step that leaves the global pair, the read limit and the total log
alone, and neither enters nor leaves the published section. -/
theorem track_idle {cfg : Config} {s : State} (h : Track cfg s) (w : Nat) (sh2 : Shared)
    (wk2 : Worker)
    (h1 : sh2.totalLog = s.sh.totalLog) (h2 : sh2.globalReadLimit = s.sh.globalReadLimit)
    (h3 : sh2.globalMaxN = s.sh.globalMaxN)
    (h4 : sh2.globalMaxIterations = s.sh.globalMaxIterations)
    (h5 : wk2.pc.published = (s.workers w).pc.published)
    (h6 : wk2.pc.published = true → wk2.localTotals = (s.workers w).localTotals ∧
      wk2.localWriteBase = (s.workers w).localWriteBase)
    (h7 : wk2.pc.computing = true ∨ wk2.pc.computed = true →
      TracksMax wk2.localTotals 0 (progress cfg wk2) wk2.localMaxNOffset wk2.localMaxIterations) :
    Track cfg ⟨sh2, setWorker s.workers w wk2⟩ := by
  have hpub : ∀ v, (setWorker s.workers w wk2 v).pc.published = (s.workers v).pc.published := by
    intro v
    by_cases hv : v = w
    · subst hv; rw [setWorker_same]; exact h5
    · rw [setWorker_other _ _ hv]
  constructor
  · intro v hv hc
    by_cases hvw : v = w
    · subst hvw; simp only [setWorker_same] at hc ⊢; exact h7 hc
    · simp only [setWorker_other _ _ hvw] at hc ⊢; exact h.loc v hv hc
  · intro hq
    show TracksMax sh2.totalLog 2 sh2.globalReadLimit sh2.globalMaxN sh2.globalMaxIterations
    rw [h1, h2, h3, h4]
    exact h.quiet (fun v hv => by rw [← hpub v]; exact hq v hv)
  · intro v hv hp
    show TracksMax (memcpy sh2.totalLog _ _ _) 2 (sh2.globalReadLimit + _) sh2.globalMaxN
      sh2.globalMaxIterations
    rw [h1, h2, h3, h4]
    by_cases hvw : v = w
    · subst hvw
      simp only [setWorker_same] at hp ⊢
      obtain ⟨a, b⟩ := h6 hp
      rw [a, b]
      exact h.pub v hv (by rw [← h5]; exact hp)
    · simp only [setWorker_other _ _ hvw] at hp ⊢
      exact h.pub v hv hp

theorem track_thread {cfg : Config} (hf : Fits cfg) {s : State} (hi : Inv cfg s)
    (hn : NoWrap cfg s) (hc : Compute cfg s) (h : Track cfg s) (w : Nat)
    (hw : w < cfg.WORKER_COUNT) :
    Track cfg ⟨(workerThread cfg s.sh (s.workers w)).1,
      setWorker s.workers w (workerThread cfg s.sh (s.workers w)).2⟩ := by
  cases hpc : (s.workers w).pc
  case loopTest =>
    simp only [workerThread, hpc]
    split_ifs <;> apply track_idle h w <;>
      simp [hpc, PC.published, PC.computing, PC.computed]
  case claim =>
    simp only [workerThread, hpc]
    apply track_idle h w <;> simp [hpc, PC.published, PC.computing, PC.computed]
  case stopCheck =>
    simp only [workerThread, hpc]
    split_ifs <;> apply track_idle h w <;>
      simp [hpc, PC.published, PC.computing, PC.computed]
  case done =>
    simp only [workerThread, hpc]
    apply track_idle h w <;> simp [hpc, PC.published, PC.computing, PC.computed]
  case snapshot =>
    simp only [workerThread, hpc, enterOffset, if_pos hf.1]
    apply track_idle h w <;> simp [hpc, PC.published, PC.computing, PC.computed, progress]
    exact tracksMax_empty _ 0
  case inner =>
    have hloc := h.loc w hw (Or.inl (by simp [hpc, PC.computing]))
    simp only [progress, hpc, PC.computing, if_true] at hloc
    simp only [workerThread, hpc]
    split_ifs <;> apply track_idle h w <;>
      simp [hpc, PC.published, PC.computing, PC.computed, progress]
    · exact hloc
    · exact hloc
  case await =>
    have hloc := h.loc w hw (Or.inr (by simp [hpc, PC.computed]))
    simp only [progress, hpc, PC.computing, PC.computed] at hloc
    simp only [workerThread, hpc]
    split_ifs <;> apply track_idle h w <;>
      simp [hpc, PC.published, PC.computing, PC.computed, progress]
    · exact hloc
    · exact hloc
  case reload =>
    have hloc := h.loc w hw (Or.inr (by simp [hpc, PC.computed]))
    simp only [progress, hpc, PC.computing, PC.computed] at hloc
    simp only [workerThread, hpc]
    apply track_idle h w <;>
      simp [hpc, PC.published, PC.computing, PC.computed, progress]
    exact hloc
  case copy =>
    have hloc := h.loc w hw (Or.inr (by simp [hpc, PC.computed]))
    simp only [progress, hpc, PC.computing, PC.computed] at hloc
    simp only [workerThread, hpc]
    apply track_idle h w <;>
      simp [hpc, PC.published, PC.computing, PC.computed, progress]
    exact hloc
  case finish =>
    have hcmp : (s.workers w).pc.computing = true := by simp [hpc, PC.computing]
    have hloc := h.loc w hw (Or.inl hcmp)
    simp only [progress, hcmp, if_true] at hloc
    have hoff := (hc.2 w hw).off hcmp
    have hmod : ((s.workers w).offset + 1) % WORD = (s.workers w).offset + 1 :=
      Nat.mod_eq_of_lt (by have := hf.2.1; omega)
    have hpush := tracksMax_push hloc
      ((s.sh.globalCache (s.workers w).n + (s.workers w).iteration_count) % WORD)
    simp only [workerThread, hpc, hmod, enterOffset]
    split_ifs with hnext hgt hgt
    · apply track_idle h w <;>
        simp [hpc, PC.published, PC.computing, PC.computed, progress]
      simpa [hgt] using hpush
    · apply track_idle h w <;>
        simp [hpc, PC.published, PC.computing, PC.computed, progress]
      simpa [hgt] using hpush
    · have he : cfg.WORK_CHUNK_SIZE = (s.workers w).offset + 1 := by omega
      apply track_idle h w <;>
        simp [hpc, PC.published, PC.computing, PC.computed, progress]
      rw [he]
      simpa [hgt] using hpush
    · have he : cfg.WORK_CHUNK_SIZE = (s.workers w).offset + 1 := by omega
      apply track_idle h w <;>
        simp [hpc, PC.published, PC.computing, PC.computed, progress]
      rw [he]
      simpa [hgt] using hpush
  case updateMax =>
    have hh : (s.workers w).pc.holds = true := by simp [hpc, PC.holds]
    have hin : (s.workers w).pc.inTurn = true := by simp [hpc, PC.inTurn]
    have ht := hi.turn w hw hin
    have hb := (hi.held w hw hh).2.2
    have hbase : (s.workers w).localWriteBase = s.sh.globalReadLimit := by
      rw [hb, ht, hi.readLimit]
    obtain ⟨-, hlt, -⟩ := held_eq hi hn hw hh
    have h2 : 2 ≤ s.sh.globalReadLimit := by rw [readLimit_eq hi hn]; omega
    have hq : ∀ v, v < cfg.WORKER_COUNT → (s.workers v).pc.published = false := by
      intro v hv
      by_contra hp
      have hp2 : (s.workers v).pc.published = true := by
        cases hx : (s.workers v).pc.published
        · exact absurd hx hp
        · rfl
      have := inTurn_unique hi hv hw (published_inTurn hp2) hin
      subst this
      simp [hpc, PC.published] at hp2
    have hG := h.quiet hq
    have hloc := h.loc w hw (Or.inr (by simp [hpc, PC.computed]))
    simp only [progress, hpc, PC.computing, PC.computed] at hloc
    have hmerge := tracksMax_merge h2 hG hloc
    have hothers : ∀ v, v < cfg.WORKER_COUNT → v ≠ w →
        (s.workers v).pc.published = true → False := by
      intro v hv hvw hp
      rw [hq v hv] at hp
      exact absurd hp (by decide)
    simp only [workerThread, hpc]
    split_ifs with hgt
    · have hoffs : (s.workers w).localMaxNOffset < cfg.WORK_CHUNK_SIZE :=
        (hloc.2.2 (by omega)).2.1
      have hmod : ((s.workers w).localWriteBase + (s.workers w).localMaxNOffset) % WORD
          = s.sh.globalReadLimit + (s.workers w).localMaxNOffset := by
        rw [Nat.mod_eq_of_lt (by omega), hbase]
      rw [if_pos hgt, if_pos hgt] at hmerge
      constructor
      · intro v hv hcv
        by_cases hvw : v = w
        · subst hvw
          simp only [setWorker_same] at hcv ⊢
          simpa [progress, PC.computing, PC.computed] using hloc
        · simp only [setWorker_other _ _ hvw] at hcv ⊢
          exact h.loc v hv hcv
      · intro hq2
        have := hq2 w hw
        simp [setWorker_same, PC.published] at this
      · intro v hv hp
        by_cases hvw : v = w
        · subst hvw
          simp only [setWorker_same]
          rw [hmod, hbase]
          exact hmerge
        · simp only [setWorker_other _ _ hvw] at hp
          exact (hothers v hv hvw hp).elim
    · rw [if_neg hgt, if_neg hgt] at hmerge
      constructor
      · intro v hv hcv
        by_cases hvw : v = w
        · subst hvw
          simp only [setWorker_same] at hcv ⊢
          simpa [progress, PC.computing, PC.computed] using hloc
        · simp only [setWorker_other _ _ hvw] at hcv ⊢
          exact h.loc v hv hcv
      · intro hq2
        have := hq2 w hw
        simp [setWorker_same, PC.published] at this
      · intro v hv hp
        by_cases hvw : v = w
        · subst hvw
          simp only [setWorker_same]
          rw [hbase]
          exact hmerge
        · simp only [setWorker_other _ _ hvw] at hp
          exact (hothers v hv hvw hp).elim
  case store =>
    have hh : (s.workers w).pc.holds = true := by simp [hpc, PC.holds]
    have hin : (s.workers w).pc.inTurn = true := by simp [hpc, PC.inTurn]
    have hl := hi.limit w hw (by simp [hpc, PC.reloaded])
    obtain ⟨-, hlt, -⟩ := held_eq hi hn hw hh
    have ht := hi.turn w hw hin
    have hb := (hi.held w hw hh).2.2
    have hbase : (s.workers w).localWriteBase = s.sh.globalReadLimit := by
      rw [hb, ht, hi.readLimit]
    have hP := h.pub w hw (by simp [hpc, PC.published])
    have hmod : ((s.workers w).localReadLimit + cfg.WORK_CHUNK_SIZE) % WORD
        = s.sh.globalReadLimit + cfg.WORK_CHUNK_SIZE := by
      rw [hl, Nat.mod_eq_of_lt (by rw [← hbase]; exact hlt)]
    simp only [workerThread, hpc]
    constructor
    · intro v hv hcv
      by_cases hvw : v = w
      · subst hvw
        simp [setWorker_same, PC.computing, PC.computed] at hcv
      · simp only [setWorker_other _ _ hvw] at hcv ⊢
        exact h.loc v hv hcv
    · intro _
      dsimp only
      rw [hmod]
      exact hP
    · intro v hv hp
      by_cases hvw : v = w
      · subst hvw
        simp [setWorker_same, PC.published] at hp
      · simp only [setWorker_other _ _ hvw] at hp
        exact (hvw (inTurn_unique hi hv hw (published_inTurn hp) hin)).elim

theorem reachable_track {cfg : Config} (hf : Fits cfg) {boot : Boot} {s : State}
    (h : Reachable cfg boot s) (hn : NoWrap cfg s) : Track cfg s := by
  induction h with
  | start => exact track_main cfg boot
  | next s w hr ih =>
    have hn0 := noWrap_of_step hn
    by_cases hw : w < cfg.WORKER_COUNT
    · rw [step_of_lt hw]
      exact track_thread hf (reachable_inv hf hr) hn0 (reachable_compute hf hr hn0) (ih hn0) w hw
    · rw [step_of_ge hw]; exact ih hn0

theorem exact_main (cfg : Config) (good : Nat → Prop) (boot : Boot) :
    Exact cfg good (main cfg boot) := by
  constructor
  · intro w _ i hi
    simp [main, freshWorker, progress, PC.computing, PC.computed] at hi
  · intro n h1 h2
    have : (main cfg boot).sh.globalReadLimit = 2 := rfl
    omega

theorem exact_idle {cfg : Config} {good : Nat → Prop} {s : State} (h : Exact cfg good s)
    (w : Nat)
    (sh2 : Shared) (wk2 : Worker)
    (h1 : sh2.totalLog = s.sh.totalLog) (h2 : sh2.globalReadLimit = s.sh.globalReadLimit)
    (h6 : ∀ i, i < progress cfg wk2 → i < progress cfg (s.workers w) ∧
      wk2.localWriteBase = (s.workers w).localWriteBase ∧
      wk2.localTotals i = (s.workers w).localTotals i)
    (hw : w < cfg.WORKER_COUNT) :
    Exact cfg good ⟨sh2, setWorker s.workers w wk2⟩ := by
  constructor
  · intro v hv i hi hlt
    by_cases hvw : v = w
    · subst hvw
      simp only [setWorker_same] at hi hlt ⊢
      obtain ⟨a, b, c⟩ := h6 i hi
      rw [b, c]
      rw [b] at hlt
      exact h.loc v hv i a hlt
    · simp only [setWorker_other _ _ hvw] at hi hlt ⊢
      exact h.loc v hv i hi hlt
  · intro n a b c
    show TakesSteps n (sh2.totalLog n)
    rw [h1]
    exact h.log n a (by rw [← h2]; exact b) c

/-- The total of line 63 is the exact step count when the counts stay below 65536. -/
theorem total_exact {k c k2 : Nat} (hk : c + k2 = k) (hlt : k < SHORT) :
    (k2 % SHORT + c % WORD) % WORD = k := by
  have h1 : SHORT ≤ WORD := by decide
  rw [Nat.mod_eq_of_lt (by omega : k2 < SHORT), Nat.mod_eq_of_lt (by omega : c < WORD),
    Nat.mod_eq_of_lt (by omega)]
  omega

theorem exact_thread {cfg : Config} (hf : Fits cfg) {good : Nat → Prop} (hrg : Tame cfg good)
    {s : State} (hi : Inv cfg s)
    (hn : NoWrap cfg s) (hc : Compute cfg s) (h : Exact cfg good s) (w : Nat)
    (hw : w < cfg.WORKER_COUNT) :
    Exact cfg good ⟨(workerThread cfg s.sh (s.workers w)).1,
      setWorker s.workers w (workerThread cfg s.sh (s.workers w)).2⟩ := by
  have hwk := hc.2 w hw
  cases hpc : (s.workers w).pc
  case loopTest =>
    simp only [workerThread, hpc]
    split_ifs <;> apply exact_idle h w _ _ _ _ _ hw <;>
      simp [hpc, PC.computing, PC.computed, progress]
  case claim =>
    simp only [workerThread, hpc]
    apply exact_idle h w _ _ _ _ _ hw <;> simp [hpc, PC.computing, PC.computed, progress]
  case snapshot =>
    simp only [workerThread, hpc, enterOffset, if_pos hf.1]
    apply exact_idle h w _ _ _ _ _ hw <;> simp [hpc, PC.computing, PC.computed, progress]
  case inner =>
    simp only [workerThread, hpc]
    split_ifs <;> apply exact_idle h w _ _ _ _ _ hw <;>
      simp [hpc, PC.computing, PC.computed, progress]
  case await =>
    simp only [workerThread, hpc]
    split_ifs <;> apply exact_idle h w _ _ _ _ _ hw <;>
      simp [hpc, PC.computing, PC.computed, progress]
  case reload =>
    simp only [workerThread, hpc]
    apply exact_idle h w _ _ _ _ _ hw <;> simp [hpc, PC.computing, PC.computed, progress]
  case updateMax =>
    simp only [workerThread, hpc]
    split_ifs <;> apply exact_idle h w _ _ _ _ _ hw <;>
      simp [hpc, PC.computing, PC.computed, progress]
  case copy =>
    simp only [workerThread, hpc]
    apply exact_idle h w _ _ _ _ _ hw <;> simp [hpc, PC.computing, PC.computed, progress]
  case stopCheck =>
    simp only [workerThread, hpc]
    split_ifs <;> apply exact_idle h w _ _ _ _ _ hw <;>
      simp [hpc, PC.computing, PC.computed, progress]
  case done =>
    simp only [workerThread, hpc]
    apply exact_idle h w _ _ _ _ _ hw <;> simp [hpc, PC.computing, PC.computed, progress]
  case finish =>
    have hcmp : (s.workers w).pc.computing = true := by simp [hpc, PC.computing]
    have hh : (s.workers w).pc.holds = true := by simp [hpc, PC.holds]
    obtain ⟨hle, hlt, -⟩ := held_eq hi hn hw hh
    obtain ⟨m, hm, hL⟩ := hwk.snap hcmp
    obtain ⟨hL2, hLR⟩ := chunkStart_le_readLimit hi hn hm
    have hoff := hwk.off hcmp
    have hlow := hwk.low hpc
    have hloc := h.loc w hw
    simp only [progress, hcmp, if_true] at hloc
    have key : good ((s.workers w).localWriteBase + (s.workers w).offset) →
        TakesSteps ((s.workers w).localWriteBase + (s.workers w).offset)
          ((s.sh.globalCache (s.workers w).n + (s.workers w).iteration_count) % WORD) := by
      intro hlt2
      obtain ⟨hcell, hb, k, hk, hks⟩ := hrg _ hlt2
      obtain ⟨c, e1, e2, e3⟩ := hwk.traj hcmp hb
      have hpos : 1 ≤ (s.workers w).n := by
        rw [e1]; exact iterate_collatz_pos (by omega) c
      obtain ⟨k2, hk2, hv⟩ := hc.1 (s.workers w).n hpos (by omega) (by omega)
        (by rw [e1]; exact staysBelow_shift hb e3)
      have hsum := takesSteps_add e3 (by rw [← e1]; exact hk2)
      have hu := takesSteps_unique hsum hk
      rw [hv, e2, total_exact hu hks]
      exact hk
    have hmod : ((s.workers w).offset + 1) % WORD = (s.workers w).offset + 1 :=
      Nat.mod_eq_of_lt (by have := hf.2.1; omega)
    have hnew : ∀ i, i < (s.workers w).offset + 1 → good ((s.workers w).localWriteBase + i) →
        TakesSteps ((s.workers w).localWriteBase + i)
          (setCell (s.workers w).localTotals (s.workers w).offset
            ((s.sh.globalCache (s.workers w).n + (s.workers w).iteration_count) % WORD) i) := by
      intro i hi2 hlt2
      unfold setCell
      by_cases e : i = (s.workers w).offset
      · rw [if_pos e, e]; rw [e] at hlt2; exact key hlt2
      · rw [if_neg e]; exact hloc i (by omega) hlt2
    simp only [workerThread, hpc, hmod, enterOffset]
    constructor
    · intro v hv i hi2 hlt2
      by_cases hvw : v = w
      · subst hvw
        simp only [setWorker_same] at hi2 hlt2 ⊢
        split_ifs at hi2 hlt2 ⊢ <;>
          simp [progress, PC.computing, PC.computed] at hi2 <;>
          exact hnew i (by omega) hlt2
      · simp only [setWorker_other _ _ hvw] at hi2 hlt2 ⊢
        exact h.loc v hv i hi2 hlt2
    · exact h.log
  case store =>
    have hh : (s.workers w).pc.holds = true := by simp [hpc, PC.holds]
    have hin : (s.workers w).pc.inTurn = true := by simp [hpc, PC.inTurn]
    have hl := hi.limit w hw (by simp [hpc, PC.reloaded])
    obtain ⟨-, hlt, -⟩ := held_eq hi hn hw hh
    have ht := hi.turn w hw hin
    have hb := (hi.held w hw hh).2.2
    have hbase : (s.workers w).localWriteBase = s.sh.globalReadLimit := by
      rw [hb, ht, hi.readLimit]
    have hmod : ((s.workers w).localReadLimit + cfg.WORK_CHUNK_SIZE) % WORD
        = s.sh.globalReadLimit + cfg.WORK_CHUNK_SIZE := by
      rw [hl, Nat.mod_eq_of_lt (by rw [← hbase]; exact hlt)]
    have hloc := h.loc w hw
    simp only [progress, hpc, PC.computing, PC.computed] at hloc
    simp only [workerThread, hpc]
    constructor
    · intro v hv i hi2 hlt2
      by_cases hvw : v = w
      · subst hvw
        simp [setWorker_same, progress, PC.computing, PC.computed] at hi2
      · simp only [setWorker_other _ _ hvw] at hi2 hlt2 ⊢
        exact h.loc v hv i hi2 hlt2
    · intro n a b c
      dsimp only at b ⊢
      rw [hmod] at b
      unfold memcpy
      by_cases hlow : n < s.sh.globalReadLimit
      · rw [if_neg (by omega)]
        exact h.log n a hlow c
      · rw [if_pos (by omega)]
        have e : (s.workers w).localWriteBase + (n - (s.workers w).localWriteBase) = n := by
          omega
        have := hloc (n - (s.workers w).localWriteBase) (by simp; omega) (by rw [e]; exact c)
        rw [e] at this
        exact this

theorem reachable_exact {cfg : Config} (hf : Fits cfg) {good : Nat → Prop}
    (hrg : Tame cfg good) {boot : Boot} {s : State}
    (h : Reachable cfg boot s) (hn : NoWrap cfg s) : Exact cfg good s := by
  induction h with
  | start => exact exact_main cfg good boot
  | next s w hr ih =>
    have hn0 := noWrap_of_step hn
    by_cases hw : w < cfg.WORKER_COUNT
    · rw [step_of_lt hw]
      exact exact_thread hf hrg (reachable_inv hf hr) hn0 (reachable_compute hf hr hn0)
        (ih hn0) w hw
    · rw [step_of_ge hw]; exact ih hn0

theorem flag_main (cfg : Config) (boot : Boot) : Flag cfg (main cfg boot) := by
  constructor
  · intro h; simp [main] at h
  · intro w _ h; simp [main, freshWorker] at h

theorem flag_frame {cfg : Config} {s : State} (h : Flag cfg s) (w : Nat) (sh2 : Shared)
    (wk2 : Worker)
    (h1 : sh2.programRunning = s.sh.programRunning ∨
      (sh2.programRunning = false ∧ cfg.STOP_AFTER ≤ sh2.globalMaxIterations))
    (h2 : s.sh.globalMaxIterations ≤ sh2.globalMaxIterations)
    (h3 : wk2.pc = PC.done → sh2.programRunning = false) :
    Flag cfg ⟨sh2, setWorker s.workers w wk2⟩ := by
  constructor
  · intro hc
    rcases h1 with e | ⟨-, e⟩
    · exact le_trans (h.cleared (by rw [← e]; exact hc)) h2
    · exact e
  · intro v hv hd
    by_cases hvw : v = w
    · subst hvw; simp only [setWorker_same] at hd; exact h3 hd
    · simp only [setWorker_other _ _ hvw] at hd
      rcases h1 with e | ⟨e, -⟩
      · show sh2.programRunning = false
        rw [e]; exact h.left v hv hd
      · exact e

theorem flag_thread {cfg : Config} {s : State} (h : Flag cfg s) (w : Nat)
    (hw : w < cfg.WORKER_COUNT) :
    Flag cfg ⟨(workerThread cfg s.sh (s.workers w)).1,
      setWorker s.workers w (workerThread cfg s.sh (s.workers w)).2⟩ := by
  cases hpc : (s.workers w).pc <;> simp only [workerThread, hpc, enterOffset] <;>
    (try split_ifs) <;> apply flag_frame h w <;> simp_all
  · omega
  · exact h.left w hw hpc

theorem reachable_flag {cfg : Config} {boot : Boot} {s : State}
    (h : Reachable cfg boot s) : Flag cfg s := by
  induction h with
  | start => exact flag_main cfg boot
  | next s w _ ih =>
    by_cases hw : w < cfg.WORKER_COUNT
    · rw [step_of_lt hw]; exact flag_thread ih w hw
    · rw [step_of_ge hw]; exact ih

theorem holders_claimers_le (cfg : Config) (s : State) :
    (holders cfg s).card + (claimers cfg s).card ≤ cfg.WORKER_COUNT := by
  have hdis : Disjoint (holders cfg s) (claimers cfg s) := by
    rw [Finset.disjoint_left]
    intro v hv hc
    simp only [holders, claimers, Finset.mem_filter, Finset.mem_range, willClaim] at hv hc
    obtain ⟨-, hh⟩ := hv
    obtain ⟨-, hc⟩ := hc
    revert hh hc
    cases (s.workers v).pc <;> simp [PC.holds]
  rw [← Finset.card_union_of_disjoint hdis]
  have hsub : holders cfg s ∪ claimers cfg s ⊆ Finset.range cfg.WORKER_COUNT := by
    intro v hv
    rw [Finset.mem_union] at hv
    rcases hv with h | h
    · exact (Finset.mem_filter.mp h).1
    · exact (Finset.mem_filter.mp h).1
  simpa using Finset.card_le_card hsub

theorem claimers_mono {cfg : Config} {s s2 : State}
    (h : ∀ v, v < cfg.WORKER_COUNT → willClaim s2 v = true → willClaim s v = true) :
    (claimers cfg s2).card ≤ (claimers cfg s).card := by
  apply Finset.card_le_card
  intro v hv
  simp only [claimers, Finset.mem_filter, Finset.mem_range] at hv ⊢
  exact ⟨hv.1, h v hv.1 hv.2⟩

theorem claimers_drop {cfg : Config} {s s2 : State} {w : Nat} (hw : w < cfg.WORKER_COUNT)
    (hwc : willClaim s w = true) (hw2 : willClaim s2 w = false)
    (h : ∀ v, v < cfg.WORKER_COUNT → willClaim s2 v = true → willClaim s v = true) :
    (claimers cfg s2).card + 1 ≤ (claimers cfg s).card := by
  have hmem : w ∈ claimers cfg s := by simp [claimers, hw, hwc]
  have hsub : claimers cfg s2 ⊆ (claimers cfg s).erase w := by
    intro v hv
    simp only [claimers, Finset.mem_filter, Finset.mem_range, Finset.mem_erase] at hv ⊢
    refine ⟨?_, hv.1, h v hv.1 hv.2⟩
    intro e
    rw [e, hw2] at hv
    exact absurd hv.2 (by decide)
  have := Finset.card_le_card hsub
  rw [Finset.card_erase_of_mem hmem] at this
  have := Finset.card_pos.mpr ⟨w, hmem⟩
  omega

/-- A step other than a claim keeps the budget: it creates no claimer. -/
theorem budget_frame {cfg : Config} {K : Nat} {s : State} (h : Budget cfg K s)
    (hi : Inv cfg s) (hK : s.sh.globalMaxIterations < cfg.STOP_AFTER → s.sh.commitLog.length ≤ K)
    (w : Nat) (sh2 : Shared) (wk2 : Worker)
    (h1 : sh2.claimLog = s.sh.claimLog)
    (h2 : sh2.programRunning = true → s.sh.programRunning = true)
    (h3 : cfg.STOP_AFTER ≤ sh2.globalMaxIterations →
      willClaim ⟨sh2, setWorker s.workers w wk2⟩ w = true → willClaim s w = true) :
    Budget cfg K ⟨sh2, setWorker s.workers w wk2⟩ := by
  intro hge
  have hsub : (claimers cfg ⟨sh2, setWorker s.workers w wk2⟩).card ≤ (claimers cfg s).card := by
    apply claimers_mono
    intro v _ hv
    by_cases hvw : v = w
    · subst hvw; exact h3 hge hv
    · simp only [willClaim, setWorker_other _ _ hvw] at hv ⊢
      cases hp : sh2.programRunning
      · rw [hp] at hv; simp at hv; simp [hv]
      · rw [h2 hp]; rw [hp] at hv; exact hv
  show sh2.claimLog.length + _ ≤ _
  rw [h1]
  by_cases hold : cfg.STOP_AFTER ≤ s.sh.globalMaxIterations
  · have := h hold
    omega
  · have := hK (by omega)
    have := hi.count
    have := holders_claimers_le cfg s
    omega

/-- The claim itself: one chunk more, one claimer less. -/
theorem budget_claim {cfg : Config} {K : Nat} {s : State} (h : Budget cfg K s) (w : Nat)
    (hw : w < cfg.WORKER_COUNT) (hwc : willClaim s w = true) (sh2 : Shared) (wk2 : Worker)
    (h1 : sh2.claimLog.length = s.sh.claimLog.length + 1)
    (h2 : sh2.programRunning = s.sh.programRunning)
    (h3 : sh2.globalMaxIterations = s.sh.globalMaxIterations)
    (h4 : wk2.pc = PC.snapshot) :
    Budget cfg K ⟨sh2, setWorker s.workers w wk2⟩ := by
  intro hge
  have hdrop : (claimers cfg ⟨sh2, setWorker s.workers w wk2⟩).card + 1
      ≤ (claimers cfg s).card := by
    apply claimers_drop hw hwc
    · simp [willClaim, setWorker_same, h4]
    · intro v _ hv
      by_cases hvw : v = w
      · subst hvw; exact hwc
      · simp only [willClaim, setWorker_other _ _ hvw, h2] at hv ⊢; exact hv
  have := h (by rw [← h3]; exact hge)
  show sh2.claimLog.length + _ ≤ _
  omega

theorem budget_thread {cfg : Config} {K : Nat} {s : State} (h : Budget cfg K s)
    (hi : Inv cfg s) (hK : s.sh.globalMaxIterations < cfg.STOP_AFTER → s.sh.commitLog.length ≤ K)
    (w : Nat) (hw : w < cfg.WORKER_COUNT) :
    Budget cfg K ⟨(workerThread cfg s.sh (s.workers w)).1,
      setWorker s.workers w (workerThread cfg s.sh (s.workers w)).2⟩ := by
  cases hpc : (s.workers w).pc
  case claim =>
    simp only [workerThread, hpc]
    apply budget_claim h w hw (by simp [willClaim, hpc]) <;> simp
  all_goals
    simp only [workerThread, hpc, enterOffset]
    (try split_ifs)
    all_goals
      apply budget_frame h hi hK w
      all_goals simp_all [willClaim, setWorker_same]

theorem walk_sound {bound : Nat} (fuel : Nat) {n k : Nat} (h : walk bound fuel n = some k) :
    TakesSteps n k ∧ StaysBelow bound n := by
  induction fuel generalizing n k with
  | zero => simp [walk] at h
  | succ f ih =>
    unfold walk at h
    split_ifs at h with h1 h2
    · have hk : k = 0 := by simpa using h.symm
      subst hk
      subst h2
      refine ⟨⟨rfl, fun j hj => absurd hj (Nat.not_lt_zero j)⟩, ?_⟩
      intro j hj
      cases j with
      | zero => exact Nat.lt_of_not_ge h1
      | succ j => exact absurd rfl (hj 0 (Nat.succ_pos j))
    · rw [Option.map_eq_some'] at h
      obtain ⟨k2, hk2, rfl⟩ := h
      obtain ⟨ht, hb⟩ := ih hk2
      constructor
      · constructor
        · rw [Function.iterate_succ_apply]; exact ht.1
        · intro j hj
          cases j with
          | zero => exact h2
          | succ j => rw [Function.iterate_succ_apply]; exact ht.2 j (by omega)
      · intro j hj
        cases j with
        | zero => exact Nat.lt_of_not_ge h1
        | succ j =>
          rw [Function.iterate_succ_apply]
          apply hb
          intro i hi
          have := hj (i + 1) (by omega)
          rw [Function.iterate_succ_apply] at this
          exact this

theorem claimLog_le_succ (cfg : Config) (s : State) (w : Nat) :
    (step cfg s w).sh.claimLog.length ≤ s.sh.claimLog.length + 1 := by
  by_cases hw : w < cfg.WORKER_COUNT
  · rw [step_of_lt hw]
    cases hpc : (s.workers w).pc <;> simp only [workerThread, hpc, enterOffset] <;>
      (try split_ifs) <;> simp
  · rw [step_of_ge hw]; omega

/-- When the threshold is met at the latest once more than `K` chunks are
committed, no more than `K + WORKER_COUNT` chunks are ever claimed. -/
theorem claims_bounded {cfg : Config} (hf : Fits cfg) {boot : Boot} (K : Nat)
    (hfit : 2 + (K + cfg.WORKER_COUNT + 1) * cfg.WORK_CHUNK_SIZE < WORD)
    (hyp : ∀ s, Reachable cfg boot s → NoWrap cfg s → K < s.sh.commitLog.length →
      cfg.STOP_AFTER ≤ s.sh.globalMaxIterations)
    {s : State} (hr : Reachable cfg boot s) :
    s.sh.claimLog.length ≤ K + cfg.WORKER_COUNT ∧ Budget cfg K s := by
  have hnw : ∀ t : State, t.sh.claimLog.length ≤ K + cfg.WORKER_COUNT + 1 → NoWrap cfg t := by
    intro t ht
    unfold NoWrap
    have := Nat.mul_le_mul_right cfg.WORK_CHUNK_SIZE ht
    omega
  induction hr with
  | start =>
    constructor
    · show 0 ≤ _; omega
    · intro _
      have := holders_claimers_le cfg (main cfg boot)
      show 0 + _ ≤ _
      omega
  | next s w hr ih =>
    obtain ⟨hc, hb⟩ := ih
    have hi := reachable_inv hf hr
    have hK : s.sh.globalMaxIterations < cfg.STOP_AFTER → s.sh.commitLog.length ≤ K := by
      intro hlt
      by_contra hgt
      have := hyp s hr (hnw s (by omega)) (by omega)
      omega
    have hb2 : Budget cfg K (step cfg s w) := by
      by_cases hw : w < cfg.WORKER_COUNT
      · rw [step_of_lt hw]; exact budget_thread hb hi hK w hw
      · rw [step_of_ge hw]; exact hb
    refine ⟨?_, hb2⟩
    have hr2 := Reachable.next s w hr
    have hn2 := hnw (step cfg s w) (by have := claimLog_le_succ cfg s w; omega)
    by_cases hge : cfg.STOP_AFTER ≤ (step cfg s w).sh.globalMaxIterations
    · have := hb2 hge
      omega
    · have hi2 := reachable_inv hf hr2
      have hcm : (step cfg s w).sh.commitLog.length ≤ K := by
        by_contra hgt
        exact hge (hyp _ hr2 hn2 (by omega))
      have := hi2.count
      have := holders_card_le cfg (step cfg s w)
      omega

/-- The global maximum bounds the logged total of every committed value. -/
theorem max_bounds_log {cfg : Config} {s : State} (hi : Inv cfg s) (ht : Track cfg s)
    {m : Nat} (h1 : 2 ≤ m) (h2 : m < s.sh.globalReadLimit) :
    s.sh.totalLog m ≤ s.sh.globalMaxIterations := by
  by_cases hq : ∀ w, w < cfg.WORKER_COUNT → (s.workers w).pc.published = false
  · exact (ht.quiet hq).1 m h1 h2
  · push_neg at hq
    obtain ⟨w, hw, hp⟩ := hq
    have hp2 : (s.workers w).pc.published = true := by
      cases hx : (s.workers w).pc.published
      · exact absurd hx hp
      · rfl
    have hin := published_inTurn hp2
    have hbase : (s.workers w).localWriteBase = s.sh.globalReadLimit := by
      rw [(hi.held w hw (inTurn_holds hin)).2.2, hi.turn w hw hin, hi.readLimit]
    have := (ht.pub w hw hp2).1 m h1 (by omega)
    unfold memcpy at this
    rw [if_neg (by omega)] at this
    exact this

set_option maxRecDepth 100000 in
/-- C2 fails as stated: in the witness configuration the single worker
finishes with the pair `(27, 111)`, while the pool of four, along
`poolSchedule`, finishes with `(54, 112)`. -/
theorem pool_differs_from_single_worker :
    Quiescent (poolConfig 1) soloRun ∧ Quiescent testConfig poolRun ∧
    (soloRun.sh.globalMaxN, soloRun.sh.globalMaxIterations) = (27, 111) ∧
    (poolRun.sh.globalMaxN, poolRun.sh.globalMaxIterations) = (54, 112) := by
  decide

theorem walk_any {bound fuel n k : Nat} {p : Nat → Bool}
    (h : (walk bound fuel n).any p = true) (hk : TakesSteps n k) : p k = true := by
  cases hw : walk bound fuel n with
  | none => rw [hw] at h; simp at h
  | some k2 =>
    rw [hw] at h
    have := takesSteps_unique (walk_sound fuel hw).1 hk
    subst this
    simpa using h

set_option maxRecDepth 100000 in
theorem table_ranged :
    ∀ n, n < 82 → 2 ≤ n → (walk WORD 200 n).any (fun k => decide (k < SHORT)) = true := by
  decide

theorem tame_pool (wc : Nat) : Tame (poolConfig wc) (fun n => 2 ≤ n ∧ n < 82) := by
  intro n hn
  obtain ⟨h1, h2⟩ := hn
  have h := table_ranged n h2 h1
  have hcell : n < (poolConfig wc).CACHE_SIZE := by show n < 1024; omega
  cases hw : walk WORD 200 n with
  | none => rw [hw] at h; simp at h
  | some k =>
    rw [hw] at h
    obtain ⟨a, b⟩ := walk_sound 200 hw
    exact ⟨hcell, b, k, a, by simpa using h⟩

theorem refMax_unique {lo hi n v n2 v2 : Nat} (h : RefMax lo hi n v) (h2 : RefMax lo hi n2 v2) :
    n = n2 ∧ v = v2 := by
  obtain ⟨a1, b1, c1, d1, e1⟩ := h
  obtain ⟨a2, b2, c2, d2, e2⟩ := h2
  have hv1 := d1 n2 v2 a2 b2 c2
  have hv2 := d2 n v a1 b1 c1
  have hv : v = v2 := by omega
  refine ⟨?_, hv⟩
  rcases Nat.lt_trichotomy n n2 with hlt | heq | hgt
  · have := e2 n v a1 hlt c1; omega
  · exact heq
  · have := e1 n2 v2 a2 hgt c2; omega

/-- A table check of `RefMax` by the reference walk. -/
theorem refMax_of_table {lo hi n v : Nat} (h1 : lo ≤ n) (h2 : n < hi)
    (h3 : walk WORD 200 n = some v)
    (h4 : ∀ m, m < hi → lo ≤ m → (walk WORD 200 m).any (fun k => decide (k ≤ v)) = true)
    (h5 : ∀ m, m < n → lo ≤ m → (walk WORD 200 m).any (fun k => decide (k < v)) = true) :
    RefMax lo hi n v := by
  refine ⟨h1, h2, (walk_sound 200 h3).1, ?_, ?_⟩
  · intro m k a b hk
    simpa using walk_any (h4 m b a) hk
  · intro m k a b hk
    simpa using walk_any (h5 m b a) hk

set_option maxRecDepth 100000 in
theorem refMax_34 : RefMax 2 34 27 111 :=
  refMax_of_table (by decide) (by decide) (by decide) (by decide) (by decide)

set_option maxRecDepth 100000 in
theorem refMax_50 : RefMax 2 50 27 111 :=
  refMax_of_table (by decide) (by decide) (by decide) (by decide) (by decide)

set_option maxRecDepth 100000 in
theorem refMax_66 : RefMax 2 66 54 112 :=
  refMax_of_table (by decide) (by decide) (by decide) (by decide) (by decide)

set_option maxRecDepth 100000 in
theorem refMax_82 : RefMax 2 82 73 115 :=
  refMax_of_table (by decide) (by decide) (by decide) (by decide) (by decide)

set_option maxRecDepth 100000 in
theorem table_low :
    ∀ n, n < 18 → 2 ≤ n → (walk WORD 200 n).any (fun k => decide (k < 20)) = true := by
  decide

theorem fits_pool {wc : Nat} (h : wc ≤ 4) : Fits (poolConfig wc) := by
  have h1 : (0 : Nat) < 16 := by decide
  have h2 : 2 * 16 < WORD := by decide
  have h3 : 1024 + 16 < WORD := by decide
  have h4 : (4 : Nat) * 16 ≤ WORD := by decide
  refine ⟨h1, h2, ?_, h3⟩
  show wc * 16 ≤ WORD
  omega

theorem noWrap_pool (wc : Nat) {s : State} (hc : s.sh.claimLog.length ≤ 6) :
    NoWrap (poolConfig wc) s := by
  unfold NoWrap
  show 2 + s.sh.claimLog.length * 16 < WORD
  have : 2 + 6 * 16 < WORD := by decide
  omega

/-- In the test configuration the threshold is met once two chunks are committed. -/
theorem pool_threshold {wc : Nat} (h : wc ≤ 4) {boot : Boot} (s : State)
    (hr : Reachable (poolConfig wc) boot s) (hn : NoWrap (poolConfig wc) s)
    (hc : 1 < s.sh.commitLog.length) :
    (poolConfig wc).STOP_AFTER ≤ s.sh.globalMaxIterations := by
  have hf := fits_pool h
  have hi := reachable_inv hf hr
  have hrl := readLimit_eq hi hn
  have hrl2 : 34 ≤ s.sh.globalReadLimit := by
    rw [hrl]; show 34 ≤ 2 + s.sh.commitLog.length * 16; omega
  have hb := max_bounds_log hi (reachable_track hf hr hn) (m := 27) (by omega) (by omega)
  have he := (reachable_exact hf (tame_pool wc) hr hn).log 27 (by omega) (by omega)
    ⟨by omega, by omega⟩
  have := takesSteps_unique he refMax_34.2.2.1
  show 20 ≤ _
  omega

theorem holders_of_quiescent {cfg : Config} {s : State} (hq : Quiescent cfg s) :
    holders cfg s = ∅ := by
  ext v
  simp only [holders, Finset.mem_filter, Finset.mem_range, Finset.not_mem_empty, iff_false,
    not_and]
  intro hv
  simp [hq v hv, PC.holds]

/-- C2, as amended: in the witness configuration with a pool of one to four
workers, every interleaving run to completion ends with
`ReadLimit = 2 + 16 * c` for some `2 ≤ c ≤ 1 + WORKER_COUNT` and reports what a
single-threaded reference reports over the committed range `[2, ReadLimit)`:
the largest Collatz step count and the smallest value attaining it.  That is
`(27, 111)` for `c ≤ 3` (so for the single worker, which commits two chunks),
`(54, 112)` for `c = 4` and `(73, 115)` for `c = 5`. -/
theorem pool_reports_committed_max (wc : Nat) (boot : Boot) (s : State)
    (h1 : 1 ≤ wc) (h4 : wc ≤ 4)
    (hr : Reachable (poolConfig wc) boot s) (hq : Quiescent (poolConfig wc) s) :
    ∃ c, 2 ≤ c ∧ c ≤ 1 + wc ∧ s.sh.globalReadLimit = 2 + c * 16 ∧
      RefMax 2 s.sh.globalReadLimit s.sh.globalMaxN s.sh.globalMaxIterations ∧
      (c ≤ 3 → (s.sh.globalMaxN, s.sh.globalMaxIterations) = (27, 111)) ∧
      (c = 4 → (s.sh.globalMaxN, s.sh.globalMaxIterations) = (54, 112)) ∧
      (c = 5 → (s.sh.globalMaxN, s.sh.globalMaxIterations) = (73, 115)) := by
  have hf := fits_pool h4
  have hfit : 2 + (1 + (poolConfig wc).WORKER_COUNT + 1) * (poolConfig wc).WORK_CHUNK_SIZE
      < WORD := by
    show 2 + (1 + wc + 1) * 16 < WORD
    have : 2 + 6 * 16 < WORD := by decide
    omega
  have hcl := (claims_bounded hf 1 hfit (fun t ht hn hc => pool_threshold h4 t ht hn hc) hr).1
  have hcl2 : s.sh.claimLog.length ≤ 1 + wc := hcl
  have hn := noWrap_pool wc (s := s) (by omega)
  have hi := reachable_inv hf hr
  have hcount := hi.count
  rw [holders_of_quiescent hq, Finset.card_empty, Nat.add_zero] at hcount
  have hrl : s.sh.globalReadLimit = 2 + s.sh.commitLog.length * 16 := readLimit_eq hi hn
  have hflag := reachable_flag hr
  have hge : 20 ≤ s.sh.globalMaxIterations :=
    hflag.cleared (hflag.left 0 (by show 0 < wc; omega) (hq 0 (by show 0 < wc; omega)))
  have hT := (reachable_track hf hr hn).quiet
    (fun w hw => by rw [hq w hw]; rfl)
  have hE := (reachable_exact hf (tame_pool wc) hr hn).log
  obtain ⟨hbound, -, hpos⟩ := hT
  obtain ⟨a, b, c, d⟩ := hpos (by omega)
  have hlog : ∀ m, 2 ≤ m → m < s.sh.globalReadLimit → TakesSteps m (s.sh.totalLog m) :=
    fun m hm1 hm2 => hE m hm1 hm2 ⟨hm1, by omega⟩
  have href : RefMax 2 s.sh.globalReadLimit s.sh.globalMaxN s.sh.globalMaxIterations := by
    refine ⟨a, b, by rw [← c]; exact hlog _ a b, ?_, ?_⟩
    · intro m k hm1 hm2 hk
      rw [takesSteps_unique hk (hlog m hm1 hm2)]
      exact hbound m hm1 hm2
    · intro m k hm1 hm2 hk
      rw [takesSteps_unique hk (hlog m hm1 (by omega))]
      exact d m hm1 hm2
  have hc2 : 2 ≤ s.sh.commitLog.length := by
    by_contra hlt
    have hlow : s.sh.globalMaxN < 18 := by omega
    have := walk_any (table_low _ hlow a) href.2.2.1
    simp at this
    omega
  refine ⟨s.sh.commitLog.length, hc2, by omega, hrl, href, ?_, ?_, ?_⟩
  · intro h3
    have hcases : s.sh.commitLog.length = 2 ∨ s.sh.commitLog.length = 3 := by omega
    rcases hcases with e | e
    · rw [hrl, e] at href
      obtain ⟨x, y⟩ := refMax_unique href refMax_34
      rw [x, y]
    · rw [hrl, e] at href
      obtain ⟨x, y⟩ := refMax_unique href refMax_50
      rw [x, y]
  · intro e
    rw [hrl, e] at href
    obtain ⟨x, y⟩ := refMax_unique href refMax_66
    rw [x, y]
  · intro e
    rw [hrl, e] at href
    obtain ⟨x, y⟩ := refMax_unique href refMax_82
    rw [x, y]

set_option maxRecDepth 100000 in
theorem pool_reports_committed_max_witness :
    ∃ c, 2 ≤ c ∧ c ≤ 1 + 4 ∧ poolRun.sh.globalReadLimit = 2 + c * 16 ∧
      RefMax 2 poolRun.sh.globalReadLimit poolRun.sh.globalMaxN
        poolRun.sh.globalMaxIterations ∧
      (c ≤ 3 → (poolRun.sh.globalMaxN, poolRun.sh.globalMaxIterations) = (27, 111)) ∧
      (c = 4 → (poolRun.sh.globalMaxN, poolRun.sh.globalMaxIterations) = (54, 112)) ∧
      (c = 5 → (poolRun.sh.globalMaxN, poolRun.sh.globalMaxIterations) = (73, 115)) :=
  pool_reports_committed_max 4 zeroBoot poolRun (by decide) (by decide)
    (reachable_run testConfig zeroBoot poolSchedule) (by decide)

theorem stretch_append {a b d c e : Nat} (h1 : Stretch a b c) (h2 : Stretch b d e) :
    Stretch a d (c + e) := by
  obtain ⟨x1, y1, z1⟩ := h1
  obtain ⟨x2, y2, z2⟩ := h2
  refine ⟨?_, ?_, ?_⟩
  · rw [Nat.add_comm, Function.iterate_add_apply, x1, x2]
  · intro j hj
    by_cases hjc : j < c
    · exact y1 j hjc
    · have := y2 (j - c) (by omega)
      rw [← x1, ← Function.iterate_add_apply, Nat.sub_add_cancel (by omega)] at this
      exact this
  · intro j hj
    by_cases hjc : j < c
    · exact z1 j hjc
    · have := z2 (j - c) (by omega)
      rw [← x1, ← Function.iterate_add_apply, Nat.sub_add_cancel (by omega)] at this
      exact this

/-- A stretch that ends in 1 is a full trajectory. -/
theorem stretch_takesSteps {a c : Nat} (h : Stretch a 1 c) :
    TakesSteps a c ∧ StaysBelow WORD a := by
  obtain ⟨x, y, z⟩ := h
  refine ⟨⟨x, y⟩, ?_⟩
  intro j hj
  rcases Nat.lt_trichotomy j c with h1 | h1 | h1
  · exact z j h1
  · rw [h1, x]; decide
  · exact absurd x (hj c h1)

set_option maxRecDepth 100000 in
theorem record_stretch_0 : Stretch 1412987847 536403228640 100 := by
  decide

set_option maxRecDepth 100000 in
theorem record_stretch_1 : Stretch 536403228640 157122844018 100 := by
  decide

set_option maxRecDepth 100000 in
theorem record_stretch_2 : Stretch 157122844018 46024309349 100 := by
  decide

set_option maxRecDepth 100000 in
theorem record_stretch_3 : Stretch 46024309349 80888443643 100 := by
  decide

set_option maxRecDepth 100000 in
theorem record_stretch_4 : Stretch 80888443643 23693784154 100 := by
  decide

set_option maxRecDepth 100000 in
theorem record_stretch_5 : Stretch 23693784154 192787951 100 := by
  decide

set_option maxRecDepth 100000 in
theorem record_stretch_6 : Stretch 192787951 338827900 100 := by
  decide

set_option maxRecDepth 100000 in
theorem record_stretch_7 : Stretch 338827900 2756956 100 := by
  decide

set_option maxRecDepth 100000 in
theorem record_stretch_8 : Stretch 2756956 134678 100 := by
  decide

set_option maxRecDepth 100000 in
theorem record_stretch_9 : Stretch 134678 1 100 := by
  decide

theorem record_takesSteps : TakesSteps 1412987847 1000 ∧ StaysBelow WORD 1412987847 := by
  have h := stretch_append (stretch_append (stretch_append (stretch_append (stretch_append
    (stretch_append (stretch_append (stretch_append (stretch_append record_stretch_0
    record_stretch_1) record_stretch_2) record_stretch_3) record_stretch_4) record_stretch_5)
    record_stretch_6) record_stretch_7) record_stretch_8) record_stretch_9
  exact stretch_takesSteps h

theorem fits_source : Fits sourceConfig := by decide

theorem tame_source : Tame sourceConfig (fun n => n = 1412987847) := by
  intro n hn
  subst hn
  exact ⟨by decide, record_takesSteps.2, 1000, record_takesSteps.1, by decide⟩

/-- With the source constants the threshold is met once the chunk that holds
1412987847, chunk number 21560, is committed. -/
theorem source_threshold {boot : Boot} (s : State) (hr : Reachable sourceConfig boot s)
    (hn : NoWrap sourceConfig s) (hc : 21560 < s.sh.commitLog.length) :
    sourceConfig.STOP_AFTER ≤ s.sh.globalMaxIterations := by
  have hi := reachable_inv fits_source hr
  have hrl : s.sh.globalReadLimit = 2 + s.sh.commitLog.length * 65536 := readLimit_eq hi hn
  have hb := max_bounds_log hi (reachable_track fits_source hr hn) (m := 1412987847)
    (by omega) (by omega)
  have he := (reachable_exact fits_source tame_source hr hn).log 1412987847 (by omega)
    (by omega) rfl
  have := takesSteps_unique he record_takesSteps.1
  show 1000 ≤ _
  omega

/-- With the source constants no run claims more than 21576 chunks. -/
theorem source_claims_bounded {boot : Boot} {s : State} (hr : Reachable sourceConfig boot s) :
    s.sh.claimLog.length ≤ 21576 := by
  have hfit : 2 + (21560 + sourceConfig.WORKER_COUNT + 1) * sourceConfig.WORK_CHUNK_SIZE
      < WORD := by decide
  exact (claims_bounded fits_source 21560 hfit
    (fun t ht hn hc => source_threshold t ht hn hc) hr).1

/-- With the source constants the chunk counter never wraps. -/
theorem noWrap_source {boot : Boot} {s : State} (hr : Reachable sourceConfig boot s) :
    NoWrap sourceConfig s := by
  have h := source_claims_bounded hr
  unfold NoWrap
  show 2 + s.sh.claimLog.length * 65536 < WORD
  have : 2 + 21576 * 65536 < WORD := by decide
  omega

/-- In the test configuration with up to four workers the chunk counter never wraps. -/
theorem noWrap_pool_reachable {wc : Nat} (h4 : wc ≤ 4) {boot : Boot} {s : State}
    (hr : Reachable (poolConfig wc) boot s) : NoWrap (poolConfig wc) s := by
  have hfit : 2 + (1 + (poolConfig wc).WORKER_COUNT + 1) * (poolConfig wc).WORK_CHUNK_SIZE
      < WORD := by
    show 2 + (1 + wc + 1) * 16 < WORD
    have : 2 + 6 * 16 < WORD := by decide
    omega
  have hcl := (claims_bounded (fits_pool h4) 1 hfit
    (fun t ht hn hc => pool_threshold h4 t ht hn hc) hr).1
  have hcl2 : s.sh.claimLog.length ≤ 1 + wc := hcl
  exact noWrap_pool wc (by omega)

/-- C9: at quiescence `ReadLimit = WriteBase`; and while the chunk counter has
not wrapped, `WriteBase - ReadLimit` is `WORK_CHUNK_SIZE` times the number of
workers that hold a claimed and not yet committed chunk. -/
theorem counters_gap_counts_holders (cfg : Config) (boot : Boot) (s : State)
    (hf : Fits cfg) (hr : Reachable cfg boot s) :
    (Quiescent cfg s → s.sh.globalReadLimit = s.sh.globalWriteBase) ∧
    (NoWrap cfg s →
      s.sh.globalReadLimit ≤ s.sh.globalWriteBase ∧
      s.sh.globalWriteBase - s.sh.globalReadLimit =
        cfg.WORK_CHUNK_SIZE * (holders cfg s).card) := by
  have h := reachable_inv hf hr
  constructor
  · intro hq
    have he : holders cfg s = ∅ := by
      ext v
      simp only [holders, Finset.mem_filter, Finset.mem_range, Finset.not_mem_empty, iff_false,
        not_and]
      intro hv
      simp [hq v hv, PC.holds]
    have hc := h.count
    rw [he, Finset.card_empty, Nat.add_zero] at hc
    rw [h.readLimit, h.writeBase, hc]
  · intro hn
    have hle := commits_le_claims h
    have e1 := h.readLimit
    have e2 := h.writeBase
    rw [chunkStart_of_le hn hle] at e1
    rw [chunkStart_of_le hn le_rfl] at e2
    have hc := h.count
    rw [e1, e2, hc, Nat.add_mul]
    constructor
    · omega
    · rw [Nat.mul_comm cfg.WORK_CHUNK_SIZE]; omega

set_option maxRecDepth 100000 in
theorem counters_gap_counts_holders_witness :
    poolRun.sh.globalReadLimit = poolRun.sh.globalWriteBase ∧
    committedOnce.sh.globalReadLimit ≤ committedOnce.sh.globalWriteBase ∧
    committedOnce.sh.globalWriteBase - committedOnce.sh.globalReadLimit =
      testConfig.WORK_CHUNK_SIZE * (holders testConfig committedOnce).card :=
  ⟨(counters_gap_counts_holders testConfig zeroBoot poolRun (by decide)
      (reachable_run testConfig zeroBoot poolSchedule)).1 (by decide),
   (counters_gap_counts_holders testConfig zeroBoot committedOnce (by decide)
      committedOnce_reachable).2 (by decide)⟩

set_option maxRecDepth 100000 in
theorem commits_in_turn_ascending_witness :
    (0 < testConfig.WORKER_COUNT ∧ (beforeStore.workers 0).pc = PC.store ∧
      (beforeStore.workers 0).localWriteBase = beforeStore.sh.globalReadLimit ∧
      (step testConfig beforeStore 0).sh.globalReadLimit =
        beforeStore.sh.globalReadLimit + testConfig.WORK_CHUNK_SIZE ∧
      (step testConfig beforeStore 0).sh.commitLog =
        beforeStore.sh.commitLog ++ [beforeStore.sh.globalReadLimit]) ∧
    (step testConfig beforeStore 0).sh.commitLog.Pairwise (fun a b => a < b) ∧
    (∀ k, k < (step testConfig beforeStore 0).sh.commitLog.length →
      (step testConfig beforeStore 0).sh.commitLog[k]? =
        some (2 + k * testConfig.WORK_CHUNK_SIZE)) :=
  ⟨(commits_in_turn_ascending testConfig zeroBoot beforeStore 0 (by decide)
      beforeStore_reachable (by decide)).1 (by decide),
   (commits_in_turn_ascending testConfig zeroBoot beforeStore 0 (by decide)
      beforeStore_reachable (by decide)).2⟩

theorem readingNine_reachable : Reachable testConfig zeroBoot readingNine :=
  Reachable.next _ _ (Reachable.next _ _ committedOnce_reachable)

/-- C17: in every reachable state a cleared run flag means
`GlobalMaxIterations ≥ STOP_AFTER`; so the pair reported once all workers of a
non-empty pool have left their loop has iterations `≥ STOP_AFTER`. -/
theorem cleared_flag_means_threshold (cfg : Config) (boot : Boot) (s : State)
    (hr : Reachable cfg boot s) :
    (s.sh.programRunning = false → cfg.STOP_AFTER ≤ s.sh.globalMaxIterations) ∧
    (0 < cfg.WORKER_COUNT → Quiescent cfg s → cfg.STOP_AFTER ≤ s.sh.globalMaxIterations) := by
  have h := reachable_flag hr
  exact ⟨h.cleared, fun hpos hq => h.cleared (h.left 0 hpos (hq 0 hpos))⟩

set_option maxRecDepth 100000 in
theorem cleared_flag_means_threshold_witness :
    testConfig.STOP_AFTER ≤ poolRun.sh.globalMaxIterations ∧
    testConfig.STOP_AFTER ≤ poolRun.sh.globalMaxIterations :=
  ⟨(cleared_flag_means_threshold testConfig zeroBoot poolRun
      (reachable_run testConfig zeroBoot poolSchedule)).1 (by decide),
   (cleared_flag_means_threshold testConfig zeroBoot poolRun
      (reachable_run testConfig zeroBoot poolSchedule)).2 (by decide) (by decide)⟩

/-- C20: while the chunk counter has not wrapped, a worker that is about to
snapshot finds `ReadLimit` at or below the start of the chunk it has just
claimed; during the compute phase its snapshot is at most its chunk start,
hence at most `chunkStart + offset`, and every pass of the do-while body, the
unconditional first one included, is applied to a value at or above the
snapshot. -/
theorem snapshot_at_most_chunk_start (cfg : Config) (boot : Boot) (s : State) (w : Nat)
    (hf : Fits cfg) (hr : Reachable cfg boot s) (hn : NoWrap cfg s)
    (hw : w < cfg.WORKER_COUNT) :
    ((s.workers w).pc = PC.snapshot →
      s.sh.globalReadLimit ≤ (s.workers w).localWriteBase ∧
      ((step cfg s w).workers w).localReadLimit ≤ ((step cfg s w).workers w).localWriteBase) ∧
    ((s.workers w).pc.computing = true →
      (s.workers w).localReadLimit ≤ (s.workers w).localWriteBase ∧
      (s.workers w).localReadLimit ≤ (s.workers w).localWriteBase + (s.workers w).offset) ∧
    ((s.workers w).pc = PC.inner → (s.workers w).localReadLimit ≤ (s.workers w).n) := by
  have hi := reachable_inv hf hr
  have hwk := (reachable_compute hf hr hn).2 w hw
  refine ⟨?_, ?_, hwk.high⟩
  · intro hpc
    have hle := (held_eq hi hn hw (by simp [hpc, PC.holds])).1
    refine ⟨hle, ?_⟩
    rw [step_of_lt hw]
    simp only [workerThread, hpc, enterOffset, setWorker_same]
    split_ifs <;> exact hle
  · intro hc
    obtain ⟨m, hm, hL⟩ := hwk.snap hc
    have h1 := (chunkStart_le_readLimit hi hn hm).2
    have h2 := (held_eq hi hn hw (computing_holds hc)).1
    rw [hL]
    omega

set_option maxRecDepth 100000 in
theorem snapshot_at_most_chunk_start_witness :
    (committedOnce.sh.globalReadLimit ≤ (committedOnce.workers 1).localWriteBase ∧
      ((step testConfig committedOnce 1).workers 1).localReadLimit ≤
        ((step testConfig committedOnce 1).workers 1).localWriteBase) ∧
    ((step testConfig committedOnce 1).workers 1).localReadLimit ≤
      ((step testConfig committedOnce 1).workers 1).localWriteBase ∧
    ((step testConfig committedOnce 1).workers 1).localReadLimit ≤
      ((step testConfig committedOnce 1).workers 1).n :=
  ⟨(snapshot_at_most_chunk_start testConfig zeroBoot committedOnce 1 (by decide)
      committedOnce_reachable (by decide) (by decide)).1 (by decide),
   ((snapshot_at_most_chunk_start testConfig zeroBoot (step testConfig committedOnce 1) 1
      (by decide) (Reachable.next _ _ committedOnce_reachable) (by decide)
      (by decide)).2.1 (by decide)).1,
   (snapshot_at_most_chunk_start testConfig zeroBoot (step testConfig committedOnce 1) 1
      (by decide) (Reachable.next _ _ committedOnce_reachable) (by decide)
      (by decide)).2.2 (by decide)⟩

/-- The value 2 is a cell of every cache of more than two cells and takes one step. -/
theorem tame_two {cfg : Config} (hc : 2 < cfg.CACHE_SIZE) : Tame cfg (fun n => n = 2) := by
  intro n hn
  subst hn
  have hw : walk WORD 3 2 = some 1 := by decide
  obtain ⟨a, b⟩ := walk_sound 3 hw
  exact ⟨hc, b, 1, a, by decide⟩

/-- Right after a commit no worker of the pool stands between lines 84 and 94. -/
theorem quiet_after_store {cfg : Config} {s : State} (hi : Inv cfg s) {w : Nat}
    (hw : w < cfg.WORKER_COUNT) (hpc : (s.workers w).pc = PC.store) :
    ∀ v, v < cfg.WORKER_COUNT → ((step cfg s w).workers v).pc.published = false := by
  intro v hv
  rw [step_of_lt hw]
  by_cases hvw : v = w
  · subst hvw
    simp [setWorker_same, workerThread, hpc, PC.published]
  · rw [show (⟨(workerThread cfg s.sh (s.workers w)).1, setWorker s.workers w (workerThread cfg s.sh (s.workers w)).2⟩ : State).workers v = s.workers v from setWorker_other _ _ hvw]
    cases hp : (s.workers v).pc.published
    · rfl
    · exact absurd (inTurn_unique hi hv hw (published_inTurn hp) (by simp [hpc, PC.inTurn])) hvw

/-- A commit appends to the commit log. -/
theorem store_commits {cfg : Config} {s : State} {w : Nat}
    (hw : w < cfg.WORKER_COUNT) (hpc : (s.workers w).pc = PC.store) :
    (step cfg s w).sh.commitLog.length = s.sh.commitLog.length + 1 := by
  rw [step_of_lt hw]
  simp [workerThread, hpc]

/-- C14: while the chunk counter has not wrapped and the cache has more than
two cells, in the state right after a commit `GlobalMaxIterations` is the
largest total computed for a value of `[2, ReadLimit)`, the range of the chunks
committed so far, and `GlobalMaxN` is the smallest value of that range whose
total attains it. -/
theorem globalMax_is_committed_max (cfg : Config) (boot : Boot) (s : State) (w : Nat)
    (hf : Fits cfg) (hc : 2 < cfg.CACHE_SIZE) (hr : Reachable cfg boot s)
    (hw : w < cfg.WORKER_COUNT) (hpc : (s.workers w).pc = PC.store)
    (hn : NoWrap cfg (step cfg s w)) :
    (∀ m, 2 ≤ m → m < (step cfg s w).sh.globalReadLimit →
      (step cfg s w).sh.totalLog m ≤ (step cfg s w).sh.globalMaxIterations) ∧
    2 ≤ (step cfg s w).sh.globalMaxN ∧
    (step cfg s w).sh.globalMaxN < (step cfg s w).sh.globalReadLimit ∧
    (step cfg s w).sh.totalLog (step cfg s w).sh.globalMaxN =
      (step cfg s w).sh.globalMaxIterations ∧
    (∀ m, 2 ≤ m → m < (step cfg s w).sh.globalMaxN →
      (step cfg s w).sh.totalLog m < (step cfg s w).sh.globalMaxIterations) := by
  have hr2 : Reachable cfg boot (step cfg s w) := Reachable.next s w hr
  have hi := reachable_inv hf hr
  have hi2 := reachable_inv hf hr2
  obtain ⟨hb, -, hp⟩ := (reachable_track hf hr2 hn).quiet (quiet_after_store hi hw hpc)
  have hrl := readLimit_eq hi2 hn
  rw [store_commits hw hpc, Nat.add_mul, Nat.one_mul] at hrl
  have h2 : 2 < (step cfg s w).sh.globalReadLimit := by
    have := hf.1
    omega
  have he := (reachable_exact hf (tame_two hc) hr2 hn).log 2 le_rfl h2 rfl
  have hone : (step cfg s w).sh.totalLog 2 = 1 :=
    takesSteps_unique he (walk_sound 3 (by decide : walk WORD 3 2 = some 1)).1
  have hpos : 0 < (step cfg s w).sh.globalMaxIterations := by
    have := hb 2 le_rfl h2
    omega
  obtain ⟨a, b, c, d⟩ := hp hpos
  exact ⟨hb, a, b, c, d⟩

set_option maxRecDepth 100000 in
theorem globalMax_is_committed_max_witness :
    (∀ m, 2 ≤ m → m < committedOnce.sh.globalReadLimit →
      committedOnce.sh.totalLog m ≤ committedOnce.sh.globalMaxIterations) ∧
    2 ≤ committedOnce.sh.globalMaxN ∧
    committedOnce.sh.globalMaxN < committedOnce.sh.globalReadLimit ∧
    committedOnce.sh.totalLog committedOnce.sh.globalMaxN =
      committedOnce.sh.globalMaxIterations ∧
    (∀ m, 2 ≤ m → m < committedOnce.sh.globalMaxN →
      committedOnce.sh.totalLog m < committedOnce.sh.globalMaxIterations) :=
  globalMax_is_committed_max testConfig zeroBoot beforeStore 0 (by decide) (by decide)
    beforeStore_reachable (by decide) (by decide) (by decide)

theorem narrow_fresh (cfg : Config) (stack : Nat → Nat) : Narrow cfg (freshWorker cfg stack) := by
  constructor
  · intro h; simp [freshWorker, PC.computing] at h
  · intro i hi; simp [progress, freshWorker, PC.computing, PC.computed] at hi
  · intro h; simp [freshWorker, PC.computing, PC.computed] at h

theorem narrow_thread {cfg : Config} (hf : Fits cfg) (sh : Shared) {wk : Worker}
    (h : Narrow cfg wk) : Narrow cfg (workerThread cfg sh wk).2 := by
  cases hpc : wk.pc
  case loopTest =>
    simp only [workerThread, hpc]
    split_ifs <;> constructor <;> simp [progress, PC.computing, PC.computed]
  case claim =>
    simp only [workerThread, hpc]
    constructor <;> simp [progress, PC.computing, PC.computed]
  case stopCheck =>
    simp only [workerThread, hpc]
    split_ifs <;> constructor <;> simp [progress, PC.computing, PC.computed]
  case store =>
    simp only [workerThread, hpc]
    constructor <;> simp [progress, PC.computing, PC.computed]
  case done =>
    simp only [workerThread, hpc]
    constructor <;> simp [progress, PC.computing, PC.computed, hpc]
  case snapshot =>
    simp only [workerThread, hpc, enterOffset, if_pos hf.1]
    constructor <;> simp [progress, PC.computing, PC.computed]
    · exact hf.1
    · exact tracksMax_empty _ 0
  case inner =>
    have hc : wk.pc.computing = true := by simp [hpc, PC.computing]
    have h1 := h.off hc
    have h2 := h.cells
    have h3 := h.scan (Or.inl hc)
    simp only [progress, hc, if_true] at h2 h3
    simp only [workerThread, hpc]
    split_ifs <;> constructor <;> simp [progress, PC.computing, PC.computed, hpc] <;>
      assumption
  case await =>
    have hc : wk.pc.computed = true := by simp [hpc, PC.computed]
    have h2 := h.cells
    have h3 := h.scan (Or.inr hc)
    simp only [progress, hpc, PC.computing, PC.computed] at h2 h3
    simp only [workerThread, hpc]
    split_ifs <;> constructor <;> simp [progress, PC.computing, PC.computed, hpc] <;>
      assumption
  case reload =>
    have hc : wk.pc.computed = true := by simp [hpc, PC.computed]
    have h2 := h.cells
    have h3 := h.scan (Or.inr hc)
    simp only [progress, hpc, PC.computing, PC.computed] at h2 h3
    simp only [workerThread, hpc]
    constructor <;> simp [progress, PC.computing, PC.computed, hpc] <;> assumption
  case updateMax =>
    have hc : wk.pc.computed = true := by simp [hpc, PC.computed]
    have h2 := h.cells
    have h3 := h.scan (Or.inr hc)
    simp only [progress, hpc, PC.computing, PC.computed] at h2 h3
    simp only [workerThread, hpc]
    split_ifs <;> constructor <;> simp [progress, PC.computing, PC.computed, hpc] <;>
      assumption
  case copy =>
    have hc : wk.pc.computed = true := by simp [hpc, PC.computed]
    have h2 := h.cells
    have h3 := h.scan (Or.inr hc)
    simp only [progress, hpc, PC.computing, PC.computed] at h2 h3
    simp only [workerThread, hpc]
    constructor <;> simp [progress, PC.computing, PC.computed, hpc] <;> assumption
  case finish =>
    have hc : wk.pc.computing = true := by simp [hpc, PC.computing]
    have hoff := h.off hc
    have h2 := h.cells
    have h3 := h.scan (Or.inl hc)
    simp only [progress, hc, if_true] at h2 h3
    have hmod : (wk.offset + 1) % WORD = wk.offset + 1 :=
      Nat.mod_eq_of_lt (by have := hf.2.1; omega)
    have hpush := tracksMax_push h3 ((sh.globalCache wk.n + wk.iteration_count) % WORD)
    have hcells : ∀ i, i < wk.offset + 1 →
        setCell wk.localCache wk.offset ((sh.globalCache wk.n + wk.iteration_count) % WORD % SHORT) i
          = setCell wk.localTotals wk.offset ((sh.globalCache wk.n + wk.iteration_count) % WORD) i
            % SHORT := by
      intro i hi
      unfold setCell
      by_cases hio : i = wk.offset
      · rw [if_pos hio, if_pos hio]
      · rw [if_neg hio, if_neg hio]; exact h2 i (by omega)
    simp only [workerThread, hpc, hmod, enterOffset]
    split_ifs with hnext hgt hgt
    · constructor <;> simp [progress, PC.computing, PC.computed]
      · exact hnext
      · exact hcells
      · simpa [hgt] using hpush
    · constructor <;> simp [progress, PC.computing, PC.computed]
      · exact hnext
      · exact hcells
      · simpa [hgt] using hpush
    · have he : cfg.WORK_CHUNK_SIZE = wk.offset + 1 := by omega
      constructor <;> simp [progress, PC.computing, PC.computed]
      · rw [he]; exact hcells
      · rw [he]; simpa [hgt] using hpush
    · have he : cfg.WORK_CHUNK_SIZE = wk.offset + 1 := by omega
      constructor <;> simp [progress, PC.computing, PC.computed]
      · rw [he]; exact hcells
      · rw [he]; simpa [hgt] using hpush

theorem reachable_narrow {cfg : Config} (hf : Fits cfg) {boot : Boot} {s : State}
    (h : Reachable cfg boot s) (w : Nat) : Narrow cfg (s.workers w) := by
  induction h generalizing w with
  | start => exact narrow_fresh cfg _
  | next s u _ ih =>
    by_cases hu : u < cfg.WORKER_COUNT
    · rw [step_of_lt hu]
      by_cases hwu : w = u
      · subst hwu
        show Narrow cfg (setWorker s.workers w (workerThread cfg s.sh (s.workers w)).2 w)
        rw [setWorker_same]
        exact narrow_thread hf s.sh (ih w)
      · show Narrow cfg (setWorker s.workers u (workerThread cfg s.sh (s.workers u)).2 w)
        rw [setWorker_other _ _ hwu]
        exact ih w
    · rw [step_of_ge hu]; exact ih w

/-- C19, counterexample: in `unitConfig`, with the cache as `main` seeds it, the
worker that computes the chunk of the single value `0x5555555555555555` leaves
the compute phase with `localMaxIterations = 65537` (sentinel `65535` plus a
count of 2), while the scratch entry at `localMaxNOffset` holds `1`. -/
theorem tracked_max_exceeds_scratch :
    ((run unitConfig sentinelChunk (List.replicate 5 0)).workers 0).pc = PC.await ∧
    ((run unitConfig sentinelChunk (List.replicate 5 0)).workers 0).localMaxIterations = 65537 ∧
    ((run unitConfig sentinelChunk (List.replicate 5 0)).workers 0).localMaxNOffset = 0 ∧
    ((run unitConfig sentinelChunk (List.replicate 5 0)).workers 0).localCache 0 = 1 := by
  decide

/-- C19, amended: in every reachable state a worker that has left the compute
phase holds in each scratch entry the 64-bit total of its offset modulo 65536,
so the entry at `localMaxNOffset` is `localMaxIterations mod 65536`; when
`localMaxIterations` is below 65536 that entry equals it, no scratch entry of
the chunk is larger, and none before `localMaxNOffset` attains it. -/
theorem scratch_is_narrowed_total (cfg : Config) (boot : Boot) (s : State) (w : Nat)
    (hf : Fits cfg) (hr : Reachable cfg boot s) (hpc : (s.workers w).pc.computed = true) :
    (∀ i, i < cfg.WORK_CHUNK_SIZE →
      (s.workers w).localCache i = (s.workers w).localTotals i % 65536) ∧
    (s.workers w).localCache (s.workers w).localMaxNOffset =
      (s.workers w).localMaxIterations % 65536 ∧
    ((s.workers w).localMaxIterations < 65536 →
      (s.workers w).localCache (s.workers w).localMaxNOffset =
        (s.workers w).localMaxIterations ∧
      (∀ i, i < cfg.WORK_CHUNK_SIZE →
        (s.workers w).localCache i ≤ (s.workers w).localMaxIterations) ∧
      (∀ i, i < (s.workers w).localMaxNOffset →
        (s.workers w).localCache i < (s.workers w).localMaxIterations)) := by
  have hnar := reachable_narrow hf hr w
  have hprog : progress cfg (s.workers w) = cfg.WORK_CHUNK_SIZE := by
    unfold progress
    revert hpc
    cases (s.workers w).pc <;> simp [PC.computed, PC.computing]
  have hcells := hnar.cells
  obtain ⟨hb, hz, hp⟩ := hnar.scan (Or.inr hpc)
  rw [hprog] at hcells hb hp
  have hpos := hf.1
  have hat : (s.workers w).localMaxNOffset < cfg.WORK_CHUNK_SIZE ∧
      (s.workers w).localTotals (s.workers w).localMaxNOffset =
        (s.workers w).localMaxIterations ∧
      ∀ i, i < (s.workers w).localMaxNOffset →
        (s.workers w).localTotals i < (s.workers w).localMaxIterations := by
    by_cases h0 : (s.workers w).localMaxIterations = 0
    · have hoff := hz h0
      have := hb 0 (Nat.zero_le _) hpos
      rw [hoff]
      exact ⟨hpos, by omega, fun i hi => absurd hi (Nat.not_lt_zero i)⟩
    · obtain ⟨-, b, c, d⟩ := hp (by omega)
      exact ⟨b, c, fun i hi => d i (Nat.zero_le _) hi⟩
  obtain ⟨a, b, c⟩ := hat
  have hcellsN : ∀ i, i < cfg.WORK_CHUNK_SIZE →
      (s.workers w).localCache i = (s.workers w).localTotals i % 65536 := hcells
  refine ⟨hcellsN, by rw [hcellsN _ a, b], ?_⟩
  intro hlt
  refine ⟨by rw [hcellsN _ a, b, Nat.mod_eq_of_lt hlt], ?_, ?_⟩
  · intro i hi
    rw [hcellsN i hi]
    exact le_trans (Nat.mod_le _ _) (hb i (Nat.zero_le _) hi)
  · intro i hi
    rw [hcellsN i (by omega)]
    exact lt_of_le_of_lt (Nat.mod_le _ _) (c i hi)

set_option maxRecDepth 100000 in
theorem scratch_is_narrowed_total_witness :
    (∀ i, i < testConfig.WORK_CHUNK_SIZE →
      (beforeStore.workers 0).localCache i = (beforeStore.workers 0).localTotals i % 65536) ∧
    (beforeStore.workers 0).localCache (beforeStore.workers 0).localMaxNOffset =
      (beforeStore.workers 0).localMaxIterations % 65536 ∧
    (beforeStore.workers 0).localCache (beforeStore.workers 0).localMaxNOffset =
      (beforeStore.workers 0).localMaxIterations ∧
    (∀ i, i < testConfig.WORK_CHUNK_SIZE →
      (beforeStore.workers 0).localCache i ≤ (beforeStore.workers 0).localMaxIterations) ∧
    (∀ i, i < (beforeStore.workers 0).localMaxNOffset →
      (beforeStore.workers 0).localCache i < (beforeStore.workers 0).localMaxIterations) :=
  ⟨(scratch_is_narrowed_total testConfig zeroBoot beforeStore 0 (by decide)
      beforeStore_reachable (by decide)).1,
   (scratch_is_narrowed_total testConfig zeroBoot beforeStore 0 (by decide)
      beforeStore_reachable (by decide)).2.1,
   (scratch_is_narrowed_total testConfig zeroBoot beforeStore 0 (by decide)
      beforeStore_reachable (by decide)).2.2 (by decide)⟩

/-- Past the stop threshold, a step of any worker uses up the one commit a
worker may still perform and never grants a new one. -/
theorem mayCommit_step {cfg : Config} {s : State} (u v : Nat)
    (hs : cfg.STOP_AFTER ≤ s.sh.globalMaxIterations) :
    (if u = v ∧ u < cfg.WORKER_COUNT ∧ (s.workers u).pc = PC.store then 1 else 0) +
      (if mayCommit (step cfg s u) v = true then 1 else 0) ≤
      (if mayCommit s v = true then 1 else 0) := by
  by_cases hu : u < cfg.WORKER_COUNT
  swap
  · rw [step_of_ge hu, if_neg (by tauto)]; omega
  rw [step_of_lt hu]
  have hflag : (workerThread cfg s.sh (s.workers u)).1.programRunning = true →
      s.sh.programRunning = true := by
    cases hpc : (s.workers u).pc <;> simp only [workerThread, hpc, enterOffset] <;>
      (try split_ifs) <;> simp
  by_cases huv : u = v
  · subst huv
    cases hpc : (s.workers u).pc <;>
      simp only [mayCommit, willClaim, workerThread, hpc, enterOffset, setWorker_same] <;>
      (try split_ifs) <;> simp_all [PC.holds]
  · have hne : v ≠ u := fun h => huv h.symm
    rw [if_neg (by tauto)]
    have hw : (setWorker s.workers u (workerThread cfg s.sh (s.workers u)).2) v = s.workers v :=
      setWorker_other _ _ hne
    have hkeep : mayCommit ⟨(workerThread cfg s.sh (s.workers u)).1,
          setWorker s.workers u (workerThread cfg s.sh (s.workers u)).2⟩ v = true →
        mayCommit s v = true := by
      simp only [mayCommit, willClaim, hw, Bool.or_eq_true, Bool.and_eq_true, decide_eq_true_eq]
      rintro (h | h | ⟨h, hr⟩)
      · exact Or.inl h
      · exact Or.inr (Or.inl h)
      · exact Or.inr (Or.inr ⟨h, hflag hr⟩)
    by_cases hm : mayCommit ⟨(workerThread cfg s.sh (s.workers u)).1,
        setWorker s.workers u (workerThread cfg s.sh (s.workers u)).2⟩ v = true
    · rw [if_pos hm, if_pos (hkeep hm)]
    · rw [if_neg hm]; split_ifs <;> omega

theorem commitsBy_le {cfg : Config} (v : Nat) (sched : List Nat) :
    ∀ s : State, cfg.STOP_AFTER ≤ s.sh.globalMaxIterations →
      commitsBy cfg v s sched ≤ (if mayCommit s v = true then 1 else 0) := by
  induction sched with
  | nil => intro s _; simp [commitsBy]
  | cons u rest ih =>
    intro s hs
    have h1 := mayCommit_step u v hs
    have h2 := ih (step cfg s u) (by rcases step_max_mono cfg s u with h | h <;> omega)
    simp only [commitsBy]
    omega

/-- C12: from the state right after a commit made with
`GlobalMaxIterations ≥ STOP_AFTER` (the commit that first lifts the maximum to
the threshold is one), along every schedule the committing worker commits no
further chunk and every worker commits at most one. -/
theorem overshoot_one_chunk_per_worker (cfg : Config) (s : State) (w : Nat)
    (hw : w < cfg.WORKER_COUNT) (hpc : (s.workers w).pc = PC.store)
    (hs : cfg.STOP_AFTER ≤ s.sh.globalMaxIterations) (sched : List Nat) :
    commitsBy cfg w (step cfg s w) sched = 0 ∧
    ∀ v, commitsBy cfg v (step cfg s w) sched ≤ 1 := by
  have hs2 : cfg.STOP_AFTER ≤ (step cfg s w).sh.globalMaxIterations := by
    rcases step_max_mono cfg s w with h | h <;> omega
  constructor
  · have h := commitsBy_le w sched (step cfg s w) hs2
    have hm : mayCommit (step cfg s w) w = false := by
      rw [step_of_lt hw]
      simp [mayCommit, willClaim, setWorker_same, workerThread, hpc, PC.holds]
    rw [hm] at h
    simpa using h
  · intro v
    have h := commitsBy_le v sched (step cfg s w) hs2
    split_ifs at h <;> omega

set_option maxRecDepth 100000 in
theorem overshoot_one_chunk_per_worker_witness :
    commitsBy testConfig 0 (step testConfig beforeCrossing 0)
        ([1, 1, 2, 2] ++ List.replicate 118 1 ++ List.replicate 112 2 ++ [0, 0, 3]) = 0 ∧
    ∀ v, commitsBy testConfig v (step testConfig beforeCrossing 0)
        ([1, 1, 2, 2] ++ List.replicate 118 1 ++ List.replicate 112 2 ++ [0, 0, 3]) ≤ 1 :=
  overshoot_one_chunk_per_worker testConfig beforeCrossing 0 (by decide) (by decide) (by decide)
    ([1, 1, 2, 2] ++ List.replicate 118 1 ++ List.replicate 112 2 ++ [0, 0, 3])

set_option maxRecDepth 100000 in
/-- In the pool of four the second commit of worker 0 is the one that lifts
the maximum from 19 to 111, past the threshold 20, and worker 1 then commits
exactly one further chunk along `poolSchedule`. -/
theorem overshoot_attained :
    (run testConfig (main testConfig zeroBoot) (List.replicate 321 0)).sh.globalMaxIterations = 19 ∧
    beforeCrossing.sh.globalMaxIterations = 111 ∧
    (beforeCrossing.workers 0).pc = PC.store ∧
    commitsBy testConfig 1 (step testConfig beforeCrossing 0)
        ([1, 1, 2, 2] ++ List.replicate 118 1 ++ List.replicate 112 2 ++ [0, 0, 3]) = 1 := by
  decide

theorem pass_fst (n c : Nat) : (collatzPass n c).1 = passValue n := by
  unfold passValue collatzPass
  split_ifs <;> rfl

theorem word_eq : WORD = 18446744073709551616 := by decide

theorem pass_lt {n : Nat} (h : n < WORD) : passValue n < WORD := by
  rw [word_eq] at *
  unfold passValue collatzPass
  rw [word_eq]
  split_ifs
  · show (3 * n + 1) % 18446744073709551616 / 2 < 18446744073709551616
    omega
  · show n / 2 < 18446744073709551616
    omega

theorem wrap_unique (n q r : Nat) (hodd : n % 2 = 1) (h3 : r < 2) (h5 : q < 3)
    (h4 : 18446744073709551616 * q + r = 3 * n + 1) : n = 6148914691236517205 := by
  interval_cases q <;> interval_cases r <;> omega

theorem wrap_quotient (n : Nat) (h : n < 18446744073709551616) :
    (3 * n + 1) / 18446744073709551616 < 3 :=
  Nat.div_lt_of_lt_mul (by omega)

/-- The only value in 64 bits that a pass sends to 0 is 0x5555555555555555,
where 3 n + 1 is 2 ^ 64. -/
theorem pass_zero {n : Nat} (h1 : 1 ≤ n) (h : n < WORD) (h0 : passValue n = 0) :
    n = 6148914691236517205 := by
  rw [word_eq] at h
  unfold passValue collatzPass at h0
  rw [word_eq] at h0
  split_ifs at h0 with hodd
  · have h2 : (3 * n + 1) % 18446744073709551616 / 2 = 0 := h0
    have h3 : (3 * n + 1) % 18446744073709551616 < 2 := by
      by_contra hc
      have := Nat.div_pos (not_lt.mp hc) (by decide : 0 < 2)
      rw [h2] at this
      exact absurd this (by decide)
    exact wrap_unique n _ _ hodd h3 (wrap_quotient n h)
      (Nat.div_add_mod (3 * n + 1) 18446744073709551616)
  · have h2 : n / 2 = 0 := h0
    have h3 : n < 2 := by
      by_contra hc
      have := Nat.div_pos (not_lt.mp hc) (by decide : 0 < 2)
      rw [h2] at this
      exact absurd this (by decide)
    exact absurd (show n % 2 = 1 by clear h h0 h2; omega) hodd

/-- A loop that leaves with the value 0 has passed through `0x5555555555555555`. -/
theorem doWhile_zero {L : Nat} (hL : 1 ≤ L) (fuel : Nat) :
    ∀ n c r, 1 ≤ n → n < WORD → doWhile L fuel n c = some r → r.1 = 0 →
      ∃ j, j < fuel ∧ Nat.iterate passValue j n = 6148914691236517205 := by
  induction fuel with
  | zero => intro n c r _ _ h; simp [doWhile] at h
  | succ f ih =>
    intro n c r h1 hlt h h0
    unfold doWhile at h
    split_ifs at h with hge
    · rw [pass_fst] at hge h
      obtain ⟨j, hj, e⟩ := ih _ _ r (le_trans hL hge) (pass_lt hlt) h h0
      exact ⟨j + 1, Nat.succ_lt_succ hj, by rw [Function.iterate_succ_apply]; exact e⟩
    · have hr : r = collatzPass n c := by simpa using h.symm
      rw [hr, pass_fst] at h0
      exact ⟨0, Nat.succ_pos f, pass_zero h1 hlt h0⟩

/-- A loop on a start value whose Collatz trajectory fits 64 bits leaves with
a value of that trajectory. -/
theorem doWhile_on_trajectory {L v : Nat} (hL : 2 ≤ L) (hb : StaysBelow WORD v) (fuel : Nat) :
    ∀ n c cnt r, n = Nat.iterate collatz c v → cnt = c % WORD →
      (∀ j, j < c → Nat.iterate collatz j v ≠ 1) → 2 ≤ n →
      doWhile L fuel n cnt = some r → ∃ d, r.1 = Nat.iterate collatz d v := by
  induction fuel with
  | zero => intro n c cnt r _ _ _ _ h; simp [doWhile] at h
  | succ f ih =>
    intro n c cnt r hn hcnt hfirst h2 h
    obtain ⟨d, e1, e2, e3⟩ := collatzPass_traj hb hn hcnt hfirst h2
    unfold doWhile at h
    split_ifs at h with hge
    · exact ih _ d _ r e1 e2 e3 (le_trans hL hge) h
    · have hr : r = collatzPass n cnt := by simpa using h.symm
      exact ⟨d, by rw [hr]; exact e1⟩

/-- On a trajectory that fits 64 bits, the loop leaves at the first value
below the snapshot, with the number of Collatz steps taken to reach it. -/
theorem doWhile_first_drop {L v d : Nat}
    (hd : Nat.iterate collatz d v < L)
    (hfirst : ∀ j, j < d → L ≤ Nat.iterate collatz j v)
    (hfit : ∀ j, j ≤ d → Nat.iterate collatz j v < WORD) :
    ∀ k a fuel, a + k = d → 0 < k → k ≤ fuel →
      doWhile L fuel (Nat.iterate collatz a v) (a % WORD) =
        some (Nat.iterate collatz d v, d % WORD) := by
  intro k
  induction k using Nat.strong_induction_on with
  | _ k ih =>
    intro a fuel hak hk hfuel
    cases fuel with
    | zero => omega
    | succ f =>
      have hnL : L ≤ Nat.iterate collatz a v := hfirst a (by omega)
      have hsucc : Nat.iterate collatz (a + 1) v = collatz (Nat.iterate collatz a v) :=
        Function.iterate_succ_apply' collatz a v
      have hlow : ∀ j, j ≤ d → Nat.iterate collatz j v < L → j = d := by
        intro j hj hlt
        by_contra hne
        have := hfirst j (by omega)
        omega
      generalize hn : Nat.iterate collatz a v = n at hnL hsucc
      unfold doWhile
      by_cases hodd : n % 2 = 1
      · have hc : collatz n = 3 * n + 1 := by unfold collatz; rw [if_neg (by omega)]
        have h1 : a + 1 < d := by
          by_contra hcon
          have := hlow (a + 1) (by omega) (by rw [← (show a + 1 = d by omega)] at hd; exact hd)
          rw [← this, hsucc, hc] at hd
          omega
        have hf1 := hfit (a + 1) (by omega)
        rw [hsucc, hc] at hf1
        have hs2 : Nat.iterate collatz (a + 2) v = (3 * n + 1) / 2 := by
          rw [Function.iterate_succ_apply', hsucc, hc]
          unfold collatz; rw [if_pos (by omega)]
        have hp : collatzPass n (a % WORD) = ((3 * n + 1) / 2, (a + 2) % WORD) := by
          unfold collatzPass
          rw [if_pos hodd, Nat.mod_eq_of_lt hf1, Nat.mod_add_mod]
        rw [hp]
        simp only
        rw [← hs2]
        split_ifs with hge
        · have h2 : a + 2 ≠ d := by
            intro e; rw [e] at hge; omega
          exact ih (k - 2) (by omega) (a + 2) f (by omega) (by omega) (by omega)
        · have := hlow (a + 2) (by omega) (by omega)
          rw [this]
      · have hc : collatz n = n / 2 := by unfold collatz; rw [if_pos (by omega)]
        have hp : collatzPass n (a % WORD) = (n / 2, (a + 1) % WORD) := by
          unfold collatzPass
          rw [if_neg hodd, Nat.mod_add_mod]
        rw [hp]
        simp only
        rw [← hc, ← hsucc]
        split_ifs with hge
        · have h2 : a + 1 ≠ d := by
            intro e; rw [e] at hge; omega
          exact ih (k - 1) (by omega) (a + 1) f (by omega) (by omega) (by omega)
        · have := hlow (a + 1) (by omega) (by omega)
          rw [this]

/-- With a cache that is right below the snapshot, the entry computed for a
start value at or above the snapshot is its Collatz step count modulo 65536,
given fuel for the passes down to the snapshot. -/
theorem entry_of_drop {cache : Nat → Nat} {n L c : Nat} (hL : 2 ≤ L) (hLn : L ≤ n)
    (hcache : ∀ m, 1 ≤ m → m < L → ∃ k, TakesSteps m k ∧ cache m = k % SHORT)
    (hdrop : Nat.iterate collatz c n < L)
    (hfit : ∀ j, j ≤ c → Nat.iterate collatz j n < WORD) :
    ∃ k, TakesSteps n k ∧ ∀ fuel, c ≤ fuel → entryFor cache L fuel n = some (k % SHORT) := by
  have hex : ∃ j, Nat.iterate collatz j n < L := ⟨c, hdrop⟩
  have hd := Nat.find_spec hex
  have hdc : Nat.find hex ≤ c := Nat.find_min' hex hdrop
  have hfirst : ∀ j, j < Nat.find hex → L ≤ Nat.iterate collatz j n :=
    fun j hj => not_lt.mp (Nat.find_min hex hj)
  generalize Nat.find hex = d at hd hdc hfirst
  have hdpos : 0 < d := by
    rcases Nat.eq_zero_or_pos d with h | h
    · rw [h] at hd
      exact absurd hd (not_lt.mpr hLn)
    · exact h
  have hrun := doWhile_first_drop hd hfirst (fun j hj => hfit j (le_trans hj hdc))
  obtain ⟨km, hkm, hcell⟩ := hcache (Nat.iterate collatz d n)
    (iterate_collatz_pos (by omega) d) hd
  refine ⟨d + km, takesSteps_add (fun j hj => ?_) hkm, ?_⟩
  · have := hfirst j hj
    omega
  · intro fuel hfuel
    have h0 := hrun d 0 fuel (by omega) hdpos (by omega)
    rw [Nat.zero_mod] at h0
    have h1 : doWhile L fuel n 0 = some (Nat.iterate collatz d n, d % WORD) := h0
    unfold entryFor
    rw [h1, Option.map_some', hcell]
    exact congrArg some (total_mod_short km d)

/-- The inner steps of a worker compute `doWhile`: a worker at the head of the
loop body whose loop leaves with `r` stands, after as many of its own steps as
the loop makes passes, at line 63 with `n` and `iteration_count` as in `r`,
and the shared state is as before. -/
theorem doWhile_run {cfg : Config} {w : Nat} (hw : w < cfg.WORKER_COUNT) (fuel : Nat) :
    ∀ (s : State) (r : Nat × Nat), (s.workers w).pc = PC.inner →
      doWhile (s.workers w).localReadLimit fuel (s.workers w).n (s.workers w).iteration_count
        = some r →
      ∃ k, k ≤ fuel ∧ (run cfg s (List.replicate k w)).sh = s.sh ∧
        (run cfg s (List.replicate k w)).workers w =
          { s.workers w with pc := PC.finish, n := r.1, iteration_count := r.2 } := by
  induction fuel with
  | zero => intro s r _ h; simp [doWhile] at h
  | succ f ih =>
    intro s r hpc h
    unfold doWhile at h
    split_ifs at h with hge
    · have hst : step cfg s w = ⟨s.sh, setWorker s.workers w
          { s.workers w with n := (collatzPass (s.workers w).n (s.workers w).iteration_count).1,
                             iteration_count :=
                               (collatzPass (s.workers w).n (s.workers w).iteration_count).2 }⟩ := by
        rw [step_of_lt hw]
        simp only [workerThread, hpc, if_pos hge]
      have hwk : (step cfg s w).workers w =
          { s.workers w with n := (collatzPass (s.workers w).n (s.workers w).iteration_count).1,
                             iteration_count :=
                               (collatzPass (s.workers w).n (s.workers w).iteration_count).2 } := by
        rw [hst]; exact setWorker_same _ _ _
      obtain ⟨k, hk, e1, e2⟩ := ih (step cfg s w) r (by rw [hwk]; exact hpc)
        (by rw [hwk]; exact h)
      refine ⟨k + 1, by omega, ?_, ?_⟩
      · rw [List.replicate_succ, run_cons, e1, hst]
      · rw [List.replicate_succ, run_cons, e2, hwk]
    · have hr : r = collatzPass (s.workers w).n (s.workers w).iteration_count := by
        simpa using h.symm
      have hst : step cfg s w = ⟨s.sh, setWorker s.workers w
          { s.workers w with pc := PC.finish,
                             n := (collatzPass (s.workers w).n (s.workers w).iteration_count).1,
                             iteration_count :=
                               (collatzPass (s.workers w).n (s.workers w).iteration_count).2 }⟩ := by
        rw [step_of_lt hw]
        simp only [workerThread, hpc, if_neg hge]
      refine ⟨1, by omega, ?_, ?_⟩
      · show (step cfg s w).sh = s.sh
        rw [hst]
      · show (step cfg s w).workers w = _
        rw [hst, hr]; exact setWorker_same _ _ _

theorem staysBelow_six : StaysBelow WORD 6 :=
  (walk_sound 20 (by decide : walk WORD 20 6 = some 8)).2

theorem smallCache_right :
    ∀ m, 1 ≤ m → m < 4 → ∃ k, TakesSteps m k ∧ smallCache m = k % SHORT := by
  intro m h1 h4
  interval_cases m
  · exact ⟨0, (walk_sound 20 (by decide : walk WORD 20 1 = some 0)).1, by decide⟩
  · exact ⟨1, (walk_sound 20 (by decide : walk WORD 20 2 = some 1)).1, by decide⟩
  · exact ⟨7, (walk_sound 20 (by decide : walk WORD 20 3 = some 7)).1, by decide⟩

/-- The entries computed for 6 with the snapshots 2 and 4 over `smallCache`. -/
theorem entryFor_six :
    doWhile 2 8 6 0 = some (1, 8) ∧ doWhile 4 8 6 0 = some (3, 1) ∧
    entryFor smallCache 2 8 6 = some 8 ∧ entryFor smallCache 4 8 6 = some 8 := by
  decide

/-- C13, counterexample: the start value `0x5555555555555555`, for which
`3 n + 1` is `2 ^ 64`, leaves the loop after one pass with `n = 0`; the worker
of `unitConfig` that computes it stands at line 63 with `n = 0`, about to read
the sentinel cell, which holds 65535. -/
theorem sentinel_cell_is_read :
    2 ≤ 6148914691236517205 ∧ 6148914691236517205 < WORD ∧
    doWhile 2 1 6148914691236517205 0 = some (0, 2) ∧
    ((run unitConfig sentinelChunk (List.replicate 4 0)).workers 0).pc = PC.finish ∧
    ((run unitConfig sentinelChunk (List.replicate 4 0)).workers 0).n = 0 ∧
    (run unitConfig sentinelChunk (List.replicate 4 0)).sh.globalCache 0 = 65535 := by
  decide

/-- C13, amended: for a 64-bit start value `n ≥ 2` and a snapshot `≥ 1`, the
loop leaves with the value 0 only after a pass on `0x5555555555555555`, the
one value whose `3 n + 1` wraps to 0; when the snapshot is at least 2 and the
Collatz trajectory of `n` fits 64 bits, the exit value is at least 1. -/
theorem exit_zero_only_by_wrap (L fuel n : Nat) (r : Nat × Nat) (hL : 1 ≤ L) (hn : 2 ≤ n)
    (hlt : n < WORD) (h : doWhile L fuel n 0 = some r) :
    (r.1 = 0 → ∃ j, j < fuel ∧ Nat.iterate passValue j n = 6148914691236517205) ∧
    (2 ≤ L → StaysBelow WORD n → 1 ≤ r.1) := by
  refine ⟨doWhile_zero hL fuel n 0 r (by omega) hlt h, ?_⟩
  intro hL2 hb
  obtain ⟨d, hd⟩ := doWhile_on_trajectory hL2 hb fuel n 0 0 r rfl (Nat.zero_mod _).symm
    (fun j hj => absurd hj (Nat.not_lt_zero j)) hn h
  rw [hd]
  exact iterate_collatz_pos (by omega) d

theorem exit_zero_only_by_wrap_witness :
    (∃ j, j < 1 ∧ Nat.iterate passValue j 6148914691236517205 = 6148914691236517205) ∧
    1 ≤ ((1, 8) : Nat × Nat).1 :=
  ⟨(exit_zero_only_by_wrap 2 1 6148914691236517205 (0, 2) (by decide) (by decide) (by decide)
      (by decide)).1 rfl,
   (exit_zero_only_by_wrap 2 8 6 (1, 8) (by decide) (by decide) (by decide)
      (by decide)).2 (by decide) staysBelow_six⟩

/-- C18: for a start value `n` and snapshots `2 ≤ L1 ≤ L2 ≤ n`, when every
cache cell from 1 to below `L2` holds the Collatz step count of its index
modulo 65536 and the trajectory of `n` drops below `L1` after `c` steps
without leaving 64 bits, the loop leaves under both snapshots given fuel for
`c` passes, and the 16-bit entry computed with `L1` equals the one computed
with `L2`: both are the step count of `n` modulo 65536. -/
theorem entry_independent_of_snapshot (cache : Nat → Nat) (n L1 L2 c : Nat)
    (h1 : 2 ≤ L1) (h12 : L1 ≤ L2) (h2n : L2 ≤ n)
    (hcache : ∀ m, 1 ≤ m → m < L2 → ∃ k, TakesSteps m k ∧ cache m = k % SHORT)
    (hdrop : Nat.iterate collatz c n < L1)
    (hfit : ∀ j, j ≤ c → Nat.iterate collatz j n < WORD) :
    ∃ k, TakesSteps n k ∧ ∀ fuel, c ≤ fuel →
      entryFor cache L1 fuel n = some (k % 65536) ∧
      entryFor cache L2 fuel n = some (k % 65536) := by
  obtain ⟨k1, t1, e1⟩ := entry_of_drop h1 (le_trans h12 h2n)
    (fun m a b => hcache m a (lt_of_lt_of_le b h12)) hdrop hfit
  obtain ⟨k2, t2, e2⟩ := entry_of_drop (le_trans h1 h12) h2n hcache
    (lt_of_lt_of_le hdrop h12) hfit
  have hk := takesSteps_unique t2 t1
  subst hk
  exact ⟨k2, t1, fun fuel hf => ⟨e1 fuel hf, e2 fuel hf⟩⟩

theorem entry_independent_of_snapshot_witness :
    ∃ k, TakesSteps 6 k ∧ ∀ fuel, 8 ≤ fuel →
      entryFor smallCache 2 fuel 6 = some (k % 65536) ∧
      entryFor smallCache 4 fuel 6 = some (k % 65536) :=
  entry_independent_of_snapshot smallCache 6 2 4 8 (by decide) (by decide) (by decide)
    smallCache_right (by decide) (by decide)

/-- With the threshold at 0 the test of line 96 always succeeds: a worker at
line 96 clears the run flag with its next step. -/
theorem stopCheck_clears (cfg : Config) (s : State) (w : Nat) (h0 : cfg.STOP_AFTER = 0)
    (hw : w < cfg.WORKER_COUNT) (hpc : (s.workers w).pc = PC.stopCheck) :
    (step cfg s w).sh.programRunning = false := by
  rw [step_of_lt hw]
  simp [workerThread, hpc, h0]

set_option maxRecDepth 100000 in
/-- C11: with the stop threshold at 0 and a pool of two, worker 0 commits the
first chunk, whose local maximum pair is `(2 + 7, 19)`, and the flag is still
set; before worker 0 executes line 96, worker 1 computes the chunk at 18 and
executes lines 80 to 82, so that at the step with which worker 0 clears the
flag the global pair is `(27, 111)` and not `(9, 19)`; and when worker 1 goes
on through line 97 it is worker 1 that clears the flag, with two chunks
committed and worker 0 still at line 96. -/
theorem stop_check_reads_after_release :
    (firstCommitted.sh.commitLog = [2] ∧ (firstCommitted.workers 0).pc = PC.stopCheck ∧
      firstCommitted.sh.programRunning = true ∧
      (firstCommitted.workers 0).localWriteBase = 2 ∧
      (firstCommitted.workers 0).localMaxNOffset = 7 ∧
      (firstCommitted.workers 0).localMaxIterations = 19 ∧
      firstCommitted.sh.globalMaxN = 9 ∧ firstCommitted.sh.globalMaxIterations = 19) ∧
    ((overtaken 184).sh.commitLog = [2] ∧ (overtaken 184).sh.programRunning = true ∧
      ((overtaken 184).workers 0).pc = PC.stopCheck ∧
      ((overtaken 184).workers 1).pc = PC.copy) ∧
    ((step raceConfig (overtaken 184) 0).sh.programRunning = false ∧
      (step raceConfig (overtaken 184) 0).sh.commitLog = [2] ∧
      (step raceConfig (overtaken 184) 0).sh.globalMaxN = 27 ∧
      (step raceConfig (overtaken 184) 0).sh.globalMaxIterations = 111) ∧
    ((overtaken 186).sh.programRunning = true ∧
      (overtaken 187).sh.programRunning = false ∧
      (overtaken 187).sh.commitLog = [2, 18] ∧
      ((overtaken 187).workers 0).pc = PC.stopCheck) := by
  decide

theorem doWhile_exit_lt {L : Nat} (fuel : Nat) :
    ∀ n c r, doWhile L fuel n c = some r → r.1 < L := by
  induction fuel with
  | zero => intro n c r h; simp [doWhile] at h
  | succ f ih =>
    intro n c r h
    unfold doWhile at h
    split_ifs at h with hge
    · exact ih _ _ r h
    · have hr : r = collatzPass n c := by simpa using h.symm
      rw [hr]; omega

theorem doWhile_continue {L n c : Nat} (f : Nat) (h : (collatzPass n c).1 ≥ L) :
    doWhile L (f + 1) n c = doWhile L f (collatzPass n c).1 (collatzPass n c).2 := by
  rw [doWhile, if_pos h]

theorem doWhile_leave {L n c : Nat} (f : Nat) (h : ¬ (collatzPass n c).1 ≥ L) :
    doWhile L (f + 1) n c = some (collatzPass n c) := by
  rw [doWhile, if_neg h]

/-- Only the `memcpy` of lines 86 to 92 changes the cache. -/
theorem cache_changes_at_copy {cfg : Config} {sh : Shared} {wk : Worker}
    (h : wk.pc ≠ PC.copy) : (workerThread cfg sh wk).1.globalCache = sh.globalCache := by
  revert h
  cases hpc : wk.pc <;> simp only [workerThread, hpc, enterOffset] <;> (try split_ifs) <;> simp

/-- The tie of a worker to its loop survives a change of the shared state
that does not lower the read limit below the snapshot and leaves the cells
below the snapshot, and for a worker at line 94 the whole cache, alone. -/
theorem looped_shared {cfg : Config} {sh sh2 : Shared} {wk : Worker} {L : Nat}
    (h : Looped cfg sh wk L) (h1 : L ≤ sh2.globalReadLimit)
    (h2 : ∀ n, n < L → sh2.globalCache n = sh.globalCache n)
    (h3 : wk.pc = PC.store → sh2.globalCache = sh.globalCache) : Looped cfg sh2 wk L := by
  refine ⟨h.two, h1, h.snap, h.head, h.exit, ?_, ?_⟩
  · intro i hi
    obtain ⟨fuel, r, hr, e⟩ := h.totals i hi
    exact ⟨fuel, r, hr, by rw [h2 _ (doWhile_exit_lt fuel _ _ r hr)]; exact e⟩
  · intro hpc i hi
    rw [h3 hpc]; exact h.copied hpc i hi

/-- One statement of a worker keeps its totals tied to its loop; at line 41
the tie starts afresh with the snapshot just taken. -/
theorem looped_worker {cfg : Config} (hf : Fits cfg) {sh : Shared} {wk : Worker}
    (hnar : Narrow cfg wk) (h2 : 2 ≤ sh.globalReadLimit)
    (hold : wk.pc.computing = true ∨ wk.pc.computed = true → ∃ L, Looped cfg sh wk L)
    (hbase : wk.pc = PC.copy → wk.localWriteBase = sh.globalReadLimit)
    (hnew : (workerThread cfg sh wk).2.pc.computing = true ∨
      (workerThread cfg sh wk).2.pc.computed = true) :
    ∃ L, Looped cfg (workerThread cfg sh wk).1 (workerThread cfg sh wk).2 L := by
  cases hpc : wk.pc
  case loopTest =>
    simp only [workerThread, hpc] at hnew
    split_ifs at hnew <;> simp [PC.computing, PC.computed] at hnew
  case claim =>
    simp only [workerThread, hpc] at hnew
    simp [PC.computing, PC.computed] at hnew
  case stopCheck =>
    simp only [workerThread, hpc] at hnew
    split_ifs at hnew <;> simp [PC.computing, PC.computed] at hnew
  case store =>
    simp only [workerThread, hpc] at hnew
    simp [PC.computing, PC.computed] at hnew
  case done =>
    simp only [workerThread, hpc] at hnew
    simp [PC.computing, PC.computed, hpc] at hnew
  case snapshot =>
    simp only [workerThread, hpc, enterOffset, if_pos hf.1]
    refine ⟨sh.globalReadLimit, h2, le_rfl, fun _ => rfl, ?_, ?_, ?_, ?_⟩
    · intro _ fuel r hr
      exact ⟨fuel, hr⟩
    · intro h; simp at h
    · intro i hi; simp [progress, PC.computing] at hi
    · intro h; simp at h
  case inner =>
    obtain ⟨L, hL⟩ := hold (Or.inl (by simp [hpc, PC.computing]))
    have hsnap := hL.snap (Or.inl (by simp [hpc, PC.computing]))
    have hhead := hL.head hpc
    have htot := hL.totals
    simp only [progress, hpc, PC.computing, if_true] at htot
    simp only [workerThread, hpc]
    rw [hsnap]
    split_ifs with hge
    · refine ⟨L, hL.two, hL.below, fun _ => rfl, ?_, ?_, ?_, ?_⟩
      · intro _ fuel r hr
        exact hhead (fuel + 1) r (by rw [doWhile_continue fuel hge]; exact hr)
      · intro h; simp [hpc] at h
      · intro i hi
        simp only [progress, hpc, PC.computing, if_true] at hi
        exact htot i hi
      · intro h; simp [hpc] at h
    · refine ⟨L, hL.two, hL.below, fun _ => rfl, ?_, ?_, ?_, ?_⟩
      · intro h; simp at h
      · intro _
        exact hhead 1 _ (doWhile_leave 0 hge)
      · intro i hi
        simp only [progress, PC.computing, if_true] at hi
        exact htot i hi
      · intro h; simp at h
  case finish =>
    have hc : wk.pc.computing = true := by simp [hpc, PC.computing]
    obtain ⟨L, hL⟩ := hold (Or.inl hc)
    have hsnap := hL.snap (Or.inl hc)
    obtain ⟨fuel0, hexit⟩ := hL.exit hpc
    have htot := hL.totals
    simp only [progress, hc, if_true] at htot
    have hoff := hnar.off hc
    have hmod : (wk.offset + 1) % WORD = wk.offset + 1 :=
      Nat.mod_eq_of_lt (by have := hf.2.1; omega)
    have hcells : ∀ i, i < wk.offset + 1 → ∃ fuel r,
        doWhile L fuel ((wk.localWriteBase + i) % WORD) 0 = some r ∧
        setCell wk.localTotals wk.offset ((sh.globalCache wk.n + wk.iteration_count) % WORD) i =
          (sh.globalCache r.1 + r.2) % WORD := by
      intro i hi
      unfold setCell
      by_cases hio : i = wk.offset
      · rw [if_pos hio, hio]
        exact ⟨fuel0, _, hexit, rfl⟩
      · rw [if_neg hio]; exact htot i (by omega)
    simp only [workerThread, hpc, hmod, enterOffset]
    split_ifs with hnext hgt hgt
    · refine ⟨L, hL.two, hL.below, fun _ => hsnap, ?_, ?_, ?_, ?_⟩
      · intro _ fuel r hr; exact ⟨fuel, hr⟩
      · intro h; simp at h
      · intro i hi
        simp only [progress, PC.computing, if_true] at hi
        exact hcells i hi
      · intro h; simp at h
    · refine ⟨L, hL.two, hL.below, fun _ => hsnap, ?_, ?_, ?_, ?_⟩
      · intro _ fuel r hr; exact ⟨fuel, hr⟩
      · intro h; simp at h
      · intro i hi
        simp only [progress, PC.computing, if_true] at hi
        exact hcells i hi
      · intro h; simp at h
    · have he : cfg.WORK_CHUNK_SIZE = wk.offset + 1 := by omega
      refine ⟨L, hL.two, hL.below, fun _ => hsnap, ?_, ?_, ?_, ?_⟩
      · intro h; simp at h
      · intro h; simp at h
      · intro i hi
        simp only [progress, PC.computing, PC.computed, if_true] at hi
        exact hcells i (by simp at hi; omega)
      · intro h; simp at h
    · have he : cfg.WORK_CHUNK_SIZE = wk.offset + 1 := by omega
      refine ⟨L, hL.two, hL.below, fun _ => hsnap, ?_, ?_, ?_, ?_⟩
      · intro h; simp at h
      · intro h; simp at h
      · intro i hi
        simp only [progress, PC.computing, PC.computed, if_true] at hi
        exact hcells i (by simp at hi; omega)
      · intro h; simp at h
  case await =>
    have hc : wk.pc.computed = true := by simp [hpc, PC.computed]
    obtain ⟨L, hL⟩ := hold (Or.inr hc)
    have hsnap := hL.snap (Or.inr hpc)
    have htot := hL.totals
    simp only [progress, hpc, PC.computing, PC.computed] at htot
    simp only [workerThread, hpc]
    split_ifs
    · refine ⟨L, hL.two, hL.below, fun _ => hsnap, ?_, ?_, ?_, ?_⟩
      · intro h; simp [hpc] at h
      · intro h; simp [hpc] at h
      · intro i hi
        simp only [progress, hpc, PC.computing, PC.computed] at hi
        exact htot i hi
      · intro h; simp [hpc] at h
    · refine ⟨L, hL.two, hL.below, ?_, ?_, ?_, ?_, ?_⟩
      · intro h; simp [PC.computing] at h
      · intro h; simp at h
      · intro h; simp at h
      · intro i hi
        simp only [progress, PC.computing, PC.computed] at hi
        exact htot i hi
      · intro h; simp at h
  case reload =>
    have hc : wk.pc.computed = true := by simp [hpc, PC.computed]
    obtain ⟨L, hL⟩ := hold (Or.inr hc)
    have htot := hL.totals
    simp only [progress, hpc, PC.computing, PC.computed] at htot
    simp only [workerThread, hpc]
    refine ⟨L, hL.two, hL.below, ?_, ?_, ?_, ?_, ?_⟩
    · intro h; simp [PC.computing] at h
    · intro h; simp at h
    · intro h; simp at h
    · intro i hi
      simp only [progress, PC.computing, PC.computed] at hi
      exact htot i hi
    · intro h; simp at h
  case updateMax =>
    have hc : wk.pc.computed = true := by simp [hpc, PC.computed]
    obtain ⟨L, hL⟩ := hold (Or.inr hc)
    have htot := hL.totals
    simp only [progress, hpc, PC.computing, PC.computed] at htot
    simp only [workerThread, hpc]
    split_ifs
    · refine ⟨L, hL.two, hL.below, ?_, ?_, ?_, ?_, ?_⟩
      · intro h; simp [PC.computing] at h
      · intro h; simp at h
      · intro h; simp at h
      · intro i hi
        simp only [progress, PC.computing, PC.computed] at hi
        exact htot i hi
      · intro h; simp at h
    · refine ⟨L, hL.two, hL.below, ?_, ?_, ?_, ?_, ?_⟩
      · intro h; simp [PC.computing] at h
      · intro h; simp at h
      · intro h; simp at h
      · intro i hi
        simp only [progress, PC.computing, PC.computed] at hi
        exact htot i hi
      · intro h; simp at h
  case copy =>
    have hc : wk.pc.computed = true := by simp [hpc, PC.computed]
    obtain ⟨L, hL⟩ := hold (Or.inr hc)
    have htot := hL.totals
    simp only [progress, hpc, PC.computing, PC.computed] at htot
    have hb := hbase hpc
    have hbelow := hL.below
    simp only [workerThread, hpc]
    refine ⟨L, hL.two, hL.below, ?_, ?_, ?_, ?_, ?_⟩
    · intro h; simp [PC.computing] at h
    · intro h; simp at h
    · intro h; simp at h
    · intro i hi
      simp only [progress, PC.computing, PC.computed] at hi
      obtain ⟨fuel, r, hr, e⟩ := htot i hi
      refine ⟨fuel, r, hr, ?_⟩
      have hlt := doWhile_exit_lt fuel _ _ r hr
      show wk.localTotals i = (memcpy sh.globalCache wk.localCache wk.localWriteBase
        (copyCount cfg wk.localWriteBase) r.1 + r.2) % WORD
      unfold memcpy
      rw [if_neg (by omega)]
      exact e
    · intro _ i hi
      have hi2 : i < copyCount cfg wk.localWriteBase := hi
      show memcpy sh.globalCache wk.localCache wk.localWriteBase
        (copyCount cfg wk.localWriteBase) (wk.localWriteBase + i) = wk.localCache i
      unfold memcpy
      rw [if_pos ⟨Nat.le_add_right _ _, by omega⟩, Nat.add_sub_cancel_left]

theorem loops_main (cfg : Config) (boot : Boot) : Loops cfg (main cfg boot) := by
  refine ⟨⟨rfl, rfl⟩, ?_, ?_⟩
  · intro n h2 hlt _
    have : n < 2 := hlt
    omega
  · intro w _ h
    simp [main, freshWorker, PC.computing, PC.computed] at h

/-- A worker at line 86 or 94 holds the chunk that starts at the read limit. -/
theorem inTurn_base {cfg : Config} {s : State} (hi : Inv cfg s) {w : Nat}
    (hw : w < cfg.WORKER_COUNT) (ht : (s.workers w).pc.inTurn = true) :
    (s.workers w).localWriteBase = s.sh.globalReadLimit := by
  rw [(hi.held w hw (inTurn_holds ht)).2.2, hi.turn w hw ht, hi.readLimit]

theorem loops_step {cfg : Config} (hf : Fits cfg) {s : State} (hi : Inv cfg s)
    (hn : NoWrap cfg s) (hnar : ∀ v, Narrow cfg (s.workers v)) (h : Loops cfg s) (w : Nat) :
    Loops cfg (step cfg s w) := by
  by_cases hw : w < cfg.WORKER_COUNT
  swap
  · rw [step_of_ge hw]; exact h
  obtain ⟨hmono, hsame⟩ := step_below_limit hi hn w
  have hrl := readLimit_eq hi hn
  have h2 : 2 ≤ s.sh.globalReadLimit := by omega
  have hsh : (step cfg s w).sh = (workerThread cfg s.sh (s.workers w)).1 := by
    rw [step_of_lt hw]
  have hwks : (step cfg s w).workers =
      setWorker s.workers w (workerThread cfg s.sh (s.workers w)).2 := by
    rw [step_of_lt hw]
  refine ⟨?_, ?_, ?_⟩
  · rw [hsame 0 (by omega), hsame 1 (by omega)]; exact h.seed
  · intro n h2n hlt hcs
    by_cases hold : n < s.sh.globalReadLimit
    · obtain ⟨L, fuel, r, a, b, c, d⟩ := h.cells n h2n hold hcs
      refine ⟨L, fuel, r, a, b, c, ?_⟩
      have hr1 : r.1 < s.sh.globalReadLimit := by
        have := doWhile_exit_lt fuel _ _ r c
        omega
      rw [hsame n hold, hsame r.1 hr1]
      exact d
    · have hne : (workerThread cfg s.sh (s.workers w)).1.globalReadLimit ≠
          s.sh.globalReadLimit := by
        rw [← hsh]; omega
      have hpc := readLimit_changes_at_store hne
      have hbase := inTurn_base hi hw (by simp [hpc, PC.inTurn])
      have hlim := hi.limit w hw (by simp [hpc, PC.reloaded])
      obtain ⟨-, hfit, -⟩ := held_eq hi hn hw (by simp [hpc, PC.holds])
      have hnewRL : (step cfg s w).sh.globalReadLimit =
          s.sh.globalReadLimit + cfg.WORK_CHUNK_SIZE := by
        rw [hsh]
        simp only [workerThread, hpc]
        rw [hlim, Nat.mod_eq_of_lt (by omega)]
      have hcache : (step cfg s w).sh.globalCache = s.sh.globalCache := by
        rw [hsh]; exact cache_changes_at_copy (by rw [hpc]; decide)
      obtain ⟨L, hL⟩ := h.workers w hw (Or.inr (by simp [hpc, PC.computed]))
      have hcnt := copyCount_of_le hf (a := (s.workers w).localWriteBase) (by omega)
      have hi1 : n - (s.workers w).localWriteBase < cfg.WORK_CHUNK_SIZE := by omega
      have hi2 : n - (s.workers w).localWriteBase < copyCount cfg (s.workers w).localWriteBase := by
        rw [hcnt, Nat.lt_min]; omega
      have hn_eq : (s.workers w).localWriteBase + (n - (s.workers w).localWriteBase) = n := by
        omega
      have hcop := hL.copied hpc _ hi2
      have hcell := (hnar w).cells (n - (s.workers w).localWriteBase)
        (by simp [progress, hpc, PC.computing, PC.computed]; exact hi1)
      obtain ⟨fuel, r, hr, e⟩ := hL.totals (n - (s.workers w).localWriteBase)
        (by simp [progress, hpc, PC.computing, PC.computed]; exact hi1)
      rw [hn_eq, Nat.mod_eq_of_lt (by omega)] at hr
      rw [hn_eq] at hcop
      refine ⟨L, fuel, r, hL.two, by have := hL.below; omega, hr, ?_⟩
      rw [hcache, hcop, hcell, e]
  · intro v hv hpcv
    rw [hsh]
    by_cases hvw : v = w
    · subst hvw
      rw [hwks, setWorker_same] at hpcv ⊢
      exact looped_worker hf (hnar v) h2 (h.workers v hv)
        (fun hc => inTurn_base hi hv (by simp [hc, PC.inTurn])) hpcv
    · rw [hwks, setWorker_other _ _ hvw] at hpcv ⊢
      obtain ⟨L, hL⟩ := h.workers v hv hpcv
      refine ⟨L, looped_shared hL ?_ ?_ ?_⟩
      · rw [← hsh]; exact le_trans hL.below hmono
      · intro n hn
        rw [← hsh]; exact hsame n (lt_of_lt_of_le hn hL.below)
      · intro hst
        apply cache_changes_at_copy
        intro hc
        exact hvw (inTurn_unique hi hv hw (by simp [hst, PC.inTurn]) (by simp [hc, PC.inTurn]))

theorem reachable_loops {cfg : Config} (hf : Fits cfg) {boot : Boot} {s : State}
    (h : Reachable cfg boot s) (hn : NoWrap cfg s) : Loops cfg s := by
  induction h with
  | start => exact loops_main cfg boot
  | next s w hr ih =>
    have hn0 := noWrap_of_step hn
    exact loops_step hf (reachable_inv hf hr) hn0 (reachable_narrow hf hr) (ih hn0) w

/-- C6, as amended: while the chunk counter does not wrap, every index below
`ReadLimit` and below `CACHE_SIZE` has been written: cell 0 holds the sentinel
and cell 1 holds 0, as `main` seeded them, and every other cell lies inside the
copied range of a committed chunk and holds the 16-bit entry that lines 47 to
65 compute for its index from the cells below a snapshot `L` with
`2 ≤ L ≤ index`; no later step changes a cell below `ReadLimit`; the index a
worker reads after its compute loop is below its snapshot, which is at most
`ReadLimit`, and is inside the cache whenever that snapshot does not exceed
`CACHE_SIZE`. -/
theorem cells_below_limit_final (cfg : Config) (boot : Boot) (s : State) (sched : List Nat)
    (hf : Fits cfg) (hr : Reachable cfg boot s) (hn : NoWrap cfg (run cfg s sched)) :
    (∀ n, n < s.sh.globalReadLimit → n < cfg.CACHE_SIZE →
      (n = 0 ∧ s.sh.globalCache 0 = 65535) ∨ (n = 1 ∧ s.sh.globalCache 1 = 0) ∨
      (2 ≤ n ∧ (∃ a, a ∈ s.sh.commitLog ∧ a ≤ n ∧ n < a + copyCount cfg a) ∧
        ∃ L fuel, 2 ≤ L ∧ L ≤ n ∧
          entryFor s.sh.globalCache L fuel n = some (s.sh.globalCache n))) ∧
    (∀ n, n < s.sh.globalReadLimit →
      (run cfg s sched).sh.globalCache n = s.sh.globalCache n) ∧
    (∀ w, w < cfg.WORKER_COUNT → (s.workers w).pc = PC.finish →
      (s.workers w).n < (s.workers w).localReadLimit ∧
      (s.workers w).localReadLimit ≤ s.sh.globalReadLimit ∧
      ((s.workers w).localReadLimit ≤ cfg.CACHE_SIZE → (s.workers w).n < cfg.CACHE_SIZE)) := by
  have hn0 := noWrap_of_run sched hn
  have hi := reachable_inv hf hr
  have hlp := reachable_loops hf hr hn0
  have hpos := hf.1
  refine ⟨?_, run_below_limit hf sched hr hn, ?_⟩
  · intro n h1 h2
    by_cases h0 : n = 0
    · exact Or.inl ⟨h0, hlp.seed.1⟩
    by_cases h01 : n = 1
    · exact Or.inr (Or.inl ⟨h01, hlp.seed.2⟩)
    right; right
    refine ⟨by omega, ?_, ?_⟩
    · rw [readLimit_eq hi hn0] at h1
      have hk : (n - 2) / cfg.WORK_CHUNK_SIZE < s.sh.commitLog.length := by
        rw [Nat.div_lt_iff_lt_mul hpos]; omega
      have ha := chunkStart_of_le hn0 (le_trans hk.le (commits_le_claims hi))
      have hd1 := Nat.div_mul_le_self (n - 2) cfg.WORK_CHUNK_SIZE
      have hd2 := Nat.lt_div_mul_add hpos (a := n - 2)
      refine ⟨chunkStart cfg ((n - 2) / cfg.WORK_CHUNK_SIZE), ?_, ?_, ?_⟩
      · rw [hi.commitLog]
        exact List.mem_map.mpr ⟨_, List.mem_range.mpr hk, rfl⟩
      · rw [ha]; omega
      · rw [copyCount_of_le hf (by rw [ha]; omega), ha]
        have : n - (2 + (n - 2) / cfg.WORK_CHUNK_SIZE * cfg.WORK_CHUNK_SIZE)
            < min cfg.WORK_CHUNK_SIZE
              (cfg.CACHE_SIZE - (2 + (n - 2) / cfg.WORK_CHUNK_SIZE * cfg.WORK_CHUNK_SIZE)) := by
          rw [Nat.lt_min]; omega
        omega
    · obtain ⟨L, fuel, r, a, b, c, d⟩ := hlp.cells n (by omega) h1 h2
      refine ⟨L, fuel, a, b, ?_⟩
      unfold entryFor
      rw [c, Option.map_some', d]
  · intro w hw hpc
    have hwk := (reachable_compute hf hr hn0).2 w hw
    obtain ⟨m, hm, hL⟩ := hwk.snap (by simp [hpc, PC.computing])
    have hlow := hwk.low hpc
    have hle := (chunkStart_le_readLimit hi hn0 hm).2
    rw [← hL] at hle
    exact ⟨hlow, hle, fun h => lt_of_lt_of_le hlow h⟩

set_option maxRecDepth 100000 in
theorem cells_below_limit_final_witness :
    ((7 = 0 ∧ readingNine.sh.globalCache 0 = 65535) ∨
      (7 = 1 ∧ readingNine.sh.globalCache 1 = 0) ∨
      (2 ≤ 7 ∧ (∃ a, a ∈ readingNine.sh.commitLog ∧ a ≤ 7 ∧ 7 < a + copyCount testConfig a) ∧
        ∃ L fuel, 2 ≤ L ∧ L ≤ 7 ∧
          entryFor readingNine.sh.globalCache L fuel 7 = some (readingNine.sh.globalCache 7))) ∧
    (run testConfig readingNine [1, 2, 2, 0, 0]).sh.globalCache 7 =
      readingNine.sh.globalCache 7 ∧
    (readingNine.workers 1).n < (readingNine.workers 1).localReadLimit ∧
    (readingNine.workers 1).localReadLimit ≤ readingNine.sh.globalReadLimit ∧
    (readingNine.workers 1).n < testConfig.CACHE_SIZE :=
  ⟨(cells_below_limit_final testConfig zeroBoot readingNine [1, 2, 2, 0, 0] (by decide)
      readingNine_reachable (by decide)).1 7 (by decide) (by decide),
   (cells_below_limit_final testConfig zeroBoot readingNine [1, 2, 2, 0, 0] (by decide)
      readingNine_reachable (by decide)).2.1 7 (by decide),
   ((cells_below_limit_final testConfig zeroBoot readingNine [1, 2, 2, 0, 0] (by decide)
      readingNine_reachable (by decide)).2.2 1 (by decide) (by decide)).1,
   ((cells_below_limit_final testConfig zeroBoot readingNine [1, 2, 2, 0, 0] (by decide)
      readingNine_reachable (by decide)).2.2 1 (by decide) (by decide)).2.1,
   ((cells_below_limit_final testConfig zeroBoot readingNine [1, 2, 2, 0, 0] (by decide)
      readingNine_reachable (by decide)).2.2 1 (by decide) (by decide)).2.2 (by decide)⟩

set_option maxRecDepth 100000 in
/-- The cell of 7 after the first commit: the loop from 7 with the snapshot 2
leaves at 1 after 16 steps, and the cell holds `cache[1] + 16 = 16`. -/
theorem cell_seven :
    doWhile 2 16 7 0 = some (1, 16) ∧ readingNine.sh.globalCache 7 = 16 ∧
    entryFor readingNine.sh.globalCache 2 16 7 = some (readingNine.sh.globalCache 7) := by
  decide

/-- C15: while the chunk counter has not wrapped, a worker that has left the
compute phase has, for every offset of its chunk and whether or not the value
lies inside the cache, recorded the total `cache[m] + count` of the loop of
lines 50 to 61 run from `chunkStart + offset` with its snapshot `L` (its
`localReadLimit` until line 78 overwrites it), `m` being the exit value; the
scratch entries are these totals modulo 65536; `localMaxIterations` is the
maximum of these totals over all `WORK_CHUNK_SIZE` offsets, and
`localMaxNOffset` is the smallest offset whose total attains that maximum. -/
theorem local_max_is_chunk_max (cfg : Config) (boot : Boot) (s : State) (w : Nat)
    (hf : Fits cfg) (hr : Reachable cfg boot s) (hn : NoWrap cfg s)
    (hw : w < cfg.WORKER_COUNT) (hpc : (s.workers w).pc.computed = true) :
    (∃ L, 2 ≤ L ∧ L ≤ (s.workers w).localWriteBase ∧
      ((s.workers w).pc = PC.await → (s.workers w).localReadLimit = L) ∧
      ∀ i, i < cfg.WORK_CHUNK_SIZE → ∃ fuel r,
        doWhile L fuel ((s.workers w).localWriteBase + i) 0 = some r ∧
        (s.workers w).localTotals i = (s.sh.globalCache r.1 + r.2) % WORD) ∧
    (∀ i, i < cfg.WORK_CHUNK_SIZE →
      (s.workers w).localCache i = (s.workers w).localTotals i % 65536) ∧
    (∀ i, i < cfg.WORK_CHUNK_SIZE →
      (s.workers w).localTotals i ≤ (s.workers w).localMaxIterations) ∧
    (s.workers w).localMaxNOffset < cfg.WORK_CHUNK_SIZE ∧
    (s.workers w).localTotals (s.workers w).localMaxNOffset =
      (s.workers w).localMaxIterations ∧
    (∀ i, i < (s.workers w).localMaxNOffset →
      (s.workers w).localTotals i < (s.workers w).localMaxIterations) := by
  have hi := reachable_inv hf hr
  have ht := (reachable_track hf hr hn).loc w hw (Or.inr hpc)
  have hprog : progress cfg (s.workers w) = cfg.WORK_CHUNK_SIZE := by
    unfold progress
    revert hpc
    cases (s.workers w).pc <;> simp [PC.computed, PC.computing]
  have hholds : (s.workers w).pc.holds = true := by
    revert hpc
    cases (s.workers w).pc <;> simp [PC.computed, PC.holds]
  obtain ⟨hle, hfit, -⟩ := held_eq hi hn hw hholds
  obtain ⟨L, hL⟩ := (reachable_loops hf hr hn).workers w hw (Or.inr hpc)
  have hcells := (reachable_narrow hf hr w).cells
  have htot := hL.totals
  rw [hprog] at ht hcells htot
  obtain ⟨hb, hz, hp⟩ := ht
  have hpos := hf.1
  refine ⟨⟨L, hL.two, le_trans hL.below hle, fun ha => hL.snap (Or.inr ha), ?_⟩, hcells,
    fun i hi => hb i (Nat.zero_le _) hi, ?_⟩
  · intro i hi
    obtain ⟨fuel, r, h1, h2⟩ := htot i hi
    rw [Nat.mod_eq_of_lt (by omega)] at h1
    exact ⟨fuel, r, h1, h2⟩
  by_cases h0 : (s.workers w).localMaxIterations = 0
  · have hoff := hz h0
    have := hb 0 (Nat.zero_le _) hpos
    rw [hoff]
    exact ⟨hpos, by omega, fun i hi => absurd hi (Nat.not_lt_zero i)⟩
  · obtain ⟨-, b, c, d⟩ := hp (by omega)
    exact ⟨b, c, fun i hi => d i (Nat.zero_le _) hi⟩

set_option maxRecDepth 100000 in
theorem local_max_is_chunk_max_witness :
    (∃ L, 2 ≤ L ∧ L ≤ (beforeStore.workers 0).localWriteBase ∧
      ((beforeStore.workers 0).pc = PC.await → (beforeStore.workers 0).localReadLimit = L) ∧
      ∀ i, i < testConfig.WORK_CHUNK_SIZE → ∃ fuel r,
        doWhile L fuel ((beforeStore.workers 0).localWriteBase + i) 0 = some r ∧
        (beforeStore.workers 0).localTotals i = (beforeStore.sh.globalCache r.1 + r.2) % WORD) ∧
    (∀ i, i < testConfig.WORK_CHUNK_SIZE →
      (beforeStore.workers 0).localCache i = (beforeStore.workers 0).localTotals i % 65536) ∧
    (∀ i, i < testConfig.WORK_CHUNK_SIZE →
      (beforeStore.workers 0).localTotals i ≤ (beforeStore.workers 0).localMaxIterations) ∧
    (beforeStore.workers 0).localMaxNOffset < testConfig.WORK_CHUNK_SIZE ∧
    (beforeStore.workers 0).localTotals (beforeStore.workers 0).localMaxNOffset =
      (beforeStore.workers 0).localMaxIterations ∧
    (∀ i, i < (beforeStore.workers 0).localMaxNOffset →
      (beforeStore.workers 0).localTotals i < (beforeStore.workers 0).localMaxIterations) :=
  local_max_is_chunk_max testConfig zeroBoot beforeStore 0 (by decide) beforeStore_reachable
    (by decide) (by decide) (by decide)

set_option maxRecDepth 100000 in
/-- The first chunk of the test configuration right after its compute phase:
the snapshot is 2, the maximum 19 is the total of the value 9 at offset 7, and
the loop from 9 leaves at 1 after 19 steps. -/
theorem first_chunk_max :
    ((run testConfig (main testConfig zeroBoot) (List.replicate 130 0)).workers 0).pc
      = PC.await ∧
    ((run testConfig (main testConfig zeroBoot) (List.replicate 130 0)).workers 0).localReadLimit
      = 2 ∧
    (beforeStore.workers 0).localMaxNOffset = 7 ∧
    (beforeStore.workers 0).localMaxIterations = 19 ∧
    doWhile 2 19 9 0 = some (1, 19) ∧ beforeStore.sh.globalCache 1 = 0 := by
  decide

end tnp1
